import Mathlib

/-!
Verification of the `toolbox` CSV data-quality scripts
(`src/data/data-quality/unorganized/clean_*.py`) against their
natural-language specification.

The Python sources are shallowly embedded: Python strings become `List Char`,
pandas cells become `Option (List Char)` (`none` models a missing value /
`NaN`), pandas data frames become a `Table` structure, throwing code returns
`Except`, and the `urllib.parse` / `re` operations actually used by the
scripts are reproduced as executable Lean functions.  Machine floats are
idealised as exact rationals with an explicit overflow threshold (see
`PyFloat`).  Unicode-only behaviour (non-ASCII case mapping, non-ASCII digit
classes) is modelled on the ASCII fragment, which is the fragment all claims
and counterexamples exercise.
-/

set_option autoImplicit false
set_option maxRecDepth 10000
set_option exponentiation.threshold 1000

namespace Toolbox

/-- Python strings are modelled as lists of characters. -/
abbrev Str := List Char

/-- A CSV cell: `none` models a missing value (pandas `NaN`). -/
abbrev Cell := Option Str

deriving instance DecidableEq for Except

/-- Characters treated as whitespace by Python `str.strip()` (ASCII fragment:
space, tab, newline, carriage return, vertical tab, form feed). -/
def pyWs (c : Char) : Bool :=
  c = ' ' || c = '\t' || c = '\n' || c = '\r' || c = '\x0b' || c = '\x0c'

/-- Model of Python `str.strip()` with no arguments. -/
def pyStrip (s : Str) : Str :=
  ((s.dropWhile pyWs).reverse.dropWhile pyWs).reverse

/-- Model of Python `str.rstrip("/")`. -/
def rstripSlash (s : Str) : Str :=
  (s.reverse.dropWhile (· = '/')).reverse

/-- Model of Python `str(x)` for a cell: a missing value prints as `"nan"`. -/
def pyStr (c : Cell) : Str :=
  match c with
  | none => "nan".data
  | some s => s

/-- Model of `re.sub(r"//+", "/", s)`: collapse every run of slashes to one
(the flag records whether the previous kept character was a slash, so the
first slash of each run is kept and the rest of the run is dropped). -/
def collapseAux : Bool → Str → Str
  | _, [] => []
  | prevSlash, c :: rest =>
    if c = '/' then
      if prevSlash then collapseAux true rest else '/' :: collapseAux true rest
    else c :: collapseAux false rest

/-- Model of `re.sub(r"//+", "/", s)`. -/
def collapseSlashes (s : Str) : Str := collapseAux false s

/-- Model of Python `str.split(sep)` for a one-character separator. -/
def splitOnChar (sep : Char) : Str → List Str
  | [] => [[]]
  | c :: rest =>
    if c = sep then [] :: splitOnChar sep rest
    else
      match splitOnChar sep rest with
      | seg :: segs => (c :: seg) :: segs
      | [] => [[c]]

/-- First component: the prefix before the first character satisfying `p`;
second component: the rest of the string (beginning with that character). -/
def breakAtFirst (p : Char → Bool) (s : Str) : Str × Str :=
  (s.takeWhile (fun c => !(p c)), s.dropWhile (fun c => !(p c)))

/-- ASCII uppercase letter. -/
def isUpperAscii (c : Char) : Bool := 'A' ≤ c && c ≤ 'Z'

/-- ASCII lowercase letter. -/
def isLowerAscii (c : Char) : Bool := 'a' ≤ c && c ≤ 'z'

/-- ASCII letter, the class `[A-Za-z]`. -/
def isAlphaAscii (c : Char) : Bool := isUpperAscii c || isLowerAscii c

/-- ASCII digit, the class `[0-9]` (Python `\d`, ASCII fragment). -/
def isDigitAscii (c : Char) : Bool := '0' ≤ c && c ≤ '9'

/-- Model of Python `str.lower()` (ASCII fragment), written as the explicit
26-case letter table. -/
def lowerChar (c : Char) : Char :=
  if c = 'A' then 'a' else if c = 'B' then 'b' else if c = 'C' then 'c' else
  if c = 'D' then 'd' else if c = 'E' then 'e' else if c = 'F' then 'f' else
  if c = 'G' then 'g' else if c = 'H' then 'h' else if c = 'I' then 'i' else
  if c = 'J' then 'j' else if c = 'K' then 'k' else if c = 'L' then 'l' else
  if c = 'M' then 'm' else if c = 'N' then 'n' else if c = 'O' then 'o' else
  if c = 'P' then 'p' else if c = 'Q' then 'q' else if c = 'R' then 'r' else
  if c = 'S' then 's' else if c = 'T' then 't' else if c = 'U' then 'u' else
  if c = 'V' then 'v' else if c = 'W' then 'w' else if c = 'X' then 'x' else
  if c = 'Y' then 'y' else if c = 'Z' then 'z' else c

/-- Model of Python `str.upper()` (ASCII fragment), written as the explicit
26-case letter table. -/
def upperChar (c : Char) : Char :=
  if c = 'a' then 'A' else if c = 'b' then 'B' else if c = 'c' then 'C' else
  if c = 'd' then 'D' else if c = 'e' then 'E' else if c = 'f' then 'F' else
  if c = 'g' then 'G' else if c = 'h' then 'H' else if c = 'i' then 'I' else
  if c = 'j' then 'J' else if c = 'k' then 'K' else if c = 'l' then 'L' else
  if c = 'm' then 'M' else if c = 'n' then 'N' else if c = 'o' then 'O' else
  if c = 'p' then 'P' else if c = 'q' then 'Q' else if c = 'r' then 'R' else
  if c = 's' then 'S' else if c = 't' then 'T' else if c = 'u' then 'U' else
  if c = 'v' then 'V' else if c = 'w' then 'W' else if c = 'x' then 'X' else
  if c = 'y' then 'Y' else if c = 'z' then 'Z' else c

/-- Model of Python `str.title()` (ASCII fragment): the first letter of every
maximal letter run is uppercased, the rest are lowercased. -/
def pyTitleAux : Bool → Str → Str
  | _, [] => []
  | prevAlpha, c :: rest =>
    if isAlphaAscii c then
      (if prevAlpha then lowerChar c else upperChar c) :: pyTitleAux true rest
    else
      c :: pyTitleAux false rest

/-- Model of Python `str.title()` (ASCII fragment). -/
def pyTitle (s : Str) : Str := pyTitleAux false s

/-! ## Model of `urllib.parse.urlparse` (CPython `urllib/parse.py`)

Only the pieces exercised by the scripts are modelled: WHATWG control/space
left-strip, removal of tab/CR/LF, scheme detection, netloc splitting with the
"Invalid IPv6 URL" bracket check, fragment and query splitting, and the
params split performed by `urlparse` on the last path segment.  The NFKC
netloc check and bracketed-host validation (which only concern non-ASCII and
bracketed inputs) are not modelled. -/

/-- Characters accepted in a URL scheme after the first letter
(CPython `scheme_chars`). -/
def schemeChar (c : Char) : Bool :=
  isAlphaAscii c || isDigitAscii c || c = '+' || c = '-' || c = '.'

/-- WHATWG C0-control-or-space characters, left-stripped by `urlsplit`. -/
def c0Space (c : Char) : Bool := c.toNat ≤ 0x20

/-- `urlsplit` removes every tab, carriage return and newline from the URL. -/
def removeUnsafeUrl (s : Str) : Str :=
  s.filter (fun c => !(c = '\t' || c = '\r' || c = '\n'))

/-- Result of `urlsplit`: `pathRaw` is the path before the params split. -/
structure SplitResult where
  scheme : Str
  netloc : Str
  pathRaw : Str
  query : Str
  fragment : Str
deriving DecidableEq, Repr

/-- The scheme split of `urlsplit`: everything before the first `:` is the
scheme when it is a letter followed by scheme characters; the second
component is the remainder of the URL. -/
def schemeSplit (url2 : Str) : Str × Str :=
  match breakAtFirst (· = ':') url2 with
  | (c :: cs, ':' :: after) =>
    if isAlphaAscii c && cs.all schemeChar then ((c :: cs).map lowerChar, after)
    else ([], url2)
  | _ => ([], url2)

/-- The netloc split of `urlsplit`: after a leading `//`, the netloc runs to
the first `/`, `?` or `#`; the second component is the remainder. -/
def netlocSplit (url3 : Str) : Str × Str :=
  if url3.take 2 = "//".data then
    breakAtFirst (fun c => c = '/' || c = '?' || c = '#') (url3.drop 2)
  else ([], url3)

/-- Split off the part after the first occurrence of the character matched
by `p` (fragment and query splits of `urlsplit`). -/
def splitTail (p : Char → Bool) (s : Str) : Str × Str :=
  ((breakAtFirst p s).1,
   match (breakAtFirst p s).2 with
   | _ :: b => b
   | [] => [])

/-- Model of CPython `urllib.parse.urlsplit` (with `allow_fragments=True`).
`Except.error` models the `ValueError` raised for mismatched IPv6 brackets. -/
def pyUrlsplit (url0 : Str) : Except Unit SplitResult :=
  let url2 := removeUnsafeUrl (url0.dropWhile c0Space)
  let scheme := (schemeSplit url2).1
  let netloc := (netlocSplit (schemeSplit url2).2).1
  let url4 := (netlocSplit (schemeSplit url2).2).2
  if (decide ('[' ∈ netloc)) != (decide (']' ∈ netloc)) then Except.error () else
  let url5 := (splitTail (· = '#') url4).1
  let path := (splitTail (· = '?') url5).1
  Except.ok ⟨scheme, netloc, path, (splitTail (· = '?') url5).2,
    (splitTail (· = '#') url4).2⟩

/-- The schemes for which `urlparse` splits params off the last path segment
(CPython `uses_params`, the entries relevant to ASCII schemes). -/
def usesParams : List Str :=
  [[], "ftp".data, "hdl".data, "prospero".data, "http".data, "imap".data,
   "https".data, "shttp".data, "rtsp".data, "rtspu".data, "sip".data,
   "sips".data, "mms".data, "sftp".data, "tel".data]

/-- Model of CPython `urllib.parse._splitparams`: split at the first `;` at or
after the last `/` (or anywhere when the path has no `/`). -/
def splitParams (p : Str) : Str × Str :=
  if '/' ∈ p then
    ((p.reverse.dropWhile (· ≠ '/')).reverse ++
       (splitTail (· = ';') (p.reverse.takeWhile (· ≠ '/')).reverse).1,
     (splitTail (· = ';') (p.reverse.takeWhile (· ≠ '/')).reverse).2)
  else
    ((splitTail (· = ';') p).1, (splitTail (· = ';') p).2)

/-- Result of `urlparse`: `path` no longer contains the params. -/
structure ParseResult where
  scheme : Str
  netloc : Str
  path : Str
  params : Str
  query : Str
  fragment : Str
deriving DecidableEq, Repr

/-- Model of CPython `urllib.parse.urlparse`. -/
def pyUrlparse (url : Str) : Except Unit ParseResult :=
  match pyUrlsplit url with
  | .error e => .error e
  | .ok r =>
    if r.scheme ∈ usesParams && ';' ∈ r.pathRaw then
      .ok ⟨r.scheme, r.netloc, (splitParams r.pathRaw).1, (splitParams r.pathRaw).2,
        r.query, r.fragment⟩
    else
      .ok ⟨r.scheme, r.netloc, r.pathRaw, [], r.query, r.fragment⟩

/-- Model of Python `needle in haystack` (substring containment). -/
def infixOf (needle : Str) : Str → Bool
  | [] => needle.isEmpty
  | c :: rest => needle.isPrefixOf (c :: rest) || infixOf needle rest

/-- Model of `re.match(r"^[a-zA-Z][a-zA-Z0-9+\-.]*://", v)` as a Boolean:
the scripts use it to decide whether a scheme is already present. -/
def hasSchemeSlashes : Str → Bool
  | c :: rest => isAlphaAscii c && hasSchemeSlashesAux rest
  | [] => false
where hasSchemeSlashesAux : Str → Bool
  | ':' :: '/' :: '/' :: _ => true
  | c :: rest => schemeChar c && hasSchemeSlashesAux rest
  | [] => false

/-! ## `clean_website.py` -/

/-- The post-parse body of `clean_website.py normalize_url` (lines 59-75):
lowercase the host and force a `www.` prefix, strip trailing slashes from
the path, reassemble, and collapse repeated slashes. -/
def websiteResult (parsed : ParseResult) : Str :=
  let domain := parsed.netloc.map lowerChar
  let domain := if ("www.".data).isPrefixOf domain then domain
                else "www.".data ++ domain
  let path := rstripSlash parsed.path
  collapseSlashes (domain ++ path)

/-- Model of `clean_website.py normalize_url` (lines 40-77): strip, delete
spaces, add a scheme when absent, then `websiteResult`; on a parse error the
space-stripped value is returned unchanged. -/
def normalize_url (value : Cell) : Str :=
  match value with
  | none => []
  | some raw =>
    let v := pyStrip raw
    if v = [] then [] else
    let v := v.filter (· ≠ ' ')
    let vForParse := if hasSchemeSlashes v then v else "https://".data ++ v
    match pyUrlparse vForParse with
    | .error _ => v
    | .ok parsed => websiteResult parsed

/-! ## `clean_facebook.py` -/

/-- `clean_facebook.py` lines 34-39. -/
def FACEBOOK_DOMAINS : List Str :=
  ["facebook.com".data, "www.facebook.com".data, "fb.com".data, "www.fb.com".data]

/-- `clean_facebook.py` lines 45-57. -/
def INVALID_FACEBOOK_SEGMENTS : List Str :=
  ["/posts/".data, "/post/".data, "/photos/".data, "/photo/".data,
   "/videos/".data, "/video/".data, "/reel/".data, "/story.php".data,
   "/share/".data, "/groups/".data, "/watch/".data]

/-- `clean_facebook.py` lines 63-72. -/
def VALID_FACEBOOK_PATTERNS : List Str :=
  ["/profile.php".data, "/people/".data, "/public/".data, "/pages/".data,
   "/pg/".data, "/business/".data, "/marketplace/".data]

/-- The post-parse body of `clean_facebook.py normalize_facebook_url`
(lines 109-156): check the domain allow-list, reject deny-listed path
segments, accept known patterns or a single vanity segment, and reassemble. -/
def facebookResult (parsed : ParseResult) : Str :=
  let domain := parsed.netloc.map lowerChar
  let path0 := rstripSlash parsed.path
  if domain ∉ FACEBOOK_DOMAINS then [] else
  let domain := if ("www.".data).isPrefixOf domain then domain
                else "www.".data ++ domain
  let path := collapseSlashes path0
  let lowerpath := path.map lowerChar ++ ['/']
  if INVALID_FACEBOOK_SEGMENTS.any (fun bad => infixOf bad lowerpath)
  then [] else
  let valid := VALID_FACEBOOK_PATTERNS.any (fun ok => ok.isPrefixOf lowerpath)
  let valid := valid ||
    (let parts := (splitOnChar '/' path).filter (· ≠ [])
     decide (parts.length = 1) &&
       parts.headD [] ∉ ["home".data, "pages".data, "marketplace".data])
  if !valid then [] else
  collapseSlashes (domain ++ path)

/-- Model of `clean_facebook.py normalize_facebook_url` (lines 91-159). -/
def normalize_facebook_url (value : Cell) : Str :=
  match value with
  | none => []
  | some raw =>
    let v := pyStrip raw
    if v = [] then [] else
    let v := v.filter (· ≠ ' ')
    let vForParse := if hasSchemeSlashes v then v else "https://".data ++ v
    match pyUrlparse vForParse with
    | .error _ => []
    | .ok parsed => facebookResult parsed

/-! ## `clean_linkedin.py` -/

/-- `clean_linkedin.py` lines 31-37. -/
def VALID_LINKEDIN_PATHS : List Str :=
  ["/in/".data, "/company/".data, "/school/".data, "/showcase/".data,
   "/groups/".data]

/-- The post-parse body of `clean_linkedin.py normalize_linkedin_url`
(lines 70-97): the domain test is a substring test (not an allow-list
membership test), the path test is a substring test against the valid path
types. -/
def linkedinResult (parsed : ParseResult) : Str :=
  let domain := parsed.netloc.map lowerChar
  let path := rstripSlash parsed.path
  if !(infixOf ("linkedin.com".data) domain) then [] else
  let domain := if ("www.".data).isPrefixOf domain then domain
                else "www.".data ++ domain
  let p := path.map lowerChar ++ ['/']
  if !(VALID_LINKEDIN_PATHS.any (fun rule => infixOf rule p)) then [] else
  collapseSlashes (domain ++ path)

/-- Model of `clean_linkedin.py normalize_linkedin_url` (lines 52-100);
a parse error yields the empty string. -/
def normalize_linkedin_url (value : Cell) : Str :=
  match value with
  | none => []
  | some raw =>
    let v := pyStrip raw
    if v = [] then [] else
    let v := v.filter (· ≠ ' ')
    let vForParse := if hasSchemeSlashes v then v else "https://".data ++ v
    match pyUrlparse vForParse with
    | .error _ => []
    | .ok parsed => linkedinResult parsed

/-! ## `clean_instagram.py` -/

/-- `clean_instagram.py` lines 36-39. -/
def INSTAGRAM_DOMAINS : List Str :=
  ["instagram.com".data, "www.instagram.com".data]

/-- `clean_instagram.py` lines 46-58. -/
def INVALID_INSTAGRAM_SEGMENTS : List Str :=
  ["/p/".data, "/reel/".data, "/reels/".data, "/tv/".data, "/stories/".data,
   "/story/".data, "/s/".data, "/explore/".data, "/direct/".data,
   "/tags/".data, "/challenge/".data]

/-- The character class `[A-Za-z0-9._]` of `USERNAME_REGEX`. -/
def igNameChar (c : Char) : Bool :=
  isAlphaAscii c || isDigitAscii c || c = '.' || c = '_'

/-- The optional leading `@?` of `USERNAME_REGEX`: the candidate captured
group is the text after an optional leading `@`. -/
def usernameCore (v : Str) : Str :=
  if v.head? = some '@' then v.tail else v

/-- Model of `USERNAME_REGEX.match`, the anchored pattern
`^@?([A-Za-z0-9._]{1,30})$`; returns the captured group on success. -/
def usernameMatch (v : Str) : Option Str :=
  if usernameCore v ≠ [] && (usernameCore v).length ≤ 30 &&
      (usernameCore v).all igNameChar
  then some (usernameCore v) else none

/-- The post-parse body of `clean_instagram.py normalize_instagram`
(lines 114-145): check the domain allow-list, force `www.instagram.com`,
reject deny-listed segments, and require a single regex-valid username
segment. -/
def instagramResult (parsed : ParseResult) : Str :=
  let domain := parsed.netloc.map lowerChar
  let path0 := rstripSlash parsed.path
  if domain ∉ INSTAGRAM_DOMAINS then [] else
  let domain := "www.instagram.com".data
  let path := collapseSlashes path0
  let lowerpath := path.map lowerChar ++ ['/']
  if INVALID_INSTAGRAM_SEGMENTS.any (fun bad => infixOf bad lowerpath)
  then [] else
  match (splitOnChar '/' path).filter (· ≠ []) with
  | [username] =>
    if (usernameMatch username).isSome then domain ++ '/' :: username
    else []
  | _ => []

/-- Model of `clean_instagram.py normalize_instagram` (lines 84-148). -/
def normalize_instagram (value : Cell) : Str :=
  match value with
  | none => []
  | some raw =>
    let v := pyStrip raw
    if v = [] then [] else
    let v := v.filter (· ≠ ' ')
    match usernameMatch v with
    | some username => "www.instagram.com/".data ++ username
    | none =>
      let vForParse := if hasSchemeSlashes v then v else "https://".data ++ v
      match pyUrlparse vForParse with
      | .error _ => []
      | .ok parsed => instagramResult parsed

/-! ## `clean_phone.py`

`PHONE_LIKE_REGEX = (?<!\d)(\+?\d[\d\-\.\(\)\s]{6,20}\d)(?!\d)` with
`re.search`.  The search is modelled directly: positions are scanned left to
right; at each position the optional `+` is tried first and the `{6,20}`
repetition is tried greedily (longest first), exactly as the backtracking
regex engine behaves on this pattern (the character class cannot match `+`,
and the repetition is over a character class, so greedy-longest-first is the
engine's order). -/

/-- The inner character class `[\d\-\.\(\)\s]` (ASCII fragment of `\s`). -/
def phoneInnerChar (c : Char) : Bool :=
  isDigitAscii c || c = '-' || c = '.' || c = '(' || c = ')' ||
  c = ' ' || c = '\t' || c = '\n' || c = '\r' || c = '\x0b' || c = '\x0c'

/-- Does the string begin with a digit (used for the `(?!\d)` lookahead)? -/
def digitHead (s : Str) : Bool :=
  match s with
  | c :: _ => isDigitAscii c
  | [] => false

/-- Try the repetition length `k`: `[\d\-\.\(\)\s]{k}` then a final digit
then the `(?!\d)` lookahead.  Returns the matched middle-plus-final-digit. -/
def phoneTryK (rest : Str) (k : Nat) : Option Str :=
  let mid := rest.take k
  if mid.length = k && mid.all phoneInnerChar then
    match rest.drop k with
    | d2 :: after => if isDigitAscii d2 && !digitHead after then some (mid ++ [d2]) else none
    | [] => none
  else none

/-- Greedy repetition: try the lengths in the given (descending) order. -/
def phoneTryKs (rest : Str) : List Nat → Option Str
  | [] => none
  | k :: ks =>
    match phoneTryK rest k with
    | some m => some m
    | none => phoneTryKs rest ks

/-- The repetition lengths `20, 19, ..., 6` in the greedy order. -/
def phoneKs : List Nat := (List.range 15).map (fun i => 20 - i)

/-- Match `\d[\d\-\.\(\)\s]{6,20}\d(?!\d)` at the head of `s`. -/
def phoneMatchCore (s : Str) : Option Str :=
  match s with
  | d :: rest =>
    if isDigitAscii d then (phoneTryKs rest phoneKs).map (fun m => d :: m)
    else none
  | [] => none

/-- Match the full pattern at the head of `s`; `prev` is the character before
this position, for the `(?<!\d)` lookbehind. -/
def phoneMatchAt (prev : Option Char) (s : Str) : Option Str :=
  if (match prev with | some c => isDigitAscii c | none => false) then none else
  match s with
  | '+' :: rest =>
    (match phoneMatchCore rest with
     | some m => some ('+' :: m)
     | none => phoneMatchCore s)
  | _ => phoneMatchCore s

/-- Model of `PHONE_LIKE_REGEX.search`: leftmost match wins. -/
def phoneSearch : Option Char → Str → Option Str
  | _, [] => none
  | prev, c :: rest =>
    match phoneMatchAt prev (c :: rest) with
    | some m => some m
    | none => phoneSearch (some c) rest

/-- Model of `clean_phone.py normalize_raw_digits` (lines 37-41). -/
def normalize_raw_digits (raw : Str) : Str :=
  let raw := pyStrip raw
  match raw with
  | '+' :: rest => '+' :: rest.filter isDigitAscii
  | _ => raw.filter isDigitAscii

/-- Model of the third-party `phonenumbers` library validity check, for the
`+`-prefixed all-digit strings produced by `normalize_raw_digits`: a `+1`
number is valid when its national part has ten digits and both the area code
and the exchange code start with a digit 2-9 (the NANP rule); numbers of
other countries are conservatively modelled as invalid.  The scripts never
observe the difference: `format_number(. , E164)` returns a `+`-digit string
unchanged, so `normalize_to_e164` produces the same output either way. -/
def phonelib_valid (s : Str) : Bool :=
  match s with
  | '+' :: '1' :: n =>
    n.length = 10 && n.all isDigitAscii &&
    (match n.get? 0 with | some c => '2' ≤ c && c ≤ '9' | none => false) &&
    (match n.get? 3 with | some c => '2' ≤ c && c ≤ '9' | none => false)
  | _ => false

/-- Model of `phonenumbers.format_number(parsed, E164)` on the all-digit
`+`-strings that reach it: the E.164 rendering of such a string is itself. -/
def phonelib_format_e164 (s : Str) : Str := s

/-- Model of `clean_phone.py normalize_to_e164` (lines 44-66).  A parse
failure (`except`) returns `digits` / `assumed`, which coincides with the
invalid branch. -/
def normalize_to_e164 (raw : Str) : Str :=
  if raw = [] then raw else
  let digits := normalize_raw_digits raw
  if ("+".data).isPrefixOf digits then
    if phonelib_valid digits then phonelib_format_e164 digits else digits
  else
    let assumed := '+' :: '1' :: digits
    if phonelib_valid assumed then phonelib_format_e164 assumed else assumed

/-- Model of `clean_phone.py extract_and_clean_phone` (lines 69-82): a
missing value and a blank value pass through; otherwise the leftmost
phone-like run of the stripped text is normalized and replaces the whole
cell, and when no run is found the original value is returned. -/
def extract_and_clean_phone (value : Cell) : Cell :=
  match value with
  | none => none
  | some s =>
    let text := pyStrip s
    if text = [] then some text else
    match phoneSearch none text with
    | none => some s
    | some m => some (normalize_to_e164 m)

/-! ## `clean_email.py` -/

/-- The class `[a-z0-9._%+\-]` of the local part of `EMAIL_REGEX`. -/
def emailLocalChar (c : Char) : Bool :=
  isLowerAscii c || isDigitAscii c || c = '.' || c = '_' || c = '%' ||
  c = '+' || c = '-'

/-- The class `[a-z0-9.\-]` of the domain part of `EMAIL_REGEX`. -/
def emailDomChar (c : Char) : Bool :=
  isLowerAscii c || isDigitAscii c || c = '.' || c = '-'

/-- Model of `EMAIL_REGEX.match` for the anchored pattern
`^[a-z0-9._%+\-]+@[a-z0-9.\-]+\.[a-z]{2,}$`: the local part is everything
before the first `@` (the classes cannot match `@`), and the top-level domain
is everything after the last `.` of the remainder (the class `[a-z]` cannot
match `.`). -/
def emailRegexMatch (s : Str) : Bool :=
  let L := s.takeWhile (· ≠ '@')
  match s.dropWhile (· ≠ '@') with
  | '@' :: R =>
    !L.isEmpty && L.all emailLocalChar &&
    (let revR := R.reverse
     let Trev := revR.takeWhile (· ≠ '.')
     match revR.dropWhile (· ≠ '.') with
     | '.' :: Mrev =>
       !Mrev.isEmpty && Mrev.all emailDomChar &&
       decide (2 ≤ Trev.length) && Trev.all isLowerAscii
     | _ => false)
  | _ => false

/-- Model of `re.search(r"<([^>]+)>", s)`: the leftmost `<` that is followed
by at least one non-`>` character and then a `>`; returns the group. -/
def searchAngle : Str → Option Str
  | [] => none
  | '<' :: rest =>
    (let inner := rest.takeWhile (· ≠ '>')
     if !inner.isEmpty && digitHeadGt (rest.dropWhile (· ≠ '>')) then some inner
     else searchAngle rest)
  | _ :: rest => searchAngle rest
where
  /-- Does the string begin with `>`? -/
  digitHeadGt : Str → Bool
    | '>' :: _ => true
    | _ => false

/-- Model of `clean_email.py extract_email` (lines 47-76). -/
def extract_email (text : Cell) : Str :=
  match text with
  | none => []
  | some raw =>
    let s := pyStrip raw
    if s = [] then [] else
    let s := if ("mailto:".data).isPrefixOf (s.map lowerChar) then s.drop 7 else s
    let s := match searchAngle s with
      | some inner => pyStrip inner
      | none => s
    let s := s.filter (fun c => !(c = ' ' || c = ';' || c = ','))
    let s := s.map lowerChar
    if emailRegexMatch s then s else []

/-! ## `clean_zip.py` -/

/-- Model of `clean_zip.py clean_zip` (lines 25-47): concatenate all digit
runs (`ZIP_REGEX.findall` joined is exactly the digit subsequence) and keep
the first five digits; no digits at all yields the empty string. -/
def clean_zip (value : Cell) : Str :=
  match value with
  | none => []
  | some raw =>
    let text := pyStrip raw
    let digits := text.filter isDigitAscii
    if digits = [] then [] else digits.take 5

/-! ## `clean_state.py` -/

/-- `clean_state.py` lines 32-49: the 50-entry name-to-abbreviation table. -/
def STATE_TO_ABBR : List (Str × Str) :=
  [("ALABAMA".data, "AL".data), ("ALASKA".data, "AK".data),
   ("ARIZONA".data, "AZ".data), ("ARKANSAS".data, "AR".data),
   ("CALIFORNIA".data, "CA".data), ("COLORADO".data, "CO".data),
   ("CONNECTICUT".data, "CT".data), ("DELAWARE".data, "DE".data),
   ("FLORIDA".data, "FL".data), ("GEORGIA".data, "GA".data),
   ("HAWAII".data, "HI".data), ("IDAHO".data, "ID".data),
   ("ILLINOIS".data, "IL".data), ("INDIANA".data, "IN".data),
   ("IOWA".data, "IA".data), ("KANSAS".data, "KS".data),
   ("KENTUCKY".data, "KY".data), ("LOUISIANA".data, "LA".data),
   ("MAINE".data, "ME".data), ("MARYLAND".data, "MD".data),
   ("MASSACHUSETTS".data, "MA".data), ("MICHIGAN".data, "MI".data),
   ("MINNESOTA".data, "MN".data), ("MISSISSIPPI".data, "MS".data),
   ("MISSOURI".data, "MO".data), ("MONTANA".data, "MT".data),
   ("NEBRASKA".data, "NE".data), ("NEVADA".data, "NV".data),
   ("NEW HAMPSHIRE".data, "NH".data), ("NEW JERSEY".data, "NJ".data),
   ("NEW MEXICO".data, "NM".data), ("NEW YORK".data, "NY".data),
   ("NORTH CAROLINA".data, "NC".data), ("NORTH DAKOTA".data, "ND".data),
   ("OHIO".data, "OH".data), ("OKLAHOMA".data, "OK".data),
   ("OREGON".data, "OR".data), ("PENNSYLVANIA".data, "PA".data),
   ("RHODE ISLAND".data, "RI".data), ("SOUTH CAROLINA".data, "SC".data),
   ("SOUTH DAKOTA".data, "SD".data), ("TENNESSEE".data, "TN".data),
   ("TEXAS".data, "TX".data), ("UTAH".data, "UT".data),
   ("VERMONT".data, "VT".data), ("VIRGINIA".data, "VA".data),
   ("WASHINGTON".data, "WA".data), ("WEST VIRGINIA".data, "WV".data),
   ("WISCONSIN".data, "WI".data), ("WYOMING".data, "WY".data)]

/-- First-match lookup in an association list of strings (Python `dict`
lookup; the tables here have unique keys). -/
def lookupTable (t : List (Str × Str)) (k : Str) : Option Str :=
  (t.find? (fun e => e.1 = k)).map (·.2)

/-- `ABBR_TO_STATE = {abbr: name for name, abbr in STATE_TO_ABBR.items()}`. -/
def ABBR_TO_STATE : List (Str × Str) := STATE_TO_ABBR.map (fun e => (e.2, e.1))

/-- Model of `clean_state.py clean_state` (lines 62-76): uppercase-trim,
look the text up as a full name and then as an abbreviation; render per the
mode flag (`"abbr"` or anything else, which behaves like `"full"`);
unrecognised text becomes the empty string. -/
def clean_state (value : Cell) (mode : Str) : Str :=
  match value with
  | none => []
  | some s =>
    let text := (pyStrip s).map upperChar
    match lookupTable STATE_TO_ABBR text with
    | some abbr => if mode = "abbr".data then abbr else pyTitle text
    | none =>
      match lookupTable ABBR_TO_STATE text with
      | some full => if mode = "abbr".data then text else pyTitle full
      | none => []

/-! ## `clean_alphanum.py` -/

/-- The allowed-character class of `build_cleaner`: `[A-Za-z0-9 ]` plus the
caller-supplied `--keep` characters (`re.escape` makes every extra character
a literal, so the class is exactly this set). -/
def allowedChar (extra : Str) (c : Char) : Bool :=
  isAlphaAscii c || isDigitAscii c || c = ' ' || c ∈ extra

/-- Model of `clean_alphanum.py apply_strip_modes` (lines 53-62) on a
present string: `--strip-alpha` removes `[A-Za-z]`, `--strip-num` removes
`[0-9]`. -/
def apply_strip_modes (s : Str) (stripAlpha stripNum : Bool) : Str :=
  let s := if stripAlpha then s.filter (fun c => !isAlphaAscii c) else s
  if stripNum then s.filter (fun c => !isDigitAscii c) else s

/-- Model of `clean_alphanum.py clean_value` (lines 65-74): a missing value
passes through; otherwise strip modes are applied and every character outside
the allowed class is replaced by the replacement string (plain replacement
text; backslash escapes in the replacement are outside the model). -/
def clean_value (val : Cell) (extra replacement : Str) (stripAlpha stripNum : Bool) : Cell :=
  match val with
  | none => none
  | some s =>
    let v := apply_strip_modes s stripAlpha stripNum
    some ((v.map (fun c => if allowedChar extra c then [c] else replacement)).flatten)

/-! ## `clean_number.py`

Real arithmetic is idealised: a Python `float` is an exact rational, except
that parsing a literal larger than `DBL_MAX` overflows to infinity, as
`float(...)` does.  `int(inf)` and `math.ceil/floor(inf)` raise
`OverflowError`; the model returns `Except.error` there. -/

/-- A Python float: an exact rational, or infinity. -/
inductive PyFloat where
  | finite (q : ℚ)
  | inf
deriving DecidableEq, Repr

/-- The largest finite double, `1.7976931348623157e308` (an integer). -/
def DBL_MAX_NUM : ℚ := (17976931348623157 : ℚ) * 10 ^ 292

/-- Digit value of an ASCII digit character. -/
def digitVal (c : Char) : Nat := c.toNat - 48

/-- The ASCII digit character of a digit value below ten. -/
def digitCharOf (d : Nat) : Char := Char.ofNat (48 + d)

/-- Numeric value of an ASCII digit string (most significant digit first). -/
def digitsToNat (s : Str) : Nat := s.foldl (fun acc c => 10 * acc + digitVal c) 0

/-- Digits of `n`, most significant first, with explicit fuel (`n` has at
most `fuel` digits when `n < 10 ^ fuel`). -/
def natToStrAux : Nat → Nat → Str
  | 0, _ => []
  | fuel + 1, n =>
    if n = 0 then [] else natToStrAux fuel (n / 10) ++ [digitCharOf (n % 10)]

/-- Decimal rendering of a natural number (Python `str(n)`). -/
def natToStr (n : Nat) : Str :=
  if n = 0 then ['0'] else natToStrAux (n + 1) n

/-- The syntactic part of Python `float(s)` on the digits-and-dots strings
produced by `extract_number`: at most one dot and at least one digit are
required (so for example `"."` raises `ValueError`, modelled as `none`);
the result is the integer-part value, the fraction-part value and the
fraction length. -/
def pyFloatParts (s : Str) : Option (ℕ × ℕ × ℕ) :=
  if s.all (fun c => isDigitAscii c || c = '.') && s.count '.' ≤ 1 &&
     s.any isDigitAscii then
    let ip := s.takeWhile isDigitAscii
    let rest := s.dropWhile isDigitAscii
    let fp := match rest with | '.' :: t => t | _ => []
    some (digitsToNat ip, digitsToNat fp, fp.length)
  else none

/-- Model of Python `float(s)` on the digits-and-dots strings produced by
`extract_number`: the exact decimal value, overflowing to infinity above
`DBL_MAX`. -/
def pyFloatOfStr (s : Str) : Option PyFloat :=
  match pyFloatParts s with
  | none => none
  | some (i, f, k) =>
    let q : ℚ := (i : ℚ) + (f : ℚ) / 10 ^ k
    some (if DBL_MAX_NUM < q then .inf else .finite q)

/-- Model of `clean_number.py extract_number` (lines 41-58): strip all
characters except digits and dots, and merge extra dots into the fractional
part. -/
def extract_number (value : Cell) : Str :=
  match value with
  | none => []
  | some raw =>
    let text := pyStrip raw
    if text = [] then [] else
    let cleaned := text.filter (fun c => isDigitAscii c || c = '.')
    if 2 ≤ cleaned.count '.' then
      match splitOnChar '.' cleaned with
      | p :: ps => p ++ '.' :: ps.flatten
      | [] => []
    else cleaned

/-- Model of Python `"{:.Nf}".format(q)` for the nonnegative exact decimals
that reach it, rounding half-up at `N` places (every call in this
development is exact at `N` places, where Python's half-even double
formatting agrees). -/
def formatFixed (places : Nat) (q : ℚ) : Str :=
  let n : Nat := (⌊q * 10 ^ places + 1 / 2⌋).toNat
  let ds := natToStr n
  if places = 0 then ds else
  let ds := if ds.length ≤ places then
      List.replicate (places + 1 - ds.length) '0' ++ ds
    else ds
  ds.take (ds.length - places) ++ '.' :: ds.drop (ds.length - places)

/-- Model of `clean_number.py convert_number` (lines 61-85).  `Except.error`
models the `OverflowError` raised by `int(inf)` and `math.ceil/floor(inf)`;
an unparseable non-empty value returns the empty string via the guarded
`float(...)` branch. -/
def convert_number (value : Str) (mode : Str) (places : Nat) (round_mode : Str) :
    Except Str Str :=
  if value = [] then .ok [] else
  match pyFloatOfStr value with
  | none => .ok []
  | some num =>
    if mode = "integer".data then
      match num with
      | .finite q => .ok (natToStr (⌊q⌋).toNat)
      | .inf => .error ("OverflowError".data)
    else
      if round_mode = "up".data then
        match num with
        | .inf => .error ("OverflowError".data)
        | .finite q => .ok (formatFixed places ((⌈q * 10 ^ places⌉ : ℚ) / 10 ^ places))
      else if round_mode = "down".data then
        match num with
        | .inf => .error ("OverflowError".data)
        | .finite q => .ok (formatFixed places ((⌊q * 10 ^ places⌋ : ℚ) / 10 ^ places))
      else
        match num with
        | .inf => .ok ("inf".data)
        | .finite q => .ok (formatFixed places q)

/-! ## The shared table-transform driver

Each tool's `clean_dataframe` iterates over the selected columns (outer
loop) and, via `df[col].apply`, over the rows of each column (inner loop),
writing the cleaned value back and appending a change record
`(str(val), cleaned, col)` whenever the comparison fires.  Every tool
compares against `str(val).strip()` except `clean_alphanum.py`, which
compares against `str(val)`. -/

/-- A pandas data frame: named columns and rectangular rows of cells. -/
structure Table where
  header : List Str
  rows : List (List Cell)
deriving DecidableEq, Repr

/-- A change record: original text, new value, column name. -/
abbrev ChangeRec := Str × Cell × Str

/-- Replace column `i` of every row by `rule` applied to the old cell
(`df[col] = df[col].apply(rule)`). -/
def applyAtCol (rows : List (List Cell)) (i : Nat) (rule : Cell → Cell) :
    List (List Cell) :=
  rows.map (fun r => r.set i (rule (r.getD i none)))

/-- The cell at row `k`, column index `j` (missing outside the table). -/
def cellAt (t : Table) (k j : Nat) : Cell := (t.rows.getD k []).getD j none

/-- The comparison guarding a change record: `str(val).strip() != cleaned`
(or `str(val) != cleaned` when `strip` is false).  Comparing a string with a
missing (`NaN`) result is `True` in Python. -/
def cellChanged (strip : Bool) (val newv : Cell) : Bool :=
  let o := if strip then pyStrip (pyStr val) else pyStr val
  match newv with
  | some s => decide (o ≠ s)
  | none => true

/-- The change records produced by one column pass, in row order. -/
def colRecords (rows : List (List Cell)) (i : Nat) (rule : Cell → Cell)
    (strip : Bool) (col : Str) : List ChangeRec :=
  rows.filterMap (fun r =>
    let v := r.getD i none
    let nv := rule v
    if cellChanged strip v nv then some (pyStr v, nv, col) else none)

/-- The shared `clean_dataframe` body: process the selected columns in
order (the records of a later column follow all records of an earlier
column, and each column's records are produced in row order as
`df[col].apply` walks the column). -/
def clean_columns (t : Table) (cols : List Str) (rule : Cell → Cell)
    (strip : Bool) : Table × List ChangeRec :=
  match cols with
  | [] => (t, [])
  | col :: rest =>
    let i := t.header.findIdx (· = col)
    let t2 : Table := ⟨t.header, applyAtCol t.rows i rule⟩
    let p := clean_columns t2 rest rule strip
    (p.1, colRecords t.rows i rule strip col ++ p.2)

/-- `clean_phone.py clean_dataframe` (lines 158-170). -/
def phone_clean_dataframe (t : Table) (cols : List Str) : Table × List ChangeRec :=
  clean_columns t cols extract_and_clean_phone true

/-- `clean_email.py clean_dataframe` (lines 107-119). -/
def email_clean_dataframe (t : Table) (cols : List Str) : Table × List ChangeRec :=
  clean_columns t cols (fun c => some (extract_email c)) true

/-- `clean_state.py clean_dataframe` (lines 139-149). -/
def state_clean_dataframe (t : Table) (cols : List Str) (mode : Str) :
    Table × List ChangeRec :=
  clean_columns t cols (fun c => some (clean_state c mode)) true

/-- `clean_website.py clean_dataframe` (lines 113-125). -/
def website_clean_dataframe (t : Table) (cols : List Str) : Table × List ChangeRec :=
  clean_columns t cols (fun c => some (normalize_url c)) true

/-- `clean_facebook.py clean_dataframe` (lines 193-205). -/
def facebook_clean_dataframe (t : Table) (cols : List Str) : Table × List ChangeRec :=
  clean_columns t cols (fun c => some (normalize_facebook_url c)) true

/-- `clean_linkedin.py clean_dataframe` (lines 133-145). -/
def linkedin_clean_dataframe (t : Table) (cols : List Str) : Table × List ChangeRec :=
  clean_columns t cols (fun c => some (normalize_linkedin_url c)) true

/-- `clean_instagram.py clean_dataframe` (lines 182-194). -/
def instagram_clean_dataframe (t : Table) (cols : List Str) : Table × List ChangeRec :=
  clean_columns t cols (fun c => some (normalize_instagram c)) true

/-- `clean_alphanum.py clean_dataframe` (lines 101-113): the comparison does
not strip. -/
def alphanum_clean_dataframe (t : Table) (cols : List Str)
    (extra replacement : Str) (stripAlpha stripNum : Bool) :
    Table × List ChangeRec :=
  clean_columns t cols (fun c => clean_value c extra replacement stripAlpha stripNum) false

/-- `clean_zip.py clean_dataframe` (lines 67-75): a single column, raising
`ValueError` when it is absent; no change records are collected. -/
def zip_clean_dataframe (t : Table) (zipCol : Str) : Except Str Table :=
  if zipCol ∈ t.header then
    .ok ⟨t.header, applyAtCol t.rows (t.header.findIdx (· = zipCol)) (fun c => some (clean_zip c))⟩
  else .error ("ValueError: column not found".data)

/-- `clean_number.py clean_dataframe` (lines 105-121): each selected column
must exist (`ValueError` otherwise); a cell whose conversion overflows
propagates the `OverflowError` out of the whole tool. -/
def number_clean_dataframe (t : Table) (cols : List Str) (mode : Str)
    (places : Nat) (round_mode : Str) : Except Str Table :=
  match cols with
  | [] => .ok t
  | col :: rest =>
    if col ∈ t.header then
      let i := t.header.findIdx (· = col)
      match t.rows.mapM (fun r =>
        (convert_number (extract_number (r.getD i none)) mode places
          round_mode).map (fun nv => r.set i (some nv))) with
      | .error e => .error e
      | .ok newRows => number_clean_dataframe ⟨t.header, newRows⟩ rest mode places round_mode
    else .error ("ValueError: column not found".data)

/-! ## `clean_duplicate.py` -/

/-- The key of a row under the chosen subset of columns. -/
def keyOf (hdr cols : List Str) (r : List Cell) : List Cell :=
  cols.map (fun c => r.getD (hdr.findIdx (· = c)) none)

/-- `drop_duplicates(subset=cols, keep="first")` together with the removed
rows: the first row of each key is kept, later rows with a seen key are
removed (pandas treats two missing values as equal here, as does `Cell`
equality). -/
def dedupeAux (hdr cols : List Str) :
    List (List Cell) → List (List Cell) → List (List Cell) × List (List Cell)
  | _, [] => ([], [])
  | seen, r :: rest =>
    let k := keyOf hdr cols r
    let p := dedupeAux hdr cols (k :: seen) rest
    if k ∈ seen then (p.1, r :: p.2) else (r :: p.1, p.2)

/-- Model of `clean_duplicate.py dedupe_dataframe` (lines 38-54): the
deduplicated table and the removed rows. -/
def dedupe_dataframe (t : Table) (cols : List Str) : Table × List (List Cell) :=
  let p := dedupeAux t.header cols [] t.rows
  (⟨t.header, p.1⟩, p.2)

/-! ## Output files written by each tool's `main`

`Path.with_name` / `stem` / `suffix` are modelled on the file name.  Each
list holds the names of the files a successful run writes, in write order.
`clean_zip.py` and `clean_number.py` write no log file. -/

/-- Split a file name into pathlib's `stem` and `suffix`. -/
def splitStemSuffix (name : Str) : Str × Str :=
  let rev := name.reverse
  let revExt := rev.takeWhile (· ≠ '.')
  match rev.dropWhile (· ≠ '.') with
  | '.' :: revRest =>
    if revRest = [] then (name, []) else (revRest.reverse, '.' :: revExt.reverse)
  | _ => (name, [])

/-- `input_path.with_name(f"{stem}_cleaned{suffix}")`. -/
def withCleanedName (name : Str) : Str :=
  let p := splitStemSuffix name
  p.1 ++ "_cleaned".data ++ p.2

/-- The default output name: the explicit output argument, else
`{stem}_cleaned{suffix}`. -/
def outputNameFor (input : Str) (outputArg : Option Str) : Str :=
  outputArg.getD (withCleanedName input)

/-- Files written by `clean_zip.py main` (lines 82-106): the cleaned CSV
only — no log file is written. -/
def zipMainWrites (input : Str) (outputArg : Option Str) : List Str :=
  [outputNameFor input outputArg]

/-- Files written by `clean_number.py main` (lines 128-198): the cleaned CSV
only — no log file is written. -/
def numberMainWrites (input : Str) (outputArg : Option Str) : List Str :=
  [outputNameFor input outputArg]

/-- Files written by `clean_phone.py main` (lines 177-224). -/
def phoneMainWrites (input : Str) (outputArg : Option Str) : List Str :=
  [outputNameFor input outputArg, "clean_phone_log.txt".data]

/-- Files written by `clean_email.py main` (lines 126-170). -/
def emailMainWrites (input : Str) (outputArg : Option Str) : List Str :=
  [outputNameFor input outputArg, "clean_email_log.txt".data]

/-- Files written by `clean_state.py main` (lines 156-208). -/
def stateMainWrites (input : Str) (outputArg : Option Str) : List Str :=
  [outputNameFor input outputArg, "clean_state_log.txt".data]

/-- Files written by `clean_website.py main` (lines 132-179). -/
def websiteMainWrites (input : Str) (outputArg : Option Str) : List Str :=
  [outputNameFor input outputArg, "clean_website_log.txt".data]

/-- Files written by `clean_facebook.py main` (lines 212-257). -/
def facebookMainWrites (input : Str) (outputArg : Option Str) : List Str :=
  [outputNameFor input outputArg, "clean_facebook_log.txt".data]

/-- Files written by `clean_linkedin.py main` (lines 152-196). -/
def linkedinMainWrites (input : Str) (outputArg : Option Str) : List Str :=
  [outputNameFor input outputArg, "clean_linkedin_log.txt".data]

/-- Files written by `clean_instagram.py main` (lines 201-243). -/
def instagramMainWrites (input : Str) (outputArg : Option Str) : List Str :=
  [outputNameFor input outputArg, "clean_instagram_log.txt".data]

/-- Files written by `clean_alphanum.py main` (lines 120-190). -/
def alphanumMainWrites (input : Str) (outputArg : Option Str) : List Str :=
  [outputNameFor input outputArg, "clean_alphanum_log.txt".data]

/-- Files written by `clean_duplicate.py main` (lines 79-127). -/
def duplicateMainWrites (input : Str) (outputArg : Option Str) : List Str :=
  [outputNameFor input outputArg, "clean_duplicate_log.txt".data]

/-! ## `clean_main.py`, the orchestrator -/

/-- One pipeline entry: the script, its enabled flag and argument list from
the `CONFIG` dictionary.  The first argument is the target column. -/
structure PipeStep where
  script : Str
  enabled : Bool
  args : List Str
deriving DecidableEq, Repr

/-- The static pipeline of `clean_main.py` (lines 12-47 and 92-104): every
step is enabled in the committed `CONFIG`. -/
def pipelineSteps : List PipeStep :=
  [⟨"clean_duplicate.py".data, true,
    ["Business_Name".data, "Business_Email".data, "Business_Website".data]⟩,
   ⟨"clean_phone.py".data, true, ["Business_Phone".data]⟩,
   ⟨"clean_zip.py".data, true, ["Business_Zip/Postal Code".data]⟩,
   ⟨"clean_state.py".data, true, ["Business_State".data, "abbr".data]⟩,
   ⟨"clean_website.py".data, true, ["Business_Website".data]⟩,
   ⟨"clean_email.py".data, true, ["Business_Email".data]⟩,
   ⟨"clean_linkedin.py".data, true, ["Business_LinkedIn".data]⟩,
   ⟨"clean_facebook.py".data, true, ["Business_Facebook".data]⟩,
   ⟨"clean_instagram.py".data, true, ["Business_Instagram".data]⟩,
   ⟨"clean_number.py".data, true,
    ["Distance".data, "decimal".data, "1".data, "round".data]⟩,
   ⟨"clean_alphanum.py".data, true,
    ["Business_City".data, "--keep".data, "-".data, "--replace".data, " ".data]⟩]

/-- The orchestrator's environment: whether a column occurs in a CSV file's
header, whether a child process exits successfully, and whether a file
exists after the step ran. -/
structure PipeEnv where
  headerHas : Str → Str → Bool
  runOk : Str → Str → List Str → Bool
  fileExists : Str → Bool

/-- The orchestrator's mutable state: the current file pointer, the
accumulated log lines, and the displayed step counter. -/
structure PipeState where
  currentFile : Str
  log : List Str
  stepIndex : Nat
deriving DecidableEq, Repr

/-- One iteration of the pipeline loop of `clean_main.py main`
(lines 106-141): a disabled step or a step whose target column is missing is
logged as skipped with the state otherwise unchanged; otherwise the tool
runs (a non-zero exit aborts the run), the derived output
`{stem}_cleaned{suffix}` must exist (otherwise the run aborts), and
`current_file` advances to it. -/
def pipelineStep (env : PipeEnv) (st : PipeState) (step : PipeStep) :
    Except Str PipeState :=
  if !step.enabled then
    .ok ⟨st.currentFile, st.log ++ ["[SKIP] disabled: ".data ++ step.script],
         st.stepIndex⟩
  else
  let col := step.args.headD []
  if !env.headerHas st.currentFile col then
    .ok ⟨st.currentFile, st.log ++ ["[SKIP] column not found: ".data ++ step.script],
         st.stepIndex⟩
  else
  if !env.runOk step.script st.currentFile step.args then
    .error ("CalledProcessError".data)
  else
  let next := withCleanedName st.currentFile
  if !env.fileExists next then .error ("RuntimeError: expected output missing".data)
  else .ok ⟨next, st.log ++ ["[RUN ] ".data ++ step.script], st.stepIndex + 1⟩

/-- The pipeline loop: each remaining step starts from the state the
previous step produced. -/
def runPipeline (env : PipeEnv) : PipeState → List PipeStep → Except Str PipeState
  | st, [] => .ok st
  | st, step :: rest =>
    match pipelineStep env st step with
    | .ok st2 => runPipeline env st2 rest
    | .error e => .error e

/-- The character guard under which the URL normalizers are proved
idempotent: printable ASCII excluding `;`, `[`, `]` (a `;` in the last path
segment is split off as URL params by `urlparse`, which defeats idempotence,
whitespace is stripped or deleted inconsistently between the passes, and
brackets trigger IPv6 host handling). -/
def urlSafeChar (c : Char) : Bool :=
  0x21 ≤ c.toNat && c.toNat ≤ 0x7e && !(c = ';' || c = '[' || c = ']')

/-- A string of printable ASCII free of `;`, `[` and `]`. -/
def urlSafe (s : Str) : Bool := s.all urlSafeChar

/-- No two consecutive slashes occur in the string. -/
def noDoubleSlash : Str → Bool
  | [] => true
  | [_] => true
  | c :: c2 :: rest => !(c = '/' && c2 = '/') && noDoubleSlash (c2 :: rest)

/-!
# Theorems

The remainder of the file settles the specification claims against the
definitions above.
-/

/-- Claim C3: for every step of the orchestrator's fixed step list, a
disabled step or a step whose target column (the first configured argument)
is absent is recorded as skipped and leaves `current_file` unchanged;
otherwise `current_file` becomes exactly the declared derived output path
`{stem}_cleaned{suffix}`, whose absence aborts the whole run; and the next
step of the pipeline loop starts from the state the step produced, hence
reads from that file. -/
theorem orchestrator_step_contract (env : PipeEnv) (st : PipeState)
    (step : PipeStep) (rest : List PipeStep) :
    (step.enabled = false →
      pipelineStep env st step =
        .ok ⟨st.currentFile,
             st.log ++ ["[SKIP] disabled: ".data ++ step.script],
             st.stepIndex⟩) ∧
    (step.enabled = true →
      env.headerHas st.currentFile (step.args.headD []) = false →
      pipelineStep env st step =
        .ok ⟨st.currentFile,
             st.log ++ ["[SKIP] column not found: ".data ++ step.script],
             st.stepIndex⟩) ∧
    (step.enabled = true →
      env.headerHas st.currentFile (step.args.headD []) = true →
      env.runOk step.script st.currentFile step.args = true →
      env.fileExists (withCleanedName st.currentFile) = true →
      pipelineStep env st step =
        .ok ⟨withCleanedName st.currentFile,
             st.log ++ ["[RUN ] ".data ++ step.script],
             st.stepIndex + 1⟩) ∧
    (step.enabled = true →
      env.headerHas st.currentFile (step.args.headD []) = true →
      env.runOk step.script st.currentFile step.args = true →
      env.fileExists (withCleanedName st.currentFile) = false →
      pipelineStep env st step = .error ("RuntimeError: expected output missing".data)) ∧
    (∀ st2, pipelineStep env st step = .ok st2 →
      runPipeline env st (step :: rest) = runPipeline env st2 rest) := by
  refine ⟨fun h1 => ?_, fun h1 h2 => ?_, fun h1 h2 h3 h4 => ?_,
          fun h1 h2 h3 h4 => ?_, fun st2 h => ?_⟩
  · simp [pipelineStep, h1]
  · rw [List.headD_eq_head?_getD] at h2
    simp [pipelineStep, h1, h2]
  · rw [List.headD_eq_head?_getD] at h2
    simp [pipelineStep, h1, h2, h3, h4]
  · rw [List.headD_eq_head?_getD] at h2
    simp [pipelineStep, h1, h2, h3, h4]
  · simp [runPipeline, h]

/-- Witness for `orchestrator_step_contract`: a concrete environment, state
and step exercising the run case. -/
theorem orchestrator_step_contract_witness :
    pipelineStep
      ⟨fun _ _ => true, fun _ _ _ => true, fun _ => true⟩
      ⟨"input.csv".data, [], 1⟩
      ⟨"clean_phone.py".data, true, ["Business_Phone".data]⟩ =
    .ok ⟨withCleanedName ("input.csv".data),
         [] ++ ["[RUN ] ".data ++ "clean_phone.py".data], 2⟩ := by
  have h := orchestrator_step_contract
    ⟨fun _ _ => true, fun _ _ _ => true, fun _ => true⟩
    ⟨"input.csv".data, [], 1⟩
    ⟨"clean_phone.py".data, true, ["Business_Phone".data]⟩ []
  exact h.2.2.1 rfl rfl rfl rfl

/-- Claim C4 counterexample: `clean_zip.py main` writes only the cleaned CSV
and no plain-text change log, refuting "every tool writes both a cleaned CSV
output file and a plain-text change log file". -/
theorem zip_main_writes_no_log :
    zipMainWrites ("input.csv".data) none = [("input_cleaned.csv".data)] ∧
    (zipMainWrites ("input.csv".data) none).all
      (fun p => !((".txt".data).isSuffixOf p)) = true := by
  constructor
  · rfl
  · decide

/-- Claim C4 (amended): on a successful run every tool writes the cleaned
CSV (the explicit output argument, or `{stem}_cleaned{suffix}` beside the
input) and a fixed-name plain-text log — except `clean_zip.py` and
`clean_number.py`, which write only the cleaned CSV. -/
theorem tools_write_csv_and_log (input : Str) (outputArg : Option Str) :
    phoneMainWrites input outputArg =
      [outputNameFor input outputArg, "clean_phone_log.txt".data] ∧
    emailMainWrites input outputArg =
      [outputNameFor input outputArg, "clean_email_log.txt".data] ∧
    stateMainWrites input outputArg =
      [outputNameFor input outputArg, "clean_state_log.txt".data] ∧
    websiteMainWrites input outputArg =
      [outputNameFor input outputArg, "clean_website_log.txt".data] ∧
    facebookMainWrites input outputArg =
      [outputNameFor input outputArg, "clean_facebook_log.txt".data] ∧
    linkedinMainWrites input outputArg =
      [outputNameFor input outputArg, "clean_linkedin_log.txt".data] ∧
    instagramMainWrites input outputArg =
      [outputNameFor input outputArg, "clean_instagram_log.txt".data] ∧
    alphanumMainWrites input outputArg =
      [outputNameFor input outputArg, "clean_alphanum_log.txt".data] ∧
    duplicateMainWrites input outputArg =
      [outputNameFor input outputArg, "clean_duplicate_log.txt".data] ∧
    zipMainWrites input outputArg = [outputNameFor input outputArg] ∧
    numberMainWrites input outputArg = [outputNameFor input outputArg] :=
  ⟨rfl, rfl, rfl, rfl, rfl, rfl, rfl, rfl, rfl, rfl, rfl⟩

/-- Claim C9: every normalizer maps a missing (`NaN`) or blank cell to its
domain's empty representation — the empty string for the e-mail, ZIP, state,
website, Facebook, LinkedIn, Instagram and numeric normalizers, and the
missing/blank value itself for the phone and alphanumeric normalizers (which
pass it through unchanged) — and, being total functions of the embedded
model, never raise. -/
theorem normalizers_blank_handling :
    extract_and_clean_phone none = none ∧
    extract_and_clean_phone (some []) = some [] ∧
    extract_email none = [] ∧
    extract_email (some []) = [] ∧
    clean_zip none = [] ∧
    clean_zip (some []) = [] ∧
    (∀ mode, clean_state none mode = [] ∧ clean_state (some []) mode = []) ∧
    normalize_url none = [] ∧
    normalize_url (some []) = [] ∧
    normalize_facebook_url none = [] ∧
    normalize_facebook_url (some []) = [] ∧
    normalize_linkedin_url none = [] ∧
    normalize_linkedin_url (some []) = [] ∧
    normalize_instagram none = [] ∧
    normalize_instagram (some []) = [] ∧
    (∀ extra repl sa sn, clean_value none extra repl sa sn = none ∧
      clean_value (some []) extra repl sa sn = some []) ∧
    extract_number none = [] ∧
    extract_number (some []) = [] ∧
    (∀ mode places rnd, convert_number [] mode places rnd = .ok []) := by
  refine ⟨rfl, rfl, rfl, rfl, rfl, rfl, fun mode => ⟨rfl, ?_⟩, rfl, rfl, rfl, rfl,
          rfl, rfl, rfl, rfl, fun extra repl sa sn => ⟨rfl, ?_⟩, rfl, rfl,
          fun mode places rnd => rfl⟩
  · simp [clean_state, pyStrip, lookupTable, STATE_TO_ABBR, ABBR_TO_STATE]
  · simp [clean_value, apply_strip_modes]

/-- Evaluation helper: `pyFloatOfStr` at a string with known parts and an
in-range value. -/
theorem pyFloatOfStr_eq_finite (s : Str) (i f k : ℕ) (q : ℚ)
    (hp : pyFloatParts s = some (i, f, k))
    (hq : ((i : ℚ) + (f : ℚ) / 10 ^ k) = q)
    (hlt : ¬ DBL_MAX_NUM < q) :
    pyFloatOfStr s = some (.finite q) := by
  simp only [pyFloatOfStr, hp, hq]
  rw [if_neg hlt]

/-- Evaluation helper: `pyFloatOfStr` at a string with known parts whose
value overflows. -/
theorem pyFloatOfStr_eq_inf (s : Str) (i f k : ℕ)
    (hp : pyFloatParts s = some (i, f, k))
    (hlt : DBL_MAX_NUM < (i : ℚ) + (f : ℚ) / 10 ^ k) :
    pyFloatOfStr s = some .inf := by
  simp only [pyFloatOfStr, hp]
  rw [if_pos hlt]

/-- Evaluation helper: `pyFloatOfStr` at an unparseable string. -/
theorem pyFloatOfStr_eq_none (s : Str) (hp : pyFloatParts s = none) :
    pyFloatOfStr s = none := by
  simp only [pyFloatOfStr, hp]

/-- Evaluation helper: `formatFixed` once the scaled-and-rounded value is
known. -/
theorem formatFixed_eval (p : Nat) (q : ℚ) (n : ℕ)
    (h : ⌊q * 10 ^ p + 1 / 2⌋ = (n : ℤ)) :
    formatFixed p q =
      (let ds := natToStr n
       if p = 0 then ds else
       let ds := if ds.length ≤ p then List.replicate (p + 1 - ds.length) '0' ++ ds
         else ds
       ds.take (ds.length - p) ++ '.' :: ds.drop (ds.length - p)) := by
  simp only [formatFixed, h, Int.toNat_natCast]

/-- Claim C8: the numeric converter's rounding contract.  In decimal mode
with rounding `up` (resp. `down`) the parsed value is ceiling-rounded (resp.
floor-rounded) at `places` decimal places via scaling by `10 ^ places` and
fixed-formatted; in integer mode it truncates to an integer string; in
particular `convert_number("2.344", decimal, 2, up) = "2.35"`,
`convert_number("2.341", decimal, 2, down) = "2.34"`, and
`convert_number("7.9", integer) = "7"`. -/
theorem convert_number_rounding :
    convert_number (extract_number (some ("2.344".data))) ("decimal".data) 2
      ("up".data) = .ok ("2.35".data) ∧
    convert_number (extract_number (some ("2.341".data))) ("decimal".data) 2
      ("down".data) = .ok ("2.34".data) ∧
    convert_number (extract_number (some ("7.9".data))) ("integer".data) 2
      ("up".data) = .ok ("7".data) ∧
    (∀ s q places, pyFloatOfStr s = some (.finite q) → s ≠ [] →
      convert_number s ("decimal".data) places ("up".data) =
        .ok (formatFixed places ((⌈q * 10 ^ places⌉ : ℚ) / 10 ^ places)) ∧
      convert_number s ("decimal".data) places ("down".data) =
        .ok (formatFixed places ((⌊q * 10 ^ places⌋ : ℚ) / 10 ^ places)) ∧
      ∀ rnd, convert_number s ("integer".data) places rnd =
        .ok (natToStr (⌊q⌋).toNat)) := by
  have hgen : ∀ (s : Str) (q : ℚ) (places : Nat),
      pyFloatOfStr s = some (.finite q) → s ≠ [] →
      convert_number s ("decimal".data) places ("up".data) =
        .ok (formatFixed places ((⌈q * 10 ^ places⌉ : ℚ) / 10 ^ places)) ∧
      convert_number s ("decimal".data) places ("down".data) =
        .ok (formatFixed places ((⌊q * 10 ^ places⌋ : ℚ) / 10 ^ places)) ∧
      ∀ rnd, convert_number s ("integer".data) places rnd =
        .ok (natToStr (⌊q⌋).toNat) := by
    intro s q places hq hs
    refine ⟨?_, ?_, fun rnd => ?_⟩
    · simp [convert_number, hs, hq,
        show ¬ (("decimal".data : Str) = "integer".data) by decide]
    · simp [convert_number, hs, hq,
        show ¬ (("decimal".data : Str) = "integer".data) by decide,
        show ¬ (("down".data : Str) = "up".data) by decide]
    · simp [convert_number, hs, hq]
  refine ⟨?_, ?_, ?_, hgen⟩
  · have he : extract_number (some ("2.344".data)) = "2.344".data := by decide
    have hf : pyFloatOfStr ("2.344".data) = some (.finite (293 / 125)) :=
      pyFloatOfStr_eq_finite _ 2 344 3 _ (by decide) (by norm_num)
        (by norm_num [DBL_MAX_NUM])
    rw [he, (hgen _ _ 2 hf (by decide)).1,
        show (⌈(293 / 125 : ℚ) * 10 ^ (2 : ℕ)⌉ : ℤ) = (235 : ℕ) by
          rw [Int.ceil_eq_iff] <;> norm_num,
        formatFixed_eval 2 _ 235 (by push_cast; norm_num)]
    decide
  · have he : extract_number (some ("2.341".data)) = "2.341".data := by decide
    have hf : pyFloatOfStr ("2.341".data) = some (.finite (2341 / 1000)) :=
      pyFloatOfStr_eq_finite _ 2 341 3 _ (by decide) (by norm_num)
        (by norm_num [DBL_MAX_NUM])
    rw [he, (hgen _ _ 2 hf (by decide)).2.1,
        show (⌊(2341 / 1000 : ℚ) * 10 ^ (2 : ℕ)⌋ : ℤ) = (234 : ℕ) by norm_num,
        formatFixed_eval 2 _ 234 (by push_cast; norm_num)]
    decide
  · have he : extract_number (some ("7.9".data)) = "7.9".data := by decide
    have hf : pyFloatOfStr ("7.9".data) = some (.finite (79 / 10)) :=
      pyFloatOfStr_eq_finite _ 7 9 1 _ (by decide) (by norm_num)
        (by norm_num [DBL_MAX_NUM])
    rw [he, (hgen _ _ 2 hf (by decide)).2.2 ("up".data),
        show (⌊(79 / 10 : ℚ)⌋ : ℤ) = (7 : ℕ) by norm_num]
    decide

/-- Witness for `convert_number_rounding`: its general decimal-up clause at
the concrete input `"2.344"`. -/
theorem convert_number_rounding_witness :
    convert_number ("2.344".data) ("decimal".data) 2 ("up".data) =
      .ok (formatFixed 2 ((⌈(293 / 125 : ℚ) * 10 ^ 2⌉ : ℚ) / 10 ^ 2)) :=
  (convert_number_rounding.2.2.2 ("2.344".data) (293 / 125) 2
    (pyFloatOfStr_eq_finite _ 2 344 3 _ (by decide) (by norm_num)
      (by norm_num [DBL_MAX_NUM])) (by decide)).1

/-- Claim C10: on a 400-digit cell the cleaned residue parses (`float`
returns infinity rather than raising), and `int(inf)` in integer mode —
likewise `math.ceil(inf * multiplier)` in decimal mode — raises
`OverflowError`, so the composition is not exception-free; the guarded-parse
branch does map `"."` and letter-only cells to the empty string as the claim
says. -/
theorem convert_number_overflow_raises :
    extract_number (some (List.replicate 400 '9')) = List.replicate 400 '9' ∧
    pyFloatOfStr (List.replicate 400 '9') = some .inf ∧
    convert_number (List.replicate 400 '9') ("integer".data) 2 ("up".data) =
      .error ("OverflowError".data) ∧
    convert_number (List.replicate 400 '9') ("decimal".data) 2 ("up".data) =
      .error ("OverflowError".data) ∧
    convert_number (".".data) ("integer".data) 2 ("up".data) = .ok [] ∧
    convert_number (extract_number (some ("abc".data))) ("integer".data) 2
      ("up".data) = .ok [] := by
  have h9 : extract_number (some (List.replicate 400 '9')) = List.replicate 400 '9' := by
    decide
  have hne : ¬ (List.replicate 400 '9' = ([] : Str)) := by decide
  have hp : pyFloatParts (List.replicate 400 '9') = some (10 ^ 400 - 1, 0, 0) := by
    decide
  have hbig : DBL_MAX_NUM < ((10 ^ 400 - 1 : ℕ) : ℚ) + ((0 : ℕ) : ℚ) / 10 ^ (0 : ℕ) := by
    have h1 : (10 ^ 399 : ℕ) ≤ 10 ^ 400 - 1 := by norm_num
    have h2 : ((10 ^ 399 : ℕ) : ℚ) ≤ ((10 ^ 400 - 1 : ℕ) : ℚ) := by exact_mod_cast h1
    have h3 : DBL_MAX_NUM < ((10 ^ 399 : ℕ) : ℚ) := by
      rw [DBL_MAX_NUM]; push_cast; norm_num
    simpa using lt_of_lt_of_le h3 h2
  have hf : pyFloatOfStr (List.replicate 400 '9') = some .inf :=
    pyFloatOfStr_eq_inf _ _ _ _ hp hbig
  have hfd : pyFloatOfStr (".".data) = none :=
    pyFloatOfStr_eq_none _ (by decide)
  refine ⟨h9, hf, ?_, ?_, ?_, ?_⟩
  · unfold convert_number
    rw [if_neg hne, hf]
    rfl
  · unfold convert_number
    rw [if_neg hne, hf]
    rfl
  · unfold convert_number
    rw [if_neg (show ¬ ((".".data : Str) = []) by decide), hfd]
  · rw [show extract_number (some ("abc".data)) = [] by decide]
    rfl

/-! ### The table-transform frame (claims C5 and C6) -/

/-- Reading a cell at a column index other than the written one is
unaffected by `List.set`. -/
theorem getD_set_ne (r : List Cell) (i j : Nat) (v : Cell) (h : j ≠ i) :
    (r.set i v).getD j none = r.getD j none := by
  rw [List.getD_eq_getElem?_getD, List.getD_eq_getElem?_getD,
      List.getElem?_set_ne (fun he => h he.symm)]

/-- `applyAtCol` preserves the number of rows. -/
theorem applyAtCol_length (rows : List (List Cell)) (i : Nat) (rule : Cell → Cell) :
    (applyAtCol rows i rule).length = rows.length :=
  List.length_map ..

/-- `applyAtCol` leaves every other column index unchanged. -/
theorem applyAtCol_getD_ne (rows : List (List Cell)) (i : Nat) (rule : Cell → Cell)
    (k j : Nat) (h : j ≠ i) :
    ((applyAtCol rows i rule).getD k []).getD j none = (rows.getD k []).getD j none := by
  unfold applyAtCol
  rw [List.getD_eq_getElem?_getD rows k, List.getD_eq_getElem?_getD _ k,
      List.getElem?_map]
  cases hk : rows[k]? with
  | none => rfl
  | some r =>
    simp only [Option.map_some', Option.getD_some]
    exact getD_set_ne r i j _ h

/-- Column passes over distinct indices commute with record collection:
`colRecords` reads only the cells at its own index. -/
theorem colRecords_applyAtCol (rows : List (List Cell)) (i i2 : Nat)
    (rule2 rule : Cell → Cell) (strip : Bool) (col : Str) (h : i2 ≠ i) :
    colRecords (applyAtCol rows i rule2) i2 rule strip col =
      colRecords rows i2 rule strip col := by
  unfold colRecords applyAtCol
  rw [List.filterMap_map]
  congr 1
  funext r
  simp only [Function.comp]
  rw [getD_set_ne r i i2 _ h]

/-- A present column's `findIdx` lands on that column's name. -/
theorem findIdx_mem_facts (hdr : List Str) (col : Str) (hin : col ∈ hdr) :
    hdr.findIdx (· = col) < hdr.length ∧
    hdr[hdr.findIdx (· = col)]? = some col ∧
    ∀ j name, hdr[j]? = some name → name ≠ col → j ≠ hdr.findIdx (· = col) := by
  have hlt : hdr.findIdx (· = col) < hdr.length :=
    List.findIdx_lt_length_of_exists ⟨col, hin, by simp⟩
  have hget : hdr[hdr.findIdx (· = col)] = col := by
    have hg := @List.findIdx_getElem _ (· = col) hdr hlt
    simpa using hg
  refine ⟨hlt, by rw [List.getElem?_eq_getElem hlt, hget], fun j name hj hne hcontra => ?_⟩
  subst hcontra
  rw [List.getElem?_eq_getElem hlt] at hj
  exact hne ((((Option.some.injEq _ _).mp hj).symm).trans hget)

/-- When the column name at index `j` is not selected, `j` differs from the
index any selected column writes to. -/
theorem unselected_ne_findIdx (hdr : List Str) (col : Str) (j : Nat) (name : Str)
    (hj : hdr[j]? = some name) (hne : name ≠ col) :
    j ≠ hdr.findIdx (· = col) := by
  by_cases hin : col ∈ hdr
  · exact (findIdx_mem_facts hdr col hin).2.2 j name hj hne
  · intro hcontra
    have hlen : hdr.findIdx (· = col) = hdr.length := by
      rcases Nat.lt_or_ge (hdr.findIdx (· = col)) hdr.length with h | h
      · exfalso
        have hg := @List.findIdx_getElem _ (· = col) hdr h
        have hcol : hdr[hdr.findIdx (· = col)] = col := by simpa using hg
        exact hin (hcol ▸ List.getElem_mem _)
      · exact Nat.le_antisymm (List.findIdx_le_length ..) h
    rw [hcontra, hlen, List.getElem?_eq_none (Nat.le_refl _)] at hj
    exact Option.noConfusion hj

/-- The generic driver preserves the header, the row count, and every cell
of every column whose name is not among the selected ones. -/
theorem clean_columns_frame (rule : Cell → Cell) (strip : Bool) :
    ∀ (cols : List Str) (t : Table),
      (clean_columns t cols rule strip).1.header = t.header ∧
      (clean_columns t cols rule strip).1.rows.length = t.rows.length ∧
      (∀ j name, t.header[j]? = some name → name ∉ cols →
        ∀ k, cellAt (clean_columns t cols rule strip).1 k j = cellAt t k j) := by
  intro cols
  induction cols with
  | nil => exact fun t => ⟨rfl, rfl, fun _ _ _ _ _ => rfl⟩
  | cons col rest ih =>
    intro t
    obtain ⟨ihh, ihl, ihc⟩ :=
      ih ⟨t.header, applyAtCol t.rows (t.header.findIdx (· = col)) rule⟩
    refine ⟨ihh, ?_, ?_⟩
    · show (clean_columns _ rest rule strip).1.rows.length = _
      rw [ihl]
      exact applyAtCol_length ..
    · intro j name hj hnotin k
      have hne : j ≠ t.header.findIdx (· = col) :=
        unselected_ne_findIdx t.header col j name hj
          (fun he => hnotin (he ▸ List.mem_cons_self ..))
      have h1 := ihc j name hj (fun hm => hnotin (List.mem_cons_of_mem _ hm)) k
      show cellAt (clean_columns _ rest rule strip).1 k j = _
      rw [h1]
      exact applyAtCol_getD_ne _ _ rule k j hne

/-- `mapM` in `Except` applied to a per-row cell update: the row count is
preserved and every column index other than the written one is unchanged. -/
theorem mapM_set_frame (g : Cell → Except Str Str) (i : Nat) :
    ∀ (rows newRows : List (List Cell)),
      rows.mapM (fun r =>
        (g (r.getD i none)).map (fun nv => r.set i (some nv))) = .ok newRows →
      newRows.length = rows.length ∧
      ∀ k j, j ≠ i →
        (newRows.getD k []).getD j none = (rows.getD k []).getD j none := by
  intro rows
  induction rows with
  | nil =>
    intro newRows h
    simp only [List.mapM_nil, pure, Except.pure] at h
    cases h
    exact ⟨rfl, fun _ _ _ => rfl⟩
  | cons r rest ih =>
    intro newRows h
    simp only [List.mapM_cons] at h
    cases hg : g (r.getD i none) with
    | error e => rw [hg] at h; exact absurd h (by simp [Except.map, Except.bind, bind, pure])
    | ok nv =>
      rw [hg] at h
      cases hrest : rest.mapM (fun r =>
          (g (r.getD i none)).map (fun nv => r.set i (some nv))) with
      | error e =>
        rw [hrest] at h
        exact absurd h (by simp [Except.map, Except.bind, bind, pure, Except.pure])
      | ok ns =>
        rw [hrest] at h
        obtain ⟨ihl, ihp⟩ := ih ns hrest
        have hnew : newRows = r.set i (some nv) :: ns := by
          simpa [Except.map, Except.bind, bind, pure, Except.pure] using h.symm
        subst hnew
        refine ⟨by simpa using ihl, fun k j hj => ?_⟩
        cases k with
        | zero =>
          simp only [List.getD_cons_zero]
          exact getD_set_ne r i j _ hj
        | succ k2 =>
          simp only [List.getD_cons_succ]
          exact ihp k2 j hj

/-- Frame property of the numeric tool's `clean_dataframe`. -/
theorem number_clean_frame (mode : Str) (places : Nat) (rnd : Str) :
    ∀ (cols : List Str) (t t2 : Table),
      number_clean_dataframe t cols mode places rnd = .ok t2 →
      t2.header = t.header ∧ t2.rows.length = t.rows.length ∧
      (∀ j name, t.header[j]? = some name → name ∉ cols →
        ∀ k, cellAt t2 k j = cellAt t k j) := by
  intro cols
  induction cols with
  | nil =>
    intro t t2 h
    simp only [number_clean_dataframe] at h
    cases h
    exact ⟨rfl, rfl, fun _ _ _ _ _ => rfl⟩
  | cons col rest ih =>
    intro t t2 h
    simp only [number_clean_dataframe] at h
    by_cases hin : col ∈ t.header
    · rw [if_pos hin] at h
      cases hmap : t.rows.mapM (fun r =>
          (convert_number (extract_number (r.getD (t.header.findIdx (· = col)) none))
            mode places rnd).map
            (fun nv => r.set (t.header.findIdx (· = col)) (some nv))) with
      | error e => rw [hmap] at h; exact Except.noConfusion h
      | ok newRows =>
        rw [hmap] at h
        obtain ⟨ihh, ihl, ihc⟩ := ih ⟨t.header, newRows⟩ t2 h
        obtain ⟨hml, hmp⟩ := mapM_set_frame
          (fun c => convert_number (extract_number c) mode places rnd)
          (t.header.findIdx (· = col)) t.rows newRows hmap
        refine ⟨ihh, by rw [ihl]; exact hml, fun j name hj hnotin k => ?_⟩
        have hne : j ≠ t.header.findIdx (· = col) :=
          unselected_ne_findIdx t.header col j name hj
            (fun he => hnotin (he ▸ List.mem_cons_self ..))
        have h1 := ihc j name hj (fun hm => hnotin (List.mem_cons_of_mem _ hm)) k
        rw [h1]
        exact hmp k j hne
    · rw [if_neg hin] at h
      exact Except.noConfusion h

/-- Unfolding equation of `dedupeAux` on a nonempty row list. -/
theorem dedupeAux_cons (hdr cols : List Str) (seen : List (List Cell))
    (r : List Cell) (rest : List (List Cell)) :
    dedupeAux hdr cols seen (r :: rest) =
      (if keyOf hdr cols r ∈ seen
       then ((dedupeAux hdr cols (keyOf hdr cols r :: seen) rest).1,
             r :: (dedupeAux hdr cols (keyOf hdr cols r :: seen) rest).2)
       else (r :: (dedupeAux hdr cols (keyOf hdr cols r :: seen) rest).1,
             (dedupeAux hdr cols (keyOf hdr cols r :: seen) rest).2)) := rfl

/-- Specification of `dedupeAux`: the kept rows are a subsequence of the
input, kept and removed rows partition the input, and every input row's key
is already seen or represented among the kept rows. -/
theorem dedupeAux_spec (hdr cols : List Str) :
    ∀ (rows seen : List (List Cell)),
      (dedupeAux hdr cols seen rows).1.Sublist rows ∧
      (dedupeAux hdr cols seen rows).1.length +
        (dedupeAux hdr cols seen rows).2.length = rows.length ∧
      (∀ r ∈ rows, keyOf hdr cols r ∈ seen ∨
        ∃ r2 ∈ (dedupeAux hdr cols seen rows).1,
          keyOf hdr cols r2 = keyOf hdr cols r) := by
  intro rows
  induction rows with
  | nil => exact fun seen => ⟨List.nil_sublist _, rfl, fun r hr => absurd hr (List.not_mem_nil r)⟩
  | cons r rest ih =>
    intro seen
    obtain ⟨ihs, ihl, ihc⟩ := ih (keyOf hdr cols r :: seen)
    by_cases hk : keyOf hdr cols r ∈ seen
    · have hred : dedupeAux hdr cols seen (r :: rest) =
          ((dedupeAux hdr cols (keyOf hdr cols r :: seen) rest).1,
           r :: (dedupeAux hdr cols (keyOf hdr cols r :: seen) rest).2) := by
        rw [dedupeAux_cons, if_pos hk]
      rw [hred]
      refine ⟨ihs.trans (List.sublist_cons_self ..),
              by simp only [List.length_cons]; omega,
              fun r3 hr3 => ?_⟩
      rcases List.mem_cons.mp hr3 with h3 | h3
      · exact Or.inl (by rw [h3]; exact hk)
      · rcases ihc r3 h3 with hseen | hex
        · rcases List.mem_cons.mp hseen with he | he
          · exact Or.inl (he ▸ hk)
          · exact Or.inl he
        · exact Or.inr hex
    · have hred : dedupeAux hdr cols seen (r :: rest) =
          (r :: (dedupeAux hdr cols (keyOf hdr cols r :: seen) rest).1,
           (dedupeAux hdr cols (keyOf hdr cols r :: seen) rest).2) := by
        rw [dedupeAux_cons, if_neg hk]
      rw [hred]
      refine ⟨ihs.cons₂ r, by simp only [List.length_cons]; omega,
              fun r3 hr3 => ?_⟩
      rcases List.mem_cons.mp hr3 with h3 | h3
      · exact Or.inr ⟨r, List.mem_cons_self .., by rw [h3]⟩
      · rcases ihc r3 h3 with hseen | hex
        · rcases List.mem_cons.mp hseen with he | he
          · exact Or.inr ⟨r, List.mem_cons_self .., he.symm⟩
          · exact Or.inl he
        · obtain ⟨r2, hr2, hkey⟩ := hex
          exact Or.inr ⟨r2, List.mem_cons_of_mem _ hr2, hkey⟩

/-! ### Slash toolkit: `collapseSlashes`, `rstripSlash`, `infixOf` -/

/-- Collapsing distributes over an append whose left part has no slashes. -/
theorem collapseAux_append_left (d p : Str) (hd : ∀ c ∈ d, c ≠ '/') :
    collapseAux false (d ++ p) = d ++ collapseAux false p := by
  induction d with
  | nil => rfl
  | cons c rest ih =>
    have hc : c ≠ '/' := hd c (List.mem_cons_self ..)
    show collapseAux false (c :: (rest ++ p)) = c :: (rest ++ collapseAux false p)
    simp only [collapseAux]
    rw [if_neg hc, ih (fun x hx => hd x (List.mem_cons_of_mem _ hx))]

/-- `collapseAux true` yields the empty string exactly on all-slash input. -/
theorem collapseAux_true_nil_iff (s : Str) :
    collapseAux true s = [] ↔ ∀ c ∈ s, c = '/' := by
  induction s with
  | nil => simp [collapseAux]
  | cons c rest ih =>
    by_cases hc : c = '/'
    · subst hc
      rw [show collapseAux true ('/' :: rest) = collapseAux true rest from rfl, ih]
      constructor
      · intro h x hx
        rcases List.mem_cons.mp hx with h1 | h1
        · exact h1
        · exact h x h1
      · intro h x hx
        exact h x (List.mem_cons_of_mem _ hx)
    · rw [show collapseAux true (c :: rest) = c :: collapseAux false rest from by
        simp only [collapseAux]; rw [if_neg hc]]
      constructor
      · intro h; exact absurd h (List.cons_ne_nil _ _)
      · intro h; exact absurd (h c (List.mem_cons_self ..)) hc

/-- The head of `collapseAux true s` is never a slash. -/
theorem collapseAux_true_head_ne (s : Str) :
    ∀ c2, (collapseAux true s).head? = some c2 → c2 ≠ '/' := by
  induction s with
  | nil => intro c2 h; exact absurd h (by simp [collapseAux])
  | cons c rest ih =>
    intro c2 h
    by_cases hc : c = '/'
    · subst hc
      rw [show collapseAux true ('/' :: rest) = collapseAux true rest from rfl] at h
      exact ih c2 h
    · rw [show collapseAux true (c :: rest) = c :: collapseAux false rest from by
        simp only [collapseAux]; rw [if_neg hc]] at h
      cases h
      exact hc

/-- A string that begins with a non-slash (or is empty) and has no double
slash still has no double slash when a slash is prepended. -/
theorem noDoubleSlash_cons_of_head_ne (c : Char) (t : Str)
    (hhead : ∀ x xs, t = x :: xs → (c = '/' → x ≠ '/'))
    (ht : noDoubleSlash t = true) :
    noDoubleSlash (c :: t) = true := by
  cases t with
  | nil => rfl
  | cons x xs =>
    have hx := hhead x xs rfl
    simp only [noDoubleSlash, Bool.and_eq_true, Bool.not_eq_true']
    refine ⟨?_, ht⟩
    by_cases hc : c = '/'
    · simp [hc, hx hc]
    · simp [hc]

/-- The collapsed string has no double slash. -/
theorem noDoubleSlash_collapseAux (s : Str) :
    ∀ b, noDoubleSlash (collapseAux b s) = true := by
  induction s with
  | nil => intro b; rfl
  | cons c rest ih =>
    intro b
    by_cases hc : c = '/'
    · subst hc
      cases b with
      | true =>
        simp only [collapseAux, if_pos rfl]
        exact ih true
      | false =>
        simp only [collapseAux, if_pos rfl, Bool.false_eq_true, if_neg (by decide : ¬ False)]
        refine noDoubleSlash_cons_of_head_ne '/' _ (fun x xs hx _ => ?_) (ih true)
        exact collapseAux_true_head_ne rest x (by rw [hx]; rfl)
    · simp only [collapseAux, if_neg hc]
      exact noDoubleSlash_cons_of_head_ne c _ (fun _ _ _ hcc => absurd hcc hc) (ih false)

/-- `collapseAux false` is empty only on the empty string. -/
theorem collapseAux_false_nil_iff (s : Str) : collapseAux false s = [] ↔ s = [] := by
  cases s with
  | nil => simp [collapseAux]
  | cons c rest =>
    constructor
    · intro h
      by_cases hc : c = '/'
      · subst hc
        rw [show collapseAux false ('/' :: rest) = '/' :: collapseAux true rest from by
          simp [collapseAux]] at h
        exact absurd h (List.cons_ne_nil _ _)
      · rw [show collapseAux false (c :: rest) = c :: collapseAux false rest from by
          simp only [collapseAux]; rw [if_neg hc]] at h
        exact absurd h (List.cons_ne_nil _ _)
    · intro h; exact absurd h (List.cons_ne_nil _ _)

/-- If the input does not end in a slash, nor does the collapsed output. -/
theorem collapseAux_getLast_ne (s : Str) (h : s.getLast? ≠ some '/') :
    ∀ b, (collapseAux b s).getLast? ≠ some '/' := by
  induction s with
  | nil => intro b; simp [collapseAux]
  | cons c rest ih =>
    intro b
    cases rest with
    | nil =>
      have hc : c ≠ '/' := by
        intro he; exact h (by simp [he])
      rw [show collapseAux b [c] = [c] from by
        simp only [collapseAux]; rw [if_neg hc]]
      simpa using hc
    | cons c2 rs =>
      have htail : (c2 :: rs).getLast? ≠ some '/' := by
        rwa [List.getLast?_cons_cons] at h
      by_cases hc : c = '/'
      · subst hc
        cases b with
        | true =>
          rw [show collapseAux true ('/' :: c2 :: rs) = collapseAux true (c2 :: rs) from rfl]
          exact ih htail true
        | false =>
          rw [show collapseAux false ('/' :: c2 :: rs) = '/' :: collapseAux true (c2 :: rs) from by
            simp [collapseAux]]
          cases hT : collapseAux true (c2 :: rs) with
          | nil =>
            have hall := (collapseAux_true_nil_iff (c2 :: rs)).mp hT
            exfalso
            apply htail
            have : (c2 :: rs).getLast ((List.cons_ne_nil _ _)) ∈ (c2 :: rs) :=
              List.getLast_mem _
            rw [List.getLast?_eq_getLast _ (List.cons_ne_nil _ _)]
            exact congrArg some (hall _ this)
          | cons x xs =>
            rw [List.getLast?_cons_cons]
            have := ih htail true
            rwa [hT] at this
      · rw [show collapseAux b (c :: c2 :: rs) = c :: collapseAux false (c2 :: rs) from by
          simp only [collapseAux]; rw [if_neg hc]]
        cases hT : collapseAux false (c2 :: rs) with
        | nil => exact absurd ((collapseAux_false_nil_iff _).mp hT) (List.cons_ne_nil _ _)
        | cons x xs =>
          rw [List.getLast?_cons_cons]
          have := ih htail false
          rwa [hT] at this

/-- The head of `dropWhile` never satisfies the predicate. -/
theorem head_dropWhile_not (p : Char → Bool) (l : Str) :
    ∀ a, (l.dropWhile p).head? = some a → p a = false := by
  induction l with
  | nil => intro a h; exact absurd h (by simp)
  | cons c rest ih =>
    intro a h
    by_cases hc : p c
    · rw [List.dropWhile_cons_of_pos hc] at h
      exact ih a h
    · rw [List.dropWhile_cons_of_neg hc] at h
      cases h
      exact Bool.not_eq_true _ |>.mp hc

/-- `rstripSlash` output never ends in a slash. -/
theorem rstripSlash_getLast_ne (s : Str) : (rstripSlash s).getLast? ≠ some '/' := by
  unfold rstripSlash
  rw [List.getLast?_reverse]
  intro h
  have := head_dropWhile_not (· = '/') s.reverse '/' h
  simp at this

/-- A string not ending in a slash is unchanged by `rstripSlash`. -/
theorem rstripSlash_eq_self (s : Str) (h : s.getLast? ≠ some '/') :
    rstripSlash s = s := by
  unfold rstripSlash
  cases hh : s.reverse.head? with
  | none =>
    rw [List.head?_eq_none_iff] at hh
    rw [hh]
    simpa using congrArg List.reverse hh
  | some c =>
    have hc : c ≠ '/' := by
      intro he
      rw [← List.getLast?_reverse, List.reverse_reverse] at hh
      exact h (he ▸ hh)
    cases hs : s.reverse with
    | nil => rw [hs] at hh; exact absurd hh (by simp)
    | cons x xs =>
      rw [hs] at hh
      cases hh
      rw [List.dropWhile_cons_of_neg (by simpa using hc), ← hs, List.reverse_reverse]

/-- The tail of a double-slash-free string is double-slash-free. -/
theorem noDoubleSlash_tail (c : Char) (t : Str) (h : noDoubleSlash (c :: t) = true) :
    noDoubleSlash t = true := by
  cases t with
  | nil => rfl
  | cons x xs =>
    simp only [noDoubleSlash, Bool.and_eq_true] at h
    exact h.2

/-- A double-slash-free string contains no `://` substring (hence carries no
scheme). -/
theorem scheme_infix_false (r : Str) (h : noDoubleSlash r = true) :
    infixOf ("://".data) r = false := by
  induction r with
  | nil => rfl
  | cons c rest ih =>
    simp only [infixOf, Bool.or_eq_false_iff]
    refine ⟨?_, ih (noDoubleSlash_tail c rest h)⟩
    by_contra hpre
    rw [Bool.not_eq_false, List.isPrefixOf_iff_prefix] at hpre
    obtain ⟨t, ht⟩ := hpre
    have ht2 : ':' :: '/' :: '/' :: t = c :: rest := ht
    injection ht2 with h1 h2
    rw [← h2] at h
    simp [noDoubleSlash] at h

/-- Strings whose characters all differ from `/` have no double slash. -/
theorem noDoubleSlash_of_no_slash (s : Str) (h : ∀ c ∈ s, c ≠ '/') :
    noDoubleSlash s = true := by
  induction s with
  | nil => rfl
  | cons c rest ih =>
    refine noDoubleSlash_cons_of_head_ne c rest (fun x xs hx hc => ?_)
      (ih (fun x hx => h x (List.mem_cons_of_mem _ hx)))
    exact absurd hc (h c (List.mem_cons_self ..))

/-- Unfolding equation of `facebookResult` with the lets inlined. -/
theorem facebookResult_eq (parsed : ParseResult) :
    facebookResult parsed =
      (if (parsed.netloc.map lowerChar) ∉ FACEBOOK_DOMAINS then [] else
       if INVALID_FACEBOOK_SEGMENTS.any (fun bad => infixOf bad
           ((collapseSlashes (rstripSlash parsed.path)).map lowerChar ++ ['/'])) then [] else
       if !(VALID_FACEBOOK_PATTERNS.any (fun ok => ok.isPrefixOf
             ((collapseSlashes (rstripSlash parsed.path)).map lowerChar ++ ['/'])) ||
           (decide ((((splitOnChar '/' (collapseSlashes (rstripSlash parsed.path))).filter
               (· ≠ [])).length = 1)) &&
             ((splitOnChar '/' (collapseSlashes (rstripSlash parsed.path))).filter
               (· ≠ [])).headD [] ∉
               ["home".data, "pages".data, "marketplace".data])) then [] else
       collapseSlashes ((if ("www.".data).isPrefixOf (parsed.netloc.map lowerChar)
           then parsed.netloc.map lowerChar
           else "www.".data ++ parsed.netloc.map lowerChar) ++
         collapseSlashes (rstripSlash parsed.path))) := rfl

/-- A blank cell maps to the empty string. -/
theorem normalize_facebook_url_blank (raw : Str) (h1 : pyStrip raw = []) :
    normalize_facebook_url (some raw) = [] := by
  show (if pyStrip raw = [] then []
        else match pyUrlparse (if hasSchemeSlashes ((pyStrip raw).filter (· ≠ ' '))
            then (pyStrip raw).filter (· ≠ ' ')
            else "https://".data ++ (pyStrip raw).filter (· ≠ ' ')) with
          | .error _ => []
          | .ok parsed => facebookResult parsed) = []
  rw [if_pos h1]

/-- On a successful parse the result is the post-parse body. -/
theorem normalize_facebook_url_ok (raw : Str) (h1 : pyStrip raw ≠ [])
    (parsed : ParseResult)
    (hp : pyUrlparse (if hasSchemeSlashes ((pyStrip raw).filter (· ≠ ' '))
        then (pyStrip raw).filter (· ≠ ' ')
        else "https://".data ++ (pyStrip raw).filter (· ≠ ' ')) = .ok parsed) :
    normalize_facebook_url (some raw) = facebookResult parsed := by
  show (if pyStrip raw = [] then []
        else match pyUrlparse (if hasSchemeSlashes ((pyStrip raw).filter (· ≠ ' '))
            then (pyStrip raw).filter (· ≠ ' ')
            else "https://".data ++ (pyStrip raw).filter (· ≠ ' ')) with
          | .error _ => []
          | .ok parsed => facebookResult parsed) = facebookResult parsed
  rw [if_neg h1, hp]

/-- Unfolding equation of `linkedinResult` with the lets inlined. -/
theorem linkedinResult_eq (parsed : ParseResult) :
    linkedinResult parsed =
      (if !(infixOf ("linkedin.com".data) (parsed.netloc.map lowerChar)) then [] else
       if !(VALID_LINKEDIN_PATHS.any (fun rule => infixOf rule
           ((rstripSlash parsed.path).map lowerChar ++ ['/']))) then [] else
       collapseSlashes ((if ("www.".data).isPrefixOf (parsed.netloc.map lowerChar)
           then parsed.netloc.map lowerChar
           else "www.".data ++ parsed.netloc.map lowerChar) ++
         rstripSlash parsed.path)) := rfl

/-- A blank cell maps to the empty string (LinkedIn). -/
theorem normalize_linkedin_url_blank (raw : Str) (h1 : pyStrip raw = []) :
    normalize_linkedin_url (some raw) = [] := by
  show (if pyStrip raw = [] then []
        else match pyUrlparse (if hasSchemeSlashes ((pyStrip raw).filter (· ≠ ' '))
            then (pyStrip raw).filter (· ≠ ' ')
            else "https://".data ++ (pyStrip raw).filter (· ≠ ' ')) with
          | .error _ => []
          | .ok parsed => linkedinResult parsed) = []
  rw [if_pos h1]

/-- On a successful parse the LinkedIn result is the post-parse body. -/
theorem normalize_linkedin_url_ok (raw : Str) (h1 : pyStrip raw ≠ [])
    (parsed : ParseResult)
    (hp : pyUrlparse (if hasSchemeSlashes ((pyStrip raw).filter (· ≠ ' '))
        then (pyStrip raw).filter (· ≠ ' ')
        else "https://".data ++ (pyStrip raw).filter (· ≠ ' ')) = .ok parsed) :
    normalize_linkedin_url (some raw) = linkedinResult parsed := by
  show (if pyStrip raw = [] then []
        else match pyUrlparse (if hasSchemeSlashes ((pyStrip raw).filter (· ≠ ' '))
            then (pyStrip raw).filter (· ≠ ' ')
            else "https://".data ++ (pyStrip raw).filter (· ≠ ' ')) with
          | .error _ => []
          | .ok parsed => linkedinResult parsed) = linkedinResult parsed
  rw [if_neg h1, hp]

/-- Segments produced by `splitOnChar` never contain the separator. -/
theorem splitOnChar_not_mem (sep : Char) (l : Str) :
    ∀ s ∈ splitOnChar sep l, sep ∉ s := by
  induction l with
  | nil =>
    intro s hs
    simp only [splitOnChar, List.mem_singleton] at hs
    simp [hs]
  | cons c rest ih =>
    intro s hs
    by_cases hc : c = sep
    · simp only [splitOnChar, if_pos hc] at hs
      rcases List.mem_cons.mp hs with h | h
      · simp [h]
      · exact ih s h
    · simp only [splitOnChar, if_neg hc] at hs
      cases hsp : splitOnChar sep rest with
      | nil =>
        simp only [hsp, List.mem_singleton] at hs
        rw [hs]
        intro hmem
        rw [List.mem_singleton] at hmem
        exact hc hmem.symm
      | cons seg segs =>
        simp only [hsp] at hs
        rcases List.mem_cons.mp hs with h | h
        · rw [h]
          intro hmem
          rcases List.mem_cons.mp hmem with h2 | h2
          · exact hc h2.symm
          · exact ih seg (by rw [hsp]; exact List.mem_cons_self seg segs) h2
        · exact ih s (by rw [hsp]; exact List.mem_cons.mpr (Or.inr h))

/-- Appending slash-free text to a double-slash-free string keeps it
double-slash-free. -/
theorem noDoubleSlash_append (d u : Str) (hd : noDoubleSlash d = true)
    (hu : ∀ c ∈ u, c ≠ '/') : noDoubleSlash (d ++ u) = true := by
  induction d with
  | nil => exact noDoubleSlash_of_no_slash u hu
  | cons c t ih =>
    have ht : noDoubleSlash t = true := noDoubleSlash_tail c t hd
    refine noDoubleSlash_cons_of_head_ne c (t ++ u) ?_ (ih ht)
    intro x xs hx hcs
    cases t with
    | nil =>
      rw [List.nil_append] at hx
      exact hu x (hx ▸ List.mem_cons_self x xs)
    | cons y ys =>
      rw [List.cons_append] at hx
      injection hx with h1 h2
      rw [← h1]
      intro hy
      rw [hcs, hy] at hd
      simp [noDoubleSlash] at hd

/-- An Instagram profile URL built from a nonempty slash-free username has no
trailing slash and no scheme. -/
theorem igUrl_facts (username : Str) (hne : username ≠ [])
    (hnos : '/' ∉ username) :
    rstripSlash ("www.instagram.com/".data ++ username) =
      "www.instagram.com/".data ++ username ∧
    infixOf ("://".data) ("www.instagram.com/".data ++ username) = false := by
  have hlast : ("www.instagram.com/".data ++ username).getLast? ≠ some '/' := by
    rw [List.getLast?_append, List.getLast?_eq_getLast _ hne]
    simp only [Option.or_some]
    intro hcon
    exact hnos ((Option.some.inj hcon) ▸ List.getLast_mem hne)
  refine ⟨rstripSlash_eq_self _ hlast, scheme_infix_false _ ?_⟩
  exact noDoubleSlash_append _ _ (by decide) (fun c hc h => hnos (h ▸ hc))

/-- Inversion for `usernameMatch`: a successful match returns the nonempty,
length-bounded, character-class-valid captured group. -/
theorem usernameMatch_inv (v u : Str) (h : usernameMatch v = some u) :
    u ≠ [] ∧ u.length ≤ 30 ∧ u.all igNameChar = true := by
  unfold usernameMatch at h
  by_cases hc : (usernameCore v ≠ [] && (usernameCore v).length ≤ 30 &&
      (usernameCore v).all igNameChar) = true
  · rw [if_pos hc] at h
    have hu : u = usernameCore v := (Option.some.inj h).symm
    simp only [Bool.and_eq_true, decide_eq_true_eq] at hc
    exact ⟨hu ▸ hc.1.1, hu ▸ hc.1.2, hu ▸ hc.2⟩
  · rw [if_neg hc] at h
    exact absurd h (by simp)

/-- A string in the username character class matches `USERNAME_REGEX` and is
its own captured group. -/
theorem usernameMatch_fix (u : Str) (hne : u ≠ []) (hlen : u.length ≤ 30)
    (hall : u.all igNameChar = true) : usernameMatch u = some u := by
  have hcore : usernameCore u = u := by
    unfold usernameCore
    rw [if_neg]
    intro hcon
    cases u with
    | nil => exact hne rfl
    | cons a t =>
      rw [List.head?_cons] at hcon
      have ha : igNameChar a = true := by
        rw [List.all_cons, Bool.and_eq_true] at hall
        exact hall.1
      rw [Option.some.inj hcon] at ha
      exact absurd ha (by decide)
  unfold usernameMatch
  rw [hcore, if_pos (by simp [hne, hlen, hall])]

/-- Unfolding equation of `instagramResult` with the lets inlined. -/
theorem instagramResult_eq (parsed : ParseResult) :
    instagramResult parsed =
      (if (parsed.netloc.map lowerChar) ∉ INSTAGRAM_DOMAINS then [] else
       if INVALID_INSTAGRAM_SEGMENTS.any (fun bad => infixOf bad
           ((collapseSlashes (rstripSlash parsed.path)).map lowerChar ++ ['/']))
       then [] else
       match (splitOnChar '/' (collapseSlashes (rstripSlash parsed.path))).filter
           (· ≠ []) with
       | [username] =>
         if (usernameMatch username).isSome
         then "www.instagram.com".data ++ '/' :: username
         else []
       | _ => []) := rfl

/-- A blank cell maps to the empty string (Instagram). -/
theorem normalize_instagram_blank (raw : Str) (h1 : pyStrip raw = []) :
    normalize_instagram (some raw) = [] := by
  show (if pyStrip raw = [] then []
        else match usernameMatch ((pyStrip raw).filter (· ≠ ' ')) with
          | some username => "www.instagram.com/".data ++ username
          | none =>
            match pyUrlparse (if hasSchemeSlashes ((pyStrip raw).filter (· ≠ ' '))
                then (pyStrip raw).filter (· ≠ ' ')
                else "https://".data ++ (pyStrip raw).filter (· ≠ ' ')) with
            | .error _ => []
            | .ok parsed => instagramResult parsed) = []
  rw [if_pos h1]

/-- On a username match the cell becomes the canonical profile URL. -/
theorem normalize_instagram_username (raw : Str) (h1 : pyStrip raw ≠ [])
    (username : Str)
    (hm : usernameMatch ((pyStrip raw).filter (· ≠ ' ')) = some username) :
    normalize_instagram (some raw) = "www.instagram.com/".data ++ username := by
  show (if pyStrip raw = [] then []
        else match usernameMatch ((pyStrip raw).filter (· ≠ ' ')) with
          | some username => "www.instagram.com/".data ++ username
          | none =>
            match pyUrlparse (if hasSchemeSlashes ((pyStrip raw).filter (· ≠ ' '))
                then (pyStrip raw).filter (· ≠ ' ')
                else "https://".data ++ (pyStrip raw).filter (· ≠ ' ')) with
            | .error _ => []
            | .ok parsed => instagramResult parsed) =
      "www.instagram.com/".data ++ username
  rw [if_neg h1, hm]

/-- When the cell is not a bare handle and the URL parse fails, the cell
becomes the empty string (Instagram). -/
theorem normalize_instagram_err (raw : Str) (h1 : pyStrip raw ≠ [])
    (hm : usernameMatch ((pyStrip raw).filter (· ≠ ' ')) = none) (e : Unit)
    (hp : pyUrlparse (if hasSchemeSlashes ((pyStrip raw).filter (· ≠ ' '))
        then (pyStrip raw).filter (· ≠ ' ')
        else "https://".data ++ (pyStrip raw).filter (· ≠ ' ')) = .error e) :
    normalize_instagram (some raw) = [] := by
  show (if pyStrip raw = [] then []
        else match usernameMatch ((pyStrip raw).filter (· ≠ ' ')) with
          | some username => "www.instagram.com/".data ++ username
          | none =>
            match pyUrlparse (if hasSchemeSlashes ((pyStrip raw).filter (· ≠ ' '))
                then (pyStrip raw).filter (· ≠ ' ')
                else "https://".data ++ (pyStrip raw).filter (· ≠ ' ')) with
            | .error _ => []
            | .ok parsed => instagramResult parsed) = []
  rw [if_neg h1, hm, hp]

/-- When the cell is not a bare handle and the URL parse succeeds, the result
is the post-parse body (Instagram). -/
theorem normalize_instagram_ok (raw : Str) (h1 : pyStrip raw ≠ [])
    (hm : usernameMatch ((pyStrip raw).filter (· ≠ ' ')) = none)
    (parsed : ParseResult)
    (hp : pyUrlparse (if hasSchemeSlashes ((pyStrip raw).filter (· ≠ ' '))
        then (pyStrip raw).filter (· ≠ ' ')
        else "https://".data ++ (pyStrip raw).filter (· ≠ ' ')) = .ok parsed) :
    normalize_instagram (some raw) = instagramResult parsed := by
  show (if pyStrip raw = [] then []
        else match usernameMatch ((pyStrip raw).filter (· ≠ ' ')) with
          | some username => "www.instagram.com/".data ++ username
          | none =>
            match pyUrlparse (if hasSchemeSlashes ((pyStrip raw).filter (· ≠ ' '))
                then (pyStrip raw).filter (· ≠ ' ')
                else "https://".data ++ (pyStrip raw).filter (· ≠ ' ')) with
            | .error _ => []
            | .ok parsed => instagramResult parsed) = instagramResult parsed
  rw [if_neg h1, hm, hp]

/-- Acceptance shape of the Instagram post-parse body: a nonempty result
comes from an allow-listed host and a deny-free single-segment path whose
segment matches the username pattern, and is the canonical profile URL with
no scheme and no trailing slash. -/
theorem instagramResult_shape (parsed : ParseResult)
    (hv : instagramResult parsed ≠ []) :
    ∃ username,
      (parsed.netloc.map lowerChar) ∈ INSTAGRAM_DOMAINS ∧
      (INVALID_INSTAGRAM_SEGMENTS.all (fun bad => !(infixOf bad
        ((collapseSlashes (rstripSlash parsed.path)).map lowerChar ++ ['/'])))) =
        true ∧
      (splitOnChar '/' (collapseSlashes (rstripSlash parsed.path))).filter
        (· ≠ []) = [username] ∧
      username ≠ [] ∧
      '/' ∉ username ∧
      (usernameMatch username).isSome = true ∧
      instagramResult parsed = "www.instagram.com/".data ++ username ∧
      rstripSlash (instagramResult parsed) = instagramResult parsed ∧
      infixOf ("://".data) (instagramResult parsed) = false := by
  by_cases hd : (parsed.netloc.map lowerChar) ∈ INSTAGRAM_DOMAINS
  case neg => exact absurd (by rw [instagramResult_eq, if_pos hd]) hv
  by_cases hinv : (INVALID_INSTAGRAM_SEGMENTS.any (fun bad => infixOf bad
      ((collapseSlashes (rstripSlash parsed.path)).map lowerChar ++ ['/']))) = true
  · exact absurd (by rw [instagramResult_eq, if_neg (not_not_intro hd),
      if_pos hinv]) hv
  rw [Bool.not_eq_true] at hinv
  cases hsplit : (splitOnChar '/' (collapseSlashes (rstripSlash parsed.path))).filter
      (· ≠ []) with
  | nil =>
    exact absurd (by rw [instagramResult_eq, if_neg (not_not_intro hd),
      if_neg (by rw [hinv]; exact Bool.false_ne_true), hsplit]) hv
  | cons username rest =>
    cases rest with
    | cons b bs =>
      exact absurd (by rw [instagramResult_eq, if_neg (not_not_intro hd),
        if_neg (by rw [hinv]; exact Bool.false_ne_true), hsplit]) hv
    | nil =>
      have hm2 : instagramResult parsed =
          (if (usernameMatch username).isSome
           then "www.instagram.com".data ++ '/' :: username else []) := by
        rw [instagramResult_eq, if_neg (not_not_intro hd),
          if_neg (by rw [hinv]; exact Bool.false_ne_true), hsplit]
      by_cases hum : (usernameMatch username).isSome = true
      case neg =>
        rw [Bool.not_eq_true] at hum
        rw [hm2, if_neg (by rw [hum]; exact Bool.false_ne_true)] at hv
        exact absurd rfl hv
      have hr : instagramResult parsed = "www.instagram.com/".data ++ username := by
        rw [hm2, if_pos hum]
        rfl
      have humem : username ∈ (splitOnChar '/'
          (collapseSlashes (rstripSlash parsed.path))).filter (· ≠ []) := by
        rw [hsplit]
        exact List.mem_cons_self username []
      have hne : username ≠ [] :=
        of_decide_eq_true (List.mem_filter.mp humem).2
      have hnos : '/' ∉ username :=
        splitOnChar_not_mem '/' _ username (List.mem_of_mem_filter humem)
      obtain ⟨hstrip, hscheme⟩ := igUrl_facts username hne hnos
      refine ⟨username, hd, ?_, rfl, hne, hnos, hum, hr,
        by rw [hr]; exact hstrip, by rw [hr]; exact hscheme⟩
      rw [List.all_eq_true]
      intro bad hbad
      show (!(infixOf bad
        ((collapseSlashes (rstripSlash parsed.path)).map lowerChar ++ ['/']))) = true
      cases hh : infixOf bad
          ((collapseSlashes (rstripSlash parsed.path)).map lowerChar ++ ['/']) with
      | false => rfl
      | true =>
        exact absurd (hinv.symm.trans (List.any_eq_true.mpr ⟨bad, hbad, hh⟩))
          (by decide)

/-- `takeWhile` over a list all of whose elements satisfy the predicate. -/
theorem takeWhile_all (p : Char → Bool) (l : Str) (h : ∀ c ∈ l, p c = true) :
    l.takeWhile p = l := by
  induction l with
  | nil => rfl
  | cons a t ih =>
    rw [List.takeWhile_cons, if_pos (h a (List.mem_cons_self a t)),
      ih (fun c hc => h c (List.mem_cons_of_mem a hc))]

/-- `dropWhile` over a list all of whose elements satisfy the predicate. -/
theorem dropWhile_all (p : Char → Bool) (l : Str) (h : ∀ c ∈ l, p c = true) :
    l.dropWhile p = [] := by
  induction l with
  | nil => rfl
  | cons a t ih =>
    rw [List.dropWhile_cons, if_pos (h a (List.mem_cons_self a t)),
      ih (fun c hc => h c (List.mem_cons_of_mem a hc))]

/-- `takeWhile` stops at a failing head. -/
theorem takeWhile_head_false (p : Char → Bool) (a : Char) (l : Str)
    (h : p a = false) : (a :: l).takeWhile p = [] := by
  rw [List.takeWhile_cons, if_neg (by rw [h]; exact Bool.false_ne_true)]

/-- `dropWhile` keeps a list whose head fails the predicate. -/
theorem dropWhile_head_false (p : Char → Bool) (a : Char) (l : Str)
    (h : p a = false) : (a :: l).dropWhile p = a :: l := by
  rw [List.dropWhile_cons, if_neg (by rw [h]; exact Bool.false_ne_true)]

/-- `dropWhile` over a list none of whose elements satisfy the predicate. -/
theorem dropWhile_all_false (p : Char → Bool) (l : Str)
    (h : ∀ c ∈ l, p c = false) : l.dropWhile p = l := by
  cases l with
  | nil => rfl
  | cons a t => exact dropWhile_head_false p a t (h a (List.mem_cons_self a t))

/-- `takeWhile` passes over an all-satisfying prefix. -/
theorem takeWhile_append_all (p : Char → Bool) (A B : Str)
    (h : ∀ c ∈ A, p c = true) : (A ++ B).takeWhile p = A ++ B.takeWhile p := by
  induction A with
  | nil => rfl
  | cons a t ih =>
    rw [List.cons_append, List.takeWhile_cons,
      if_pos (h a (List.mem_cons_self a t)),
      ih (fun c hc => h c (List.mem_cons_of_mem a hc)), List.cons_append]

/-- `dropWhile` drops an all-satisfying prefix. -/
theorem dropWhile_append_all (p : Char → Bool) (A B : Str)
    (h : ∀ c ∈ A, p c = true) : (A ++ B).dropWhile p = B.dropWhile p := by
  induction A with
  | nil => rfl
  | cons a t ih =>
    rw [List.cons_append, List.dropWhile_cons,
      if_pos (h a (List.mem_cons_self a t)),
      ih (fun c hc => h c (List.mem_cons_of_mem a hc))]

/-- Elements of a `takeWhile` satisfy the predicate. -/
theorem takeWhile_mem_pred (p : Char → Bool) (l : Str) :
    ∀ c ∈ l.takeWhile p, p c = true := by
  induction l with
  | nil => intro c hc; exact absurd hc (by simp)
  | cons a t ih =>
    intro c hc
    rw [List.takeWhile_cons] at hc
    by_cases hp : p a = true
    · rw [if_pos hp] at hc
      rcases List.mem_cons.mp hc with h | h
      · rw [h]; exact hp
      · exact ih c h
    · rw [if_neg hp] at hc
      exact absurd hc (by simp)

/-- `str.strip()` is the identity on whitespace-free strings. -/
theorem pyStrip_eq_self (s : Str) (h : ∀ c ∈ s, pyWs c = false) :
    pyStrip s = s := by
  unfold pyStrip
  rw [dropWhile_all_false _ _ h,
    dropWhile_all_false _ _ (fun c hc => h c (List.mem_reverse.mp hc)),
    List.reverse_reverse]

/-- A character that is not an ASCII uppercase letter is fixed by `lowerChar`. -/
theorem lowerChar_eq_self_of_not_upper (c : Char) (h : isUpperAscii c = false) :
    lowerChar c = c := by
  unfold lowerChar
  by_cases g1 : c = 'A'
  · rw [g1] at h; exact absurd h (by decide)
  rw [if_neg g1]
  by_cases g2 : c = 'B'
  · rw [g2] at h; exact absurd h (by decide)
  rw [if_neg g2]
  by_cases g3 : c = 'C'
  · rw [g3] at h; exact absurd h (by decide)
  rw [if_neg g3]
  by_cases g4 : c = 'D'
  · rw [g4] at h; exact absurd h (by decide)
  rw [if_neg g4]
  by_cases g5 : c = 'E'
  · rw [g5] at h; exact absurd h (by decide)
  rw [if_neg g5]
  by_cases g6 : c = 'F'
  · rw [g6] at h; exact absurd h (by decide)
  rw [if_neg g6]
  by_cases g7 : c = 'G'
  · rw [g7] at h; exact absurd h (by decide)
  rw [if_neg g7]
  by_cases g8 : c = 'H'
  · rw [g8] at h; exact absurd h (by decide)
  rw [if_neg g8]
  by_cases g9 : c = 'I'
  · rw [g9] at h; exact absurd h (by decide)
  rw [if_neg g9]
  by_cases g10 : c = 'J'
  · rw [g10] at h; exact absurd h (by decide)
  rw [if_neg g10]
  by_cases g11 : c = 'K'
  · rw [g11] at h; exact absurd h (by decide)
  rw [if_neg g11]
  by_cases g12 : c = 'L'
  · rw [g12] at h; exact absurd h (by decide)
  rw [if_neg g12]
  by_cases g13 : c = 'M'
  · rw [g13] at h; exact absurd h (by decide)
  rw [if_neg g13]
  by_cases g14 : c = 'N'
  · rw [g14] at h; exact absurd h (by decide)
  rw [if_neg g14]
  by_cases g15 : c = 'O'
  · rw [g15] at h; exact absurd h (by decide)
  rw [if_neg g15]
  by_cases g16 : c = 'P'
  · rw [g16] at h; exact absurd h (by decide)
  rw [if_neg g16]
  by_cases g17 : c = 'Q'
  · rw [g17] at h; exact absurd h (by decide)
  rw [if_neg g17]
  by_cases g18 : c = 'R'
  · rw [g18] at h; exact absurd h (by decide)
  rw [if_neg g18]
  by_cases g19 : c = 'S'
  · rw [g19] at h; exact absurd h (by decide)
  rw [if_neg g19]
  by_cases g20 : c = 'T'
  · rw [g20] at h; exact absurd h (by decide)
  rw [if_neg g20]
  by_cases g21 : c = 'U'
  · rw [g21] at h; exact absurd h (by decide)
  rw [if_neg g21]
  by_cases g22 : c = 'V'
  · rw [g22] at h; exact absurd h (by decide)
  rw [if_neg g22]
  by_cases g23 : c = 'W'
  · rw [g23] at h; exact absurd h (by decide)
  rw [if_neg g23]
  by_cases g24 : c = 'X'
  · rw [g24] at h; exact absurd h (by decide)
  rw [if_neg g24]
  by_cases g25 : c = 'Y'
  · rw [g25] at h; exact absurd h (by decide)
  rw [if_neg g25]
  by_cases g26 : c = 'Z'
  · rw [g26] at h; exact absurd h (by decide)
  rw [if_neg g26]

/-- If `lowerChar c` is not an ASCII lowercase letter, it equals `c`. -/
theorem lowerChar_eq_of_not_lower (c d : Char) (hd : isLowerAscii d = false)
    (h : lowerChar c = d) : c = d := by
  unfold lowerChar at h
  by_cases g1 : c = 'A'
  · rw [if_pos g1] at h; rw [← h] at hd; exact absurd hd (by decide)
  rw [if_neg g1] at h
  by_cases g2 : c = 'B'
  · rw [if_pos g2] at h; rw [← h] at hd; exact absurd hd (by decide)
  rw [if_neg g2] at h
  by_cases g3 : c = 'C'
  · rw [if_pos g3] at h; rw [← h] at hd; exact absurd hd (by decide)
  rw [if_neg g3] at h
  by_cases g4 : c = 'D'
  · rw [if_pos g4] at h; rw [← h] at hd; exact absurd hd (by decide)
  rw [if_neg g4] at h
  by_cases g5 : c = 'E'
  · rw [if_pos g5] at h; rw [← h] at hd; exact absurd hd (by decide)
  rw [if_neg g5] at h
  by_cases g6 : c = 'F'
  · rw [if_pos g6] at h; rw [← h] at hd; exact absurd hd (by decide)
  rw [if_neg g6] at h
  by_cases g7 : c = 'G'
  · rw [if_pos g7] at h; rw [← h] at hd; exact absurd hd (by decide)
  rw [if_neg g7] at h
  by_cases g8 : c = 'H'
  · rw [if_pos g8] at h; rw [← h] at hd; exact absurd hd (by decide)
  rw [if_neg g8] at h
  by_cases g9 : c = 'I'
  · rw [if_pos g9] at h; rw [← h] at hd; exact absurd hd (by decide)
  rw [if_neg g9] at h
  by_cases g10 : c = 'J'
  · rw [if_pos g10] at h; rw [← h] at hd; exact absurd hd (by decide)
  rw [if_neg g10] at h
  by_cases g11 : c = 'K'
  · rw [if_pos g11] at h; rw [← h] at hd; exact absurd hd (by decide)
  rw [if_neg g11] at h
  by_cases g12 : c = 'L'
  · rw [if_pos g12] at h; rw [← h] at hd; exact absurd hd (by decide)
  rw [if_neg g12] at h
  by_cases g13 : c = 'M'
  · rw [if_pos g13] at h; rw [← h] at hd; exact absurd hd (by decide)
  rw [if_neg g13] at h
  by_cases g14 : c = 'N'
  · rw [if_pos g14] at h; rw [← h] at hd; exact absurd hd (by decide)
  rw [if_neg g14] at h
  by_cases g15 : c = 'O'
  · rw [if_pos g15] at h; rw [← h] at hd; exact absurd hd (by decide)
  rw [if_neg g15] at h
  by_cases g16 : c = 'P'
  · rw [if_pos g16] at h; rw [← h] at hd; exact absurd hd (by decide)
  rw [if_neg g16] at h
  by_cases g17 : c = 'Q'
  · rw [if_pos g17] at h; rw [← h] at hd; exact absurd hd (by decide)
  rw [if_neg g17] at h
  by_cases g18 : c = 'R'
  · rw [if_pos g18] at h; rw [← h] at hd; exact absurd hd (by decide)
  rw [if_neg g18] at h
  by_cases g19 : c = 'S'
  · rw [if_pos g19] at h; rw [← h] at hd; exact absurd hd (by decide)
  rw [if_neg g19] at h
  by_cases g20 : c = 'T'
  · rw [if_pos g20] at h; rw [← h] at hd; exact absurd hd (by decide)
  rw [if_neg g20] at h
  by_cases g21 : c = 'U'
  · rw [if_pos g21] at h; rw [← h] at hd; exact absurd hd (by decide)
  rw [if_neg g21] at h
  by_cases g22 : c = 'V'
  · rw [if_pos g22] at h; rw [← h] at hd; exact absurd hd (by decide)
  rw [if_neg g22] at h
  by_cases g23 : c = 'W'
  · rw [if_pos g23] at h; rw [← h] at hd; exact absurd hd (by decide)
  rw [if_neg g23] at h
  by_cases g24 : c = 'X'
  · rw [if_pos g24] at h; rw [← h] at hd; exact absurd hd (by decide)
  rw [if_neg g24] at h
  by_cases g25 : c = 'Y'
  · rw [if_pos g25] at h; rw [← h] at hd; exact absurd hd (by decide)
  rw [if_neg g25] at h
  by_cases g26 : c = 'Z'
  · rw [if_pos g26] at h; rw [← h] at hd; exact absurd hd (by decide)
  rw [if_neg g26] at h
  exact h

/-- `lowerChar` is idempotent. -/
theorem lower_lower (c : Char) : lowerChar (lowerChar c) = lowerChar c := by
  by_cases g1 : c = 'A'
  · rw [g1]; decide
  by_cases g2 : c = 'B'
  · rw [g2]; decide
  by_cases g3 : c = 'C'
  · rw [g3]; decide
  by_cases g4 : c = 'D'
  · rw [g4]; decide
  by_cases g5 : c = 'E'
  · rw [g5]; decide
  by_cases g6 : c = 'F'
  · rw [g6]; decide
  by_cases g7 : c = 'G'
  · rw [g7]; decide
  by_cases g8 : c = 'H'
  · rw [g8]; decide
  by_cases g9 : c = 'I'
  · rw [g9]; decide
  by_cases g10 : c = 'J'
  · rw [g10]; decide
  by_cases g11 : c = 'K'
  · rw [g11]; decide
  by_cases g12 : c = 'L'
  · rw [g12]; decide
  by_cases g13 : c = 'M'
  · rw [g13]; decide
  by_cases g14 : c = 'N'
  · rw [g14]; decide
  by_cases g15 : c = 'O'
  · rw [g15]; decide
  by_cases g16 : c = 'P'
  · rw [g16]; decide
  by_cases g17 : c = 'Q'
  · rw [g17]; decide
  by_cases g18 : c = 'R'
  · rw [g18]; decide
  by_cases g19 : c = 'S'
  · rw [g19]; decide
  by_cases g20 : c = 'T'
  · rw [g20]; decide
  by_cases g21 : c = 'U'
  · rw [g21]; decide
  by_cases g22 : c = 'V'
  · rw [g22]; decide
  by_cases g23 : c = 'W'
  · rw [g23]; decide
  by_cases g24 : c = 'X'
  · rw [g24]; decide
  by_cases g25 : c = 'Y'
  · rw [g25]; decide
  by_cases g26 : c = 'Z'
  · rw [g26]; decide
  have hc : lowerChar c = c := by
    unfold lowerChar
    rw [if_neg g1, if_neg g2, if_neg g3, if_neg g4, if_neg g5, if_neg g6, if_neg g7, if_neg g8, if_neg g9, if_neg g10, if_neg g11, if_neg g12, if_neg g13, if_neg g14, if_neg g15, if_neg g16, if_neg g17, if_neg g18, if_neg g19, if_neg g20, if_neg g21, if_neg g22, if_neg g23, if_neg g24, if_neg g25, if_neg g26]
  rw [hc, hc]

/-- Characters of a substring occur in the string. -/
theorem infixOf_subset (n h : Str) (hi : infixOf n h = true) :
    ∀ c ∈ n, c ∈ h := by
  induction h with
  | nil =>
    cases n with
    | nil => intro c hc; exact absurd hc (by simp)
    | cons a t => exact absurd hi (by simp [infixOf, List.isEmpty])
  | cons a t ih =>
    intro c hc
    rw [infixOf, Bool.or_eq_true] at hi
    rcases hi with hp | hrest
    · exact (List.isPrefixOf_iff_prefix.mp hp).subset hc
    · exact List.mem_cons_of_mem a (ih hrest c hc)

/-- A substring of the right part is a substring of the whole. -/
theorem infixOf_append_left (n x l : Str) (h : infixOf n l = true) :
    infixOf n (x ++ l) = true := by
  induction x with
  | nil => exact h
  | cons a t ih =>
    rw [List.cons_append, infixOf, Bool.or_eq_true]
    exact Or.inr ih

/-- Collapsing is the identity on strings with no double slash (given that
under `b = true` the head also is not a slash). -/
theorem collapseAux_eq_self (s : Str) (h : noDoubleSlash s = true) :
    ∀ b, (b = true → s.head? ≠ some '/') → collapseAux b s = s := by
  induction s with
  | nil => intro b _; rfl
  | cons c t ih =>
    intro b hb
    by_cases hc : c = '/'
    · have hbf : b = false := by
        cases b with
        | false => rfl
        | true => exact absurd (by rw [hc, List.head?_cons]) (hb rfl)
      rw [hbf]
      rw [show collapseAux false (c :: t) = if c = '/'
          then '/' :: collapseAux true t
          else c :: collapseAux false t from rfl, if_pos hc, hc]
      congr 1
      refine ih (noDoubleSlash_tail c t h) true ?_
      intro _
      cases t with
      | nil => simp
      | cons x xs =>
        rw [List.head?_cons]
        intro hx
        rw [hc] at h
        rw [Option.some.inj hx] at h
        simp [noDoubleSlash] at h
    · rw [show collapseAux b (c :: t) = if c = '/'
          then (if b then collapseAux true t else '/' :: collapseAux true t)
          else c :: collapseAux false t from rfl, if_neg hc,
        ih (noDoubleSlash_tail c t h) false (by simp)]

/-- Collapsing slashes is the identity on double-slash-free strings. -/
theorem collapseSlashes_eq_self (s : Str) (h : noDoubleSlash s = true) :
    collapseSlashes s = s :=
  collapseAux_eq_self s h false (by simp)

/-- Characters of a collapsed string occur in the original. -/
theorem collapseAux_subset (s : Str) : ∀ b, ∀ c ∈ collapseAux b s, c ∈ s := by
  induction s with
  | nil => intro b c hc; exact absurd hc (by simp [collapseAux])
  | cons a t ih =>
    intro b c hc
    by_cases ha : a = '/'
    · rw [show collapseAux b (a :: t) = if a = '/'
          then (if b then collapseAux true t else '/' :: collapseAux true t)
          else a :: collapseAux false t from rfl, if_pos ha] at hc
      cases b with
      | true =>
        rw [if_pos rfl] at hc
        exact List.mem_cons_of_mem a (ih true c hc)
      | false =>
        rw [if_neg (by simp)] at hc
        rcases List.mem_cons.mp hc with h1 | h1
        · rw [h1, ← ha]; exact List.mem_cons_self a t
        · exact List.mem_cons_of_mem a (ih true c h1)
    · rw [show collapseAux b (a :: t) = if a = '/'
          then (if b then collapseAux true t else '/' :: collapseAux true t)
          else a :: collapseAux false t from rfl, if_neg ha] at hc
      rcases List.mem_cons.mp hc with h1 | h1
      · rw [h1]; exact List.mem_cons_self a t
      · exact List.mem_cons_of_mem a (ih false c h1)

/-- `rstrip("/")` is a prefix of its argument. -/
theorem rstripSlash_isPrefixOf (s : Str) : rstripSlash s <+: s := by
  unfold rstripSlash
  have h1 : s.reverse.dropWhile (· = '/') <:+ s.reverse := List.dropWhile_suffix _
  have h2 := List.reverse_prefix.mpr h1
  rw [List.reverse_reverse] at h2
  exact h2

/-- A prefix of a double-slash-free string is double-slash-free. -/
theorem noDoubleSlash_of_prefix (l m : Str) (h : l <+: m)
    (hm : noDoubleSlash m = true) : noDoubleSlash l = true := by
  induction m generalizing l with
  | nil =>
    rw [List.prefix_nil.mp h]
    rfl
  | cons a t ih =>
    rcases h with ⟨r, hr⟩
    cases l with
    | nil => rfl
    | cons b u =>
      rw [List.cons_append] at hr
      injection hr with h1 h2
      rw [h1]
      cases u with
      | nil =>
        cases t with
        | nil => rfl
        | cons x xs => rfl
      | cons b2 u2 =>
        cases t with
        | nil => exact absurd h2 (by simp)
        | cons x xs =>
          have hpref : (b2 :: u2) <+: (x :: xs) := ⟨r, h2⟩
          have ht : noDoubleSlash (b2 :: u2) = true :=
            ih (b2 :: u2) hpref (noDoubleSlash_tail a (x :: xs) hm)
          rw [List.cons_append] at h2
          injection h2 with h3 h4
          rw [show noDoubleSlash (a :: b2 :: u2) =
            (!(a = '/' && b2 = '/') && noDoubleSlash (b2 :: u2)) from rfl]
          rw [ht, Bool.and_true]
          rw [show noDoubleSlash (a :: x :: xs) =
            (!(a = '/' && x = '/') && noDoubleSlash (x :: xs)) from rfl,
            Bool.and_eq_true] at hm
          rw [h3]
          exact hm.1

/-- A suffix of a double-slash-free string is double-slash-free. -/
theorem noDoubleSlash_of_suffix (l m : Str) (h : l <:+ m)
    (hm : noDoubleSlash m = true) : noDoubleSlash l = true := by
  rcases h with ⟨pre, hpre⟩
  induction pre generalizing m with
  | nil =>
    rw [List.nil_append] at hpre
    rw [hpre]
    exact hm
  | cons a t ih =>
    cases m with
    | nil => exact absurd hpre (by simp)
    | cons x xs =>
      rw [List.cons_append] at hpre
      injection hpre with h1 h2
      exact ih xs (noDoubleSlash_tail x xs hm) h2

/-- A contiguous substring of a double-slash-free string is
double-slash-free. -/
theorem noDoubleSlash_of_isInfixOf (l m : Str) (h : l <:+: m)
    (hm : noDoubleSlash m = true) : noDoubleSlash l = true := by
  rcases h with ⟨pre, suf, hps⟩
  have hsfx : (l ++ suf) <:+ m := ⟨pre, by rw [← List.append_assoc, hps]⟩
  have h1 : noDoubleSlash (l ++ suf) = true := noDoubleSlash_of_suffix _ _ hsfx hm
  exact noDoubleSlash_of_prefix l (l ++ suf) (List.prefix_append l suf) h1

/-- On a double-slash-free string the scheme-pattern tail matcher fails
(auxiliary). -/
theorem schemeSlashesAux_false (s : Str) (h : noDoubleSlash s = true) :
    hasSchemeSlashes.hasSchemeSlashesAux s = false := by
  induction s with
  | nil => rfl
  | cons c t ih =>
    unfold hasSchemeSlashes.hasSchemeSlashesAux
    split
    · rename_i t3 heq
      injection heq with h1 h2
      rw [h2] at h
      simp [noDoubleSlash] at h
    · rename_i c2 rest heq
      injection heq with h1 h2
      rw [← h1, ← h2, ih (noDoubleSlash_tail c t h), Bool.and_false]
    · rfl

/-- A double-slash-free string never matches the scheme-`://` pattern. -/
theorem hasSchemeSlashes_false_of_noDoubleSlash (s : Str)
    (h : noDoubleSlash s = true) : hasSchemeSlashes s = false := by
  cases s with
  | nil => rfl
  | cons c t =>
    show (isAlphaAscii c && hasSchemeSlashes.hasSchemeSlashesAux t) = false
    rw [schemeSlashesAux_false t (noDoubleSlash_tail c t h), Bool.and_false]

/-- The kept part of a `splitTail` is a prefix. -/
theorem splitTail_fst_isPrefixOf (p : Char → Bool) (u : Str) :
    (splitTail p u).1 <+: u := by
  show (u.takeWhile (fun c => !(p c))) <+: u
  exact List.takeWhile_prefix _

/-- Characters of the kept part of a `splitTail` fail the split predicate. -/
theorem splitTail_fst_pred (p : Char → Bool) (u : Str) :
    ∀ c ∈ (splitTail p u).1, p c = false := by
  intro c hc
  have h2 : (!(p c)) = true := takeWhile_mem_pred (fun c => !(p c)) u c hc
  cases hp : p c with
  | false => rfl
  | true =>
    rw [hp] at h2
    exact absurd h2 (by decide)

/-- The remainder after the scheme split is a suffix of the input. -/
theorem schemeSplit_snd_suffix (u : Str) : (schemeSplit u).2 <:+ u := by
  unfold schemeSplit
  split
  · rename_i c cs after heq
    split
    · have h2 : u.dropWhile (fun x => !(x = ':')) = ':' :: after :=
        congrArg Prod.snd heq
      show after <:+ u
      have hsuf : ':' :: after <:+ u := by
        rw [← h2]
        exact List.dropWhile_suffix _
      exact List.IsSuffix.trans ⟨[':'], rfl⟩ hsuf
    · exact List.suffix_refl u
  · exact List.suffix_refl u

/-- The netloc contains no `/`, `?` or `#`. -/
theorem netlocSplit_fst_pred (u : Str) :
    ∀ c ∈ (netlocSplit u).1, (c = '/' || c = '?' || c = '#') = false := by
  unfold netlocSplit
  split
  · intro c hc
    have h2 : (!(c = '/' || c = '?' || c = '#')) = true := takeWhile_mem_pred
      (fun c => !(c = '/' || c = '?' || c = '#')) (u.drop 2) c hc
    cases hp : (c = '/' || c = '?' || c = '#') with
    | false => rfl
    | true =>
      rw [hp] at h2
      exact absurd h2 (by decide)
  · intro c hc
    exact absurd hc (by simp)

/-- Characters of the netloc occur in the input. -/
theorem netlocSplit_fst_subset (u : Str) : ∀ c ∈ (netlocSplit u).1, c ∈ u := by
  unfold netlocSplit
  split
  · intro c hc
    have h2 : c ∈ u.drop 2 :=
      (List.takeWhile_prefix _).subset hc
    exact (List.drop_subset 2 u) h2
  · intro c hc
    exact absurd hc (by simp)

/-- The remainder after the netloc split is a suffix of the input. -/
theorem netlocSplit_snd_suffix (u : Str) : (netlocSplit u).2 <:+ u := by
  unfold netlocSplit
  split
  · show (u.drop 2).dropWhile (fun c => !(c = '/' || c = '?' || c = '#')) <:+ u
    exact List.IsSuffix.trans (List.dropWhile_suffix _) (List.drop_suffix 2 u)
  · exact List.suffix_refl u

/-- Structural facts about a successful `urlsplit`: the netloc has no `/`,
`?` or `#` and its characters come from the (control-stripped,
unsafe-character-free) input; the raw path has no `#` or `?` and is a
contiguous substring of that input. -/
theorem pyUrlsplit_ok_facts (url : Str) (r : SplitResult)
    (h : pyUrlsplit url = .ok r) :
    (∀ c ∈ r.netloc, (c = '/' || c = '?' || c = '#') = false) ∧
    (∀ c ∈ r.netloc, c ∈ removeUnsafeUrl (url.dropWhile c0Space)) ∧
    (∀ c ∈ r.pathRaw, c ≠ '#' ∧ c ≠ '?') ∧
    r.pathRaw <:+: removeUnsafeUrl (url.dropWhile c0Space) := by
  unfold pyUrlsplit at h
  dsimp only [] at h
  split at h
  · exact absurd h (by simp)
  · have hr : r = ⟨(schemeSplit (removeUnsafeUrl (url.dropWhile c0Space))).1,
        (netlocSplit (schemeSplit (removeUnsafeUrl (url.dropWhile c0Space))).2).1,
        (splitTail (· = '?') (splitTail (· = '#')
          (netlocSplit (schemeSplit (removeUnsafeUrl (url.dropWhile c0Space))).2).2).1).1,
        (splitTail (· = '?') (splitTail (· = '#')
          (netlocSplit (schemeSplit (removeUnsafeUrl (url.dropWhile c0Space))).2).2).1).2,
        (splitTail (· = '#') (netlocSplit (schemeSplit (removeUnsafeUrl (url.dropWhile c0Space))).2).2).2⟩ :=
      (Except.ok.inj h).symm
    rw [hr]
    refine ⟨netlocSplit_fst_pred _, ?_, ?_, ?_⟩
    · intro c hc
      have h2 : c ∈ (schemeSplit (removeUnsafeUrl (url.dropWhile c0Space))).2 := netlocSplit_fst_subset _ c hc
      exact (schemeSplit_snd_suffix (removeUnsafeUrl (url.dropWhile c0Space))).subset h2
    · intro c hc
      constructor
      · have h2 : c ∈ (splitTail (· = '#')
            (netlocSplit (schemeSplit (removeUnsafeUrl (url.dropWhile c0Space))).2).2).1 :=
          (splitTail_fst_isPrefixOf _ _).subset hc
        exact of_decide_eq_false (splitTail_fst_pred (· = '#') _ c h2)
      · exact of_decide_eq_false (splitTail_fst_pred (· = '?') _ c hc)
    · have p1 : (splitTail (· = '?') (splitTail (· = '#')
          (netlocSplit (schemeSplit (removeUnsafeUrl (url.dropWhile c0Space))).2).2).1).1 <+:
          (splitTail (· = '#') (netlocSplit (schemeSplit (removeUnsafeUrl (url.dropWhile c0Space))).2).2).1 :=
        splitTail_fst_isPrefixOf _ _
      have p2 : (splitTail (· = '#') (netlocSplit (schemeSplit (removeUnsafeUrl (url.dropWhile c0Space))).2).2).1 <+:
          (netlocSplit (schemeSplit (removeUnsafeUrl (url.dropWhile c0Space))).2).2 := splitTail_fst_isPrefixOf _ _
      have s1 : (netlocSplit (schemeSplit (removeUnsafeUrl (url.dropWhile c0Space))).2).2 <:+ (schemeSplit (removeUnsafeUrl (url.dropWhile c0Space))).2 :=
        netlocSplit_snd_suffix _
      have s2 : (schemeSplit (removeUnsafeUrl (url.dropWhile c0Space))).2 <:+ (removeUnsafeUrl (url.dropWhile c0Space)) := schemeSplit_snd_suffix _
      exact ((p1.trans p2).isInfix).trans
        (((s1.trans s2)).isInfix)

/-- The path kept by the params split is a prefix of the raw path. -/
theorem splitParams_fst_prefix (p : Str) : (splitParams p).1 <+: p := by
  unfold splitParams
  split
  · show (p.reverse.dropWhile (· ≠ '/')).reverse ++
      (splitTail (· = ';') (p.reverse.takeWhile (· ≠ '/')).reverse).1 <+: p
    have hdecomp : (p.reverse.dropWhile (· ≠ '/')).reverse ++
        (p.reverse.takeWhile (· ≠ '/')).reverse = p := by
      rw [← List.reverse_append, List.takeWhile_append_dropWhile,
        List.reverse_reverse]
    rcases splitTail_fst_isPrefixOf (· = ';') (p.reverse.takeWhile (· ≠ '/')).reverse
      with ⟨t, ht⟩
    exact ⟨t, by rw [List.append_assoc, ht, hdecomp]⟩
  · exact splitTail_fst_isPrefixOf _ _

/-- Inversion of a successful `urlparse`: it comes from a successful
`urlsplit` with the same scheme and netloc, and the path is a prefix of the
raw path. -/
theorem pyUrlparse_ok_facts (url : Str) (pr : ParseResult)
    (h : pyUrlparse url = .ok pr) :
    ∃ r : SplitResult, pyUrlsplit url = .ok r ∧
      pr.scheme = r.scheme ∧ pr.netloc = r.netloc ∧ pr.path <+: r.pathRaw := by
  unfold pyUrlparse at h
  cases hsp : pyUrlsplit url with
  | error e =>
    rw [hsp] at h
    exact absurd (show (Except.error e : Except Unit ParseResult) = Except.ok pr
      from h) (by simp)
  | ok r =>
    rw [hsp] at h
    have h2 : (if (decide (r.scheme ∈ usesParams) && decide (';' ∈ r.pathRaw)) = true
        then Except.ok (⟨r.scheme, r.netloc, (splitParams r.pathRaw).1,
          (splitParams r.pathRaw).2, r.query, r.fragment⟩ : ParseResult)
        else Except.ok ⟨r.scheme, r.netloc, r.pathRaw, [], r.query, r.fragment⟩)
        = Except.ok pr := h
    refine ⟨r, rfl, ?_⟩
    split at h2
    · have hr := (Except.ok.inj h2).symm
      rw [hr]
      exact ⟨rfl, rfl, splitParams_fst_prefix r.pathRaw⟩
    · have hr := (Except.ok.inj h2).symm
      rw [hr]
      exact ⟨rfl, rfl, List.prefix_refl _⟩

/-- `urlsplit` on the canonical `https://<host><path>` form produced by the
URL normalizers. -/
theorem pyUrlsplit_https (D P : Str)
    (hD1 : ∀ c ∈ D, (c = '/' || c = '?' || c = '#') = false)
    (hDbr : '[' ∉ D ∧ ']' ∉ D)
    (hDP : ∀ c ∈ D ++ P, (c = '\t' || c = '\r' || c = '\n') = false)
    (hP1 : ∀ c ∈ P, c ≠ '#' ∧ c ≠ '?')
    (hPhead : P = [] ∨ ∃ t, P = '/' :: t) :
    pyUrlsplit ("https://".data ++ (D ++ P)) =
      .ok ⟨"https".data, D, P, [], []⟩ := by
  have e0 : ("https://".data ++ (D ++ P)).dropWhile c0Space
      = "https://".data ++ (D ++ P) := by
    show ('h' :: ("ttps://".data ++ (D ++ P))).dropWhile c0Space =
      'h' :: ("ttps://".data ++ (D ++ P))
    exact dropWhile_head_false _ _ _ (by decide)
  have e1 : removeUnsafeUrl ("https://".data ++ (D ++ P))
      = "https://".data ++ (D ++ P) := by
    unfold removeUnsafeUrl
    refine List.filter_eq_self.mpr ?_
    intro c hc
    rcases List.mem_append.mp hc with h1 | h1
    · exact (by decide :
        ∀ c ∈ ("https://".data : Str), (!(c = '\t' || c = '\r' || c = '\n')) = true) c h1
    · rw [hDP c h1]
      rfl
  have e2 : breakAtFirst (· = ':') ("https://".data ++ (D ++ P))
      = ("https".data, "://".data ++ (D ++ P)) := by
    unfold breakAtFirst
    refine Prod.ext ?_ ?_
    · show ("https".data ++ (':' :: ("//".data ++ (D ++ P)))).takeWhile
        (fun c => !(c = ':')) = "https".data
      rw [takeWhile_append_all _ _ _ (by decide),
        takeWhile_head_false _ _ _ (by decide), List.append_nil]
    · show ("https".data ++ (':' :: ("//".data ++ (D ++ P)))).dropWhile
        (fun c => !(c = ':')) = "://".data ++ (D ++ P)
      rw [dropWhile_append_all _ _ _ (by decide),
        dropWhile_head_false _ _ _ (by decide)]
      rfl
  have e3 : schemeSplit ("https://".data ++ (D ++ P))
      = ("https".data, "//".data ++ (D ++ P)) := by
    unfold schemeSplit
    rw [e2]
    rfl
  have hDpred : ∀ c ∈ D, (fun c => !(c = '/' || c = '?' || c = '#')) c = true := by
    intro c hc
    show (!(c = '/' || c = '?' || c = '#')) = true
    rw [hD1 c hc]
    rfl
  have e4 : netlocSplit ("//".data ++ (D ++ P)) = (D, P) := by
    unfold netlocSplit
    rw [if_pos (by rfl)]
    show breakAtFirst (fun c => c = '/' || c = '?' || c = '#') (D ++ P) = (D, P)
    unfold breakAtFirst
    refine Prod.ext ?_ ?_
    · show (D ++ P).takeWhile (fun c => !(c = '/' || c = '?' || c = '#')) = D
      rw [takeWhile_append_all _ _ _ hDpred]
      rcases hPhead with hP | ⟨t, hP⟩
      · rw [hP, List.takeWhile_nil, List.append_nil]
      · rw [hP, takeWhile_head_false _ _ _ (by decide), List.append_nil]
    · show (D ++ P).dropWhile (fun c => !(c = '/' || c = '?' || c = '#')) = P
      rw [dropWhile_append_all _ _ _ hDpred]
      rcases hPhead with hP | ⟨t, hP⟩
      · rw [hP, List.dropWhile_nil]
      · rw [hP, dropWhile_head_false _ _ _ (by decide)]
  have e5 : splitTail (· = '#') P = (P, []) := by
    unfold splitTail
    show ((P.takeWhile (fun c => !(c = '#'))),
      match P.dropWhile (fun c => !(c = '#')) with | _ :: b => b | [] => []) = (P, [])
    rw [takeWhile_all _ _ (fun c hc => by
        rw [decide_eq_false (hP1 c hc).1]; rfl),
      dropWhile_all _ _ (fun c hc => by
        rw [decide_eq_false (hP1 c hc).1]; rfl)]
  have e6 : splitTail (· = '?') P = (P, []) := by
    unfold splitTail
    show ((P.takeWhile (fun c => !(c = '?'))),
      match P.dropWhile (fun c => !(c = '?')) with | _ :: b => b | [] => []) = (P, [])
    rw [takeWhile_all _ _ (fun c hc => by
        rw [decide_eq_false (hP1 c hc).2]; rfl),
      dropWhile_all _ _ (fun c hc => by
        rw [decide_eq_false (hP1 c hc).2]; rfl)]
  unfold pyUrlsplit
  dsimp only []
  rw [e0, e1, e3]
  dsimp only []
  rw [e4]
  dsimp only []
  rw [decide_eq_false hDbr.1, decide_eq_false hDbr.2,
    if_neg (by decide : ¬((false != false) = true))]
  rw [e5]
  dsimp only []
  rw [e6]

/-- `urlparse` on the canonical `https://<host><path>` form: the params
split does not fire when the path has no `;`. -/
theorem pyUrlparse_https (D P : Str)
    (hD1 : ∀ c ∈ D, (c = '/' || c = '?' || c = '#') = false)
    (hDbr : '[' ∉ D ∧ ']' ∉ D)
    (hDP : ∀ c ∈ D ++ P, (c = '\t' || c = '\r' || c = '\n') = false)
    (hP1 : ∀ c ∈ P, c ≠ '#' ∧ c ≠ '?')
    (hPhead : P = [] ∨ ∃ t, P = '/' :: t)
    (hSemi : ';' ∉ P) :
    pyUrlparse ("https://".data ++ (D ++ P)) =
      .ok ⟨"https".data, D, P, [], [], []⟩ := by
  unfold pyUrlparse
  rw [pyUrlsplit_https D P hD1 hDbr hDP hP1 hPhead]
  dsimp only []
  rw [decide_eq_false hSemi, Bool.and_false,
    if_neg (by decide : ¬(false = true))]

/-- Inversion of the scheme-pattern tail matcher: the string is scheme
characters followed by `://`. -/
theorem schemeSlashesAux_decomp (s : Str)
    (h : hasSchemeSlashes.hasSchemeSlashesAux s = true) :
    ∃ mid rest, s = mid ++ (':' :: '/' :: '/' :: rest) ∧
      mid.all schemeChar = true := by
  induction s with
  | nil => exact absurd h (by decide)
  | cons c t ih =>
    unfold hasSchemeSlashes.hasSchemeSlashesAux at h
    split at h
    · rename_i t3 heq
      injection heq with h1 h2
      exact ⟨[], t3, by rw [h1, h2]; rfl, rfl⟩
    · rename_i c2 rest2 heq
      injection heq with h1 h2
      rw [Bool.and_eq_true] at h
      obtain ⟨mid, rest, hmr, hall⟩ := ih (h2 ▸ h.2)
      refine ⟨c :: mid, rest, by rw [List.cons_append, ← hmr], ?_⟩
      rw [List.all_cons, hall, Bool.and_true, h1]
      exact h.1
    · exact absurd h (by simp)

/-- Inversion of the scheme-presence test: the string is a letter, scheme
characters, then `://`. -/
theorem hasSchemeSlashes_decomp (v : Str) (h : hasSchemeSlashes v = true) :
    ∃ a mid rest, v = (a :: mid) ++ (':' :: '/' :: '/' :: rest) ∧
      (isAlphaAscii a && mid.all schemeChar) = true := by
  cases v with
  | nil => exact absurd h (by decide)
  | cons c t =>
    have h2 : (isAlphaAscii c && hasSchemeSlashes.hasSchemeSlashesAux t) = true := h
    rw [Bool.and_eq_true] at h2
    obtain ⟨mid, rest, hmr, hall⟩ := schemeSlashesAux_decomp t h2.2
    exact ⟨c, mid, rest, by rw [List.cons_append, ← hmr],
      by rw [Bool.and_eq_true]; exact ⟨h2.1, hall⟩⟩

/-- `urlsplit` of a scheme-and-`//` input, with symbolic scheme and
remainder: the explicit netloc/path/query/fragment expressions. -/
theorem pyUrlsplit_scheme_gen (a : Char) (as X : Str)
    (ha : (isAlphaAscii a && as.all schemeChar) = true)
    (hc0 : c0Space a = false)
    (hsafe : ∀ c ∈ (a :: as) ++ (':' :: '/' :: '/' :: X),
      (c = '\t' || c = '\r' || c = '\n') = false)
    (hcol : ∀ c ∈ as, c ≠ ':') :
    pyUrlsplit ((a :: as) ++ (':' :: '/' :: '/' :: X)) =
      (if (decide ('[' ∈ (breakAtFirst
            (fun c => c = '/' || c = '?' || c = '#') X).1) !=
          decide (']' ∈ (breakAtFirst
            (fun c => c = '/' || c = '?' || c = '#') X).1)) = true
       then Except.error ()
       else Except.ok ⟨(a :: as).map lowerChar,
        (breakAtFirst (fun c => c = '/' || c = '?' || c = '#') X).1,
        (splitTail (· = '?') (splitTail (· = '#') (breakAtFirst
          (fun c => c = '/' || c = '?' || c = '#') X).2).1).1,
        (splitTail (· = '?') (splitTail (· = '#') (breakAtFirst
          (fun c => c = '/' || c = '?' || c = '#') X).2).1).2,
        (splitTail (· = '#') (breakAtFirst
          (fun c => c = '/' || c = '?' || c = '#') X).2).2⟩) := by
  have hane : a ≠ ':' := by
    intro hc
    rw [hc, show isAlphaAscii ':' = false from rfl, Bool.false_and] at ha
    exact absurd ha (by decide)
  have e0 : (((a :: as) ++ (':' :: '/' :: '/' :: X)).dropWhile c0Space)
      = (a :: as) ++ (':' :: '/' :: '/' :: X) := by
    rw [List.cons_append]
    exact dropWhile_head_false _ _ _ hc0
  have e1 : removeUnsafeUrl ((a :: as) ++ (':' :: '/' :: '/' :: X))
      = (a :: as) ++ (':' :: '/' :: '/' :: X) := by
    unfold removeUnsafeUrl
    refine List.filter_eq_self.mpr ?_
    intro c hc
    rw [hsafe c hc]
    rfl
  have e2 : breakAtFirst (· = ':') ((a :: as) ++ (':' :: '/' :: '/' :: X))
      = (a :: as, ':' :: '/' :: '/' :: X) := by
    have hpred : ∀ c ∈ a :: as, (fun c => !(c = ':')) c = true := by
      intro c hc
      rcases List.mem_cons.mp hc with h1 | h1
      · show (!(c = ':')) = true
        rw [decide_eq_false (h1 ▸ hane)]
        rfl
      · show (!(c = ':')) = true
        rw [decide_eq_false (hcol c h1)]
        rfl
    unfold breakAtFirst
    refine Prod.ext ?_ ?_
    · show ((a :: as) ++ (':' :: '/' :: '/' :: X)).takeWhile
        (fun c => !(c = ':')) = a :: as
      rw [takeWhile_append_all _ _ _ hpred,
        takeWhile_head_false _ _ _ (by decide), List.append_nil]
    · show ((a :: as) ++ (':' :: '/' :: '/' :: X)).dropWhile
        (fun c => !(c = ':')) = ':' :: '/' :: '/' :: X
      rw [dropWhile_append_all _ _ _ hpred,
        dropWhile_head_false _ _ _ (by decide)]
  have e3 : schemeSplit ((a :: as) ++ (':' :: '/' :: '/' :: X))
      = ((a :: as).map lowerChar, '/' :: '/' :: X) := by
    have e3a : schemeSplit ((a :: as) ++ (':' :: '/' :: '/' :: X))
        = (if (isAlphaAscii a && as.all schemeChar) = true
           then ((a :: as).map lowerChar, '/' :: '/' :: X)
           else ([], (a :: as) ++ (':' :: '/' :: '/' :: X))) := by
      unfold schemeSplit
      rw [e2]
      rfl
    rw [e3a, if_pos ha]
  have e4 : netlocSplit ('/' :: '/' :: X)
      = breakAtFirst (fun c => c = '/' || c = '?' || c = '#') X := by
    unfold netlocSplit
    rw [if_pos (by rfl)]
    rfl
  unfold pyUrlsplit
  dsimp only []
  rw [e0, e1, e3]
  dsimp only []
  rw [e4]

/-- The individual guarantees of `urlSafeChar`. -/
theorem urlSafeChar_facts (c : Char) (h : urlSafeChar c = true) :
    pyWs c = false ∧ c ≠ ';' ∧ c ≠ '[' ∧ c ≠ ']' ∧
    (c = '\t' || c = '\r' || c = '\n') = false ∧ c0Space c = false ∧
    c ≠ ' ' := by
  unfold urlSafeChar at h
  rw [Bool.and_eq_true, Bool.and_eq_true] at h
  obtain ⟨⟨h1, h2⟩, h3⟩ := h
  rw [decide_eq_true_eq] at h1 h2
  refine ⟨?_, ?_, ?_, ?_, ?_, ?_, ?_⟩
  · cases hw : pyWs c with
    | false => rfl
    | true =>
      exfalso
      unfold pyWs at hw
      simp only [Bool.or_eq_true, decide_eq_true_eq] at hw
      have h32 : c.toNat ≤ 32 := by
        rcases hw with ((((h | h) | h) | h) | h) | h <;> (rw [h]; decide)
      omega
  · intro hc
    rw [hc] at h3
    exact absurd h3 (by decide)
  · intro hc
    rw [hc] at h3
    exact absurd h3 (by decide)
  · intro hc
    rw [hc] at h3
    exact absurd h3 (by decide)
  · cases ht : (c = '\t' || c = '\r' || c = '\n') with
    | false => rfl
    | true =>
      exfalso
      simp only [Bool.or_eq_true, decide_eq_true_eq] at ht
      have h32 : c.toNat ≤ 32 := by
        rcases ht with (h | h) | h <;> (rw [h]; decide)
      omega
  · exact decide_eq_false (by omega)
  · intro hc
    rw [hc] at h1
    exact absurd h1 (by decide)

/-- `urlparse` of a scheme-and-`//` input with a url-safe tail: the bracket
error cannot fire and the params split does not fire. -/
theorem pyUrlparse_scheme_gen (a : Char) (as X : Str)
    (ha : (isAlphaAscii a && as.all schemeChar) = true)
    (hc0 : c0Space a = false)
    (hsafeA : ∀ c ∈ (a :: as), (c = '\t' || c = '\r' || c = '\n') = false)
    (hcol : ∀ c ∈ as, c ≠ ':')
    (hX : ∀ c ∈ X, urlSafeChar c = true) :
    pyUrlparse ((a :: as) ++ (':' :: '/' :: '/' :: X)) =
      .ok ⟨(a :: as).map lowerChar,
        (breakAtFirst (fun c => c = '/' || c = '?' || c = '#') X).1,
        (splitTail (· = '?') (splitTail (· = '#') (breakAtFirst (fun c => c = '/' || c = '?' || c = '#') X).2).1).1,
        [],
        (splitTail (· = '?') (splitTail (· = '#') (breakAtFirst (fun c => c = '/' || c = '?' || c = '#') X).2).1).2,
        (splitTail (· = '#') (breakAtFirst (fun c => c = '/' || c = '?' || c = '#') X).2).2⟩ := by
  have hXsub : ∀ c ∈ X, (c = '\t' || c = '\r' || c = '\n') = false := by
    intro c hc
    exact (urlSafeChar_facts c (hX c hc)).2.2.2.2.1
  have hNLsub : ∀ c ∈ (breakAtFirst (fun c => c = '/' || c = '?' || c = '#') X).1, c ∈ X := by
    intro c hc
    exact (List.takeWhile_prefix _).subset hc
  have hPRsub : ∀ c ∈ (splitTail (· = '?')
      (splitTail (· = '#') (breakAtFirst (fun c => c = '/' || c = '?' || c = '#') X).2).1).1, c ∈ X := by
    intro c hc
    have h1 : c ∈ (splitTail (· = '#') (breakAtFirst (fun c => c = '/' || c = '?' || c = '#') X).2).1 :=
      (splitTail_fst_isPrefixOf _ _).subset hc
    have h2 : c ∈ (breakAtFirst (fun c => c = '/' || c = '?' || c = '#') X).2 :=
      (splitTail_fst_isPrefixOf _ _).subset h1
    have h3 : c ∈ X := (List.dropWhile_suffix _).subset h2
    exact h3
  unfold pyUrlparse
  rw [pyUrlsplit_scheme_gen a as X ha hc0 ?_ hcol]
  · rw [decide_eq_false (fun hmem =>
        (urlSafeChar_facts '[' (hX '[' (hNLsub '[' hmem))).2.2.1 rfl),
      decide_eq_false (fun hmem =>
        (urlSafeChar_facts ']' (hX ']' (hNLsub ']' hmem))).2.2.2.1 rfl),
      if_neg (by decide : ¬((false != false) = true))]
    dsimp only []
    rw [decide_eq_false (fun hmem =>
        (urlSafeChar_facts ';' (hX ';' (hPRsub ';' hmem))).2.1 rfl),
      Bool.and_false, if_neg (by decide : ¬(false = true))]
  · intro c hc
    rcases List.mem_append.mp hc with h1 | h1
    · exact hsafeA c h1
    · rcases List.mem_cons.mp h1 with h2 | h2
      · rw [h2]; rfl
      · rcases List.mem_cons.mp h2 with h3 | h3
        · rw [h3]; rfl
        · rcases List.mem_cons.mp h3 with h4 | h4
          · rw [h4]; rfl
          · exact hXsub c h4

/-- Character and shape facts about the netloc and path expressions of the
general parse, for a url-safe tail. -/
theorem parse_components_facts (X : Str) (hX : ∀ c ∈ X, urlSafeChar c = true) :
    (∀ c ∈ (breakAtFirst (fun c => c = '/' || c = '?' || c = '#') X).1,
      urlSafeChar c = true ∧ (c = '/' || c = '?' || c = '#') = false) ∧
    (∀ c ∈ (splitTail (· = '?')
        (splitTail (· = '#') (breakAtFirst (fun c => c = '/' || c = '?' || c = '#') X).2).1).1,
      urlSafeChar c = true ∧ c ≠ '#' ∧ c ≠ '?') ∧
    ((splitTail (· = '?') (splitTail (· = '#') (breakAtFirst (fun c => c = '/' || c = '?' || c = '#') X).2).1).1 = []
      ∨ ∃ t, (splitTail (· = '?')
        (splitTail (· = '#') (breakAtFirst (fun c => c = '/' || c = '?' || c = '#') X).2).1).1 = '/' :: t) := by
  refine ⟨?_, ?_, ?_⟩
  · intro c hc
    refine ⟨hX c ((List.takeWhile_prefix _).subset hc), ?_⟩
    have h2 : (fun c => !(c = '/' || c = '?' || c = '#')) c = true :=
      takeWhile_mem_pred _ X c hc
    cases hp : (c = '/' || c = '?' || c = '#') with
    | false => rfl
    | true =>
      have h3 : (!(c = '/' || c = '?' || c = '#')) = true := h2
      rw [hp] at h3
      exact absurd h3 (by decide)
  · intro c hc
    have h1 : c ∈ (splitTail (· = '#') (breakAtFirst (fun c => c = '/' || c = '?' || c = '#') X).2).1 :=
      (splitTail_fst_isPrefixOf _ _).subset hc
    refine ⟨hX c ((List.dropWhile_suffix _).subset
        ((splitTail_fst_isPrefixOf _ _).subset h1)), ?_, ?_⟩
    · exact of_decide_eq_false (splitTail_fst_pred (· = '#') _ c h1)
    · exact of_decide_eq_false (splitTail_fst_pred (· = '?') _ c hc)
  · cases hPR : (splitTail (· = '?')
        (splitTail (· = '#') (breakAtFirst (fun c => c = '/' || c = '?' || c = '#') X).2).1).1 with
    | nil => exact Or.inl rfl
    | cons c t =>
      refine Or.inr ⟨t, ?_⟩
      have hq : c ≠ '?' := of_decide_eq_false (splitTail_fst_pred (· = '?') _ c
        (by rw [hPR]; exact List.mem_cons_self c t))
      have hh : c ≠ '#' := of_decide_eq_false (splitTail_fst_pred (· = '#') _ c
        ((splitTail_fst_isPrefixOf _ _).subset
          (by rw [hPR]; exact List.mem_cons_self c t)))
      have h5 : ∃ t5, (splitTail (· = '#') (breakAtFirst (fun c => c = '/' || c = '?' || c = '#') X).2).1 = c :: t5 := by
        have hpre := splitTail_fst_isPrefixOf (· = '?')
          ((splitTail (· = '#') (breakAtFirst (fun c => c = '/' || c = '?' || c = '#') X).2).1)
        rw [hPR] at hpre
        rcases hpre with ⟨r, hr⟩
        cases hu5 : (splitTail (· = '#') (breakAtFirst (fun c => c = '/' || c = '?' || c = '#') X).2).1 with
        | nil =>
          rw [hu5] at hr
          exact absurd hr (by simp)
        | cons x xs =>
          rw [hu5, List.cons_append] at hr
          injection hr.symm with hx1 hx2
          exact ⟨xs, by rw [hx1]⟩
      obtain ⟨t5, ht5⟩ := h5
      have h6 : ∃ t6, (breakAtFirst (fun c => c = '/' || c = '?' || c = '#') X).2 = c :: t6 := by
        have hpre := splitTail_fst_isPrefixOf (· = '#') ((breakAtFirst (fun c => c = '/' || c = '?' || c = '#') X).2)
        rw [ht5] at hpre
        rcases hpre with ⟨r, hr⟩
        cases hu4 : (breakAtFirst (fun c => c = '/' || c = '?' || c = '#') X).2 with
        | nil =>
          rw [hu4] at hr
          exact absurd hr (by simp)
        | cons x xs =>
          rw [hu4, List.cons_append] at hr
          injection hr.symm with hx1 hx2
          exact ⟨xs, by rw [hx1]⟩
      obtain ⟨t6, ht6⟩ := h6
      have h7 : (fun c => c = '/' || c = '?' || c = '#') c = true := by
        have := head_dropWhile_not (fun c => !((fun c => c = '/' || c = '?' || c = '#') c)) X c
          (by show ((breakAtFirst (fun c => c = '/' || c = '?' || c = '#') X).2).head? = some c; rw [ht6]; rfl)
        cases hp : (fun c => c = '/' || c = '?' || c = '#') c with
        | true => rfl
        | false =>
          have h8 : (!((fun c => c = '/' || c = '?' || c = '#') c)) = false := this
          rw [hp] at h8
          exact absurd h8 (by decide)
      rw [Bool.or_eq_true, Bool.or_eq_true] at h7
      rcases h7 with (h8 | h8) | h8
      · rw [of_decide_eq_true h8]
      · exact absurd (of_decide_eq_true h8) hq
      · exact absurd (of_decide_eq_true h8) hh

/-- Package three character inequalities as the slash/query/fragment test. -/
theorem bool3_false (c : Char) (h1 : c ≠ '/') (h2 : c ≠ '?') (h3 : c ≠ '#') :
    (c = '/' || c = '?' || c = '#') = false := by
  rw [decide_eq_false h1, decide_eq_false h2, decide_eq_false h3]
  rfl

/-- Unpack the tab/CR/LF test. -/
theorem trn_facts (c : Char)
    (h : (c = '\t' || c = '\r' || c = '\n') = false) :
    c ≠ '\t' ∧ c ≠ '\r' ∧ c ≠ '\n' := by
  refine ⟨?_, ?_, ?_⟩ <;> intro hc <;> rw [hc] at h <;> exact absurd h (by decide)

/-- `lowerChar` preserves the url-safe character class. -/
theorem lowerChar_urlSafe (c : Char) (h : urlSafeChar c = true) :
    urlSafeChar (lowerChar c) = true := by
  by_cases g1 : c = 'A'
  · rw [g1]; decide
  by_cases g2 : c = 'B'
  · rw [g2]; decide
  by_cases g3 : c = 'C'
  · rw [g3]; decide
  by_cases g4 : c = 'D'
  · rw [g4]; decide
  by_cases g5 : c = 'E'
  · rw [g5]; decide
  by_cases g6 : c = 'F'
  · rw [g6]; decide
  by_cases g7 : c = 'G'
  · rw [g7]; decide
  by_cases g8 : c = 'H'
  · rw [g8]; decide
  by_cases g9 : c = 'I'
  · rw [g9]; decide
  by_cases g10 : c = 'J'
  · rw [g10]; decide
  by_cases g11 : c = 'K'
  · rw [g11]; decide
  by_cases g12 : c = 'L'
  · rw [g12]; decide
  by_cases g13 : c = 'M'
  · rw [g13]; decide
  by_cases g14 : c = 'N'
  · rw [g14]; decide
  by_cases g15 : c = 'O'
  · rw [g15]; decide
  by_cases g16 : c = 'P'
  · rw [g16]; decide
  by_cases g17 : c = 'Q'
  · rw [g17]; decide
  by_cases g18 : c = 'R'
  · rw [g18]; decide
  by_cases g19 : c = 'S'
  · rw [g19]; decide
  by_cases g20 : c = 'T'
  · rw [g20]; decide
  by_cases g21 : c = 'U'
  · rw [g21]; decide
  by_cases g22 : c = 'V'
  · rw [g22]; decide
  by_cases g23 : c = 'W'
  · rw [g23]; decide
  by_cases g24 : c = 'X'
  · rw [g24]; decide
  by_cases g25 : c = 'Y'
  · rw [g25]; decide
  by_cases g26 : c = 'Z'
  · rw [g26]; decide
  have hc : lowerChar c = c := by
    unfold lowerChar
    rw [if_neg g1, if_neg g2, if_neg g3, if_neg g4, if_neg g5, if_neg g6, if_neg g7, if_neg g8, if_neg g9, if_neg g10, if_neg g11, if_neg g12, if_neg g13, if_neg g14, if_neg g15, if_neg g16, if_neg g17, if_neg g18, if_neg g19, if_neg g20, if_neg g21, if_neg g22, if_neg g23, if_neg g24, if_neg g25, if_neg g26]
  rw [hc]
  exact h

/-- Unfolding equation of `websiteResult` with the lets inlined. -/
theorem websiteResult_eq (parsed : ParseResult) :
    websiteResult parsed = collapseSlashes
      ((if ("www.".data).isPrefixOf (parsed.netloc.map lowerChar)
        then parsed.netloc.map lowerChar
        else "www.".data ++ parsed.netloc.map lowerChar) ++
       rstripSlash parsed.path) := rfl

/-- A blank cell maps to the empty string (website). -/
theorem normalize_url_blank (raw : Str) (h1 : pyStrip raw = []) :
    normalize_url (some raw) = [] := by
  show (if pyStrip raw = [] then []
        else match pyUrlparse (if hasSchemeSlashes ((pyStrip raw).filter (· ≠ ' '))
            then (pyStrip raw).filter (· ≠ ' ')
            else "https://".data ++ (pyStrip raw).filter (· ≠ ' ')) with
          | .error _ => (pyStrip raw).filter (· ≠ ' ')
          | .ok parsed => websiteResult parsed) = []
  rw [if_pos h1]

/-- A parse failure returns the space-stripped value (website). -/
theorem normalize_url_err (raw : Str) (h1 : pyStrip raw ≠ []) (e : Unit)
    (hp : pyUrlparse (if hasSchemeSlashes ((pyStrip raw).filter (· ≠ ' '))
        then (pyStrip raw).filter (· ≠ ' ')
        else "https://".data ++ (pyStrip raw).filter (· ≠ ' ')) = .error e) :
    normalize_url (some raw) = (pyStrip raw).filter (· ≠ ' ') := by
  show (if pyStrip raw = [] then []
        else match pyUrlparse (if hasSchemeSlashes ((pyStrip raw).filter (· ≠ ' '))
            then (pyStrip raw).filter (· ≠ ' ')
            else "https://".data ++ (pyStrip raw).filter (· ≠ ' ')) with
          | .error _ => (pyStrip raw).filter (· ≠ ' ')
          | .ok parsed => websiteResult parsed) = (pyStrip raw).filter (· ≠ ' ')
  rw [if_neg h1, hp]

/-- On a successful parse the website result is the post-parse body. -/
theorem normalize_url_ok (raw : Str) (h1 : pyStrip raw ≠ [])
    (parsed : ParseResult)
    (hp : pyUrlparse (if hasSchemeSlashes ((pyStrip raw).filter (· ≠ ' '))
        then (pyStrip raw).filter (· ≠ ' ')
        else "https://".data ++ (pyStrip raw).filter (· ≠ ' ')) = .ok parsed) :
    normalize_url (some raw) = websiteResult parsed := by
  show (if pyStrip raw = [] then []
        else match pyUrlparse (if hasSchemeSlashes ((pyStrip raw).filter (· ≠ ' '))
            then (pyStrip raw).filter (· ≠ ' ')
            else "https://".data ++ (pyStrip raw).filter (· ≠ ' ')) with
          | .error _ => (pyStrip raw).filter (· ≠ ' ')
          | .ok parsed => websiteResult parsed) = websiteResult parsed
  rw [if_neg h1, hp]

/-- Facts about the `www.`-forced lowercased host built from a netloc with
url-safe characters and no `/`, `?`, `#`. -/
theorem wwwLower_facts (NL : Str)
    (hNL : ∀ c ∈ NL, urlSafeChar c = true ∧
      (c = '/' || c = '?' || c = '#') = false) :
    (∀ c ∈ (if ("www.".data).isPrefixOf (NL.map lowerChar) then NL.map lowerChar
      else "www.".data ++ NL.map lowerChar), (c = '/' || c = '?' || c = '#') = false) ∧
    ('[' ∉ (if ("www.".data).isPrefixOf (NL.map lowerChar) then NL.map lowerChar
      else "www.".data ++ NL.map lowerChar) ∧ ']' ∉ (if ("www.".data).isPrefixOf (NL.map lowerChar) then NL.map lowerChar
      else "www.".data ++ NL.map lowerChar)) ∧
    (∀ c ∈ (if ("www.".data).isPrefixOf (NL.map lowerChar) then NL.map lowerChar
      else "www.".data ++ NL.map lowerChar), (c = '\t' || c = '\r' || c = '\n') = false) ∧
    (∀ c ∈ (if ("www.".data).isPrefixOf (NL.map lowerChar) then NL.map lowerChar
      else "www.".data ++ NL.map lowerChar), pyWs c = false ∧ c ≠ ' ') ∧
    ((if ("www.".data).isPrefixOf (NL.map lowerChar) then NL.map lowerChar
      else "www.".data ++ NL.map lowerChar)).map lowerChar = (if ("www.".data).isPrefixOf (NL.map lowerChar) then NL.map lowerChar
      else "www.".data ++ NL.map lowerChar) ∧
    ("www.".data).isPrefixOf (if ("www.".data).isPrefixOf (NL.map lowerChar) then NL.map lowerChar
      else "www.".data ++ NL.map lowerChar) = true ∧
    (if ("www.".data).isPrefixOf (NL.map lowerChar) then NL.map lowerChar
      else "www.".data ++ NL.map lowerChar) ≠ [] ∧
    (∀ c ∈ (if ("www.".data).isPrefixOf (NL.map lowerChar) then NL.map lowerChar
      else "www.".data ++ NL.map lowerChar), c ≠ '/') := by
  have hmemD : ∀ c ∈ (if ("www.".data).isPrefixOf (NL.map lowerChar) then NL.map lowerChar
      else "www.".data ++ NL.map lowerChar),
      c ∈ ("www.".data : Str) ∨ ∃ c2 ∈ NL, c = lowerChar c2 := by
    intro c hc
    by_cases hwp : ("www.".data).isPrefixOf (NL.map lowerChar) = true
    · rw [if_pos hwp] at hc
      obtain ⟨c2, hc2, hlc⟩ := List.mem_map.mp hc
      exact Or.inr ⟨c2, hc2, hlc.symm⟩
    · rw [if_neg hwp] at hc
      rcases List.mem_append.mp hc with h | h
      · exact Or.inl h
      · obtain ⟨c2, hc2, hlc⟩ := List.mem_map.mp h
        exact Or.inr ⟨c2, hc2, hlc.symm⟩
  have hsafeD : ∀ c ∈ (if ("www.".data).isPrefixOf (NL.map lowerChar) then NL.map lowerChar
      else "www.".data ++ NL.map lowerChar), urlSafeChar c = true := by
    intro c hc
    rcases hmemD c hc with h | ⟨c2, hc2, rfl⟩
    · exact (by decide : ∀ c ∈ ("www.".data : Str), urlSafeChar c = true) c h
    · exact lowerChar_urlSafe c2 (hNL c2 hc2).1
  have hpredD : ∀ c ∈ (if ("www.".data).isPrefixOf (NL.map lowerChar) then NL.map lowerChar
      else "www.".data ++ NL.map lowerChar), (c = '/' || c = '?' || c = '#') = false := by
    intro c hc
    rcases hmemD c hc with h | ⟨c2, hc2, rfl⟩
    · exact (by decide : ∀ c ∈ ("www.".data : Str),
        (c = '/' || c = '?' || c = '#') = false) c h
    · refine bool3_false _ ?_ ?_ ?_
      · intro hlc
        have h2 := (hNL c2 hc2).2
        rw [lowerChar_eq_of_not_lower c2 '/' (by decide) hlc] at h2
        exact absurd h2 (by decide)
      · intro hlc
        have h2 := (hNL c2 hc2).2
        rw [lowerChar_eq_of_not_lower c2 '?' (by decide) hlc] at h2
        exact absurd h2 (by decide)
      · intro hlc
        have h2 := (hNL c2 hc2).2
        rw [lowerChar_eq_of_not_lower c2 '#' (by decide) hlc] at h2
        exact absurd h2 (by decide)
  have hwwwD : ("www.".data).isPrefixOf (if ("www.".data).isPrefixOf (NL.map lowerChar) then NL.map lowerChar
      else "www.".data ++ NL.map lowerChar) = true := by
    by_cases hwp : ("www.".data).isPrefixOf (NL.map lowerChar) = true
    · rw [if_pos hwp]
      exact hwp
    · rw [if_neg hwp]
      exact List.isPrefixOf_iff_prefix.mpr (List.prefix_append _ _)
  refine ⟨hpredD, ⟨?_, ?_⟩, ?_, ?_, ?_, hwwwD, ?_, ?_⟩
  · intro hmem
    exact (urlSafeChar_facts '[' (hsafeD '[' hmem)).2.2.1 rfl
  · intro hmem
    exact (urlSafeChar_facts ']' (hsafeD ']' hmem)).2.2.2.1 rfl
  · intro c hc
    exact (urlSafeChar_facts c (hsafeD c hc)).2.2.2.2.1
  · intro c hc
    exact ⟨(urlSafeChar_facts c (hsafeD c hc)).1,
      (urlSafeChar_facts c (hsafeD c hc)).2.2.2.2.2.2⟩
  · by_cases hwp : ("www.".data).isPrefixOf (NL.map lowerChar) = true
    · rw [if_pos hwp, List.map_map]
      exact List.map_congr_left (fun c _ => lower_lower c)
    · rw [if_neg hwp, List.map_append, List.map_map]
      rw [show ("www.".data).map lowerChar = "www.".data from rfl]
      exact congrArg (fun l => "www.".data ++ l)
        (List.map_congr_left (fun (c : Char) _ => lower_lower c))
  · intro h0
    rw [h0] at hwwwD
    exact absurd hwwwD (by decide)
  · intro c hc hc2
    have h2 := hpredD c hc
    rw [hc2] at h2
    exact absurd h2 (by decide)

/-- Facts about the collapsed, slash-stripped path built from a raw path
with url-safe characters and no `#`, `?`. -/
theorem pathP_facts (PR : Str)
    (hPR : ∀ c ∈ PR, urlSafeChar c = true ∧ c ≠ '#' ∧ c ≠ '?')
    (hPRhead : PR = [] ∨ ∃ t, PR = '/' :: t) :
    noDoubleSlash (collapseSlashes (rstripSlash PR)) = true ∧
    (collapseSlashes (rstripSlash PR)).getLast? ≠ some '/' ∧
    (∀ c ∈ collapseSlashes (rstripSlash PR),
      urlSafeChar c = true ∧ c ≠ '#' ∧ c ≠ '?') ∧
    (collapseSlashes (rstripSlash PR) = [] ∨
      ∃ t, collapseSlashes (rstripSlash PR) = '/' :: t) ∧
    ';' ∉ collapseSlashes (rstripSlash PR) ∧
    (∀ c ∈ collapseSlashes (rstripSlash PR),
      (c = '\t' || c = '\r' || c = '\n') = false) ∧
    (∀ c ∈ collapseSlashes (rstripSlash PR), pyWs c = false ∧ c ≠ ' ') := by
  have hsub : ∀ c ∈ collapseSlashes (rstripSlash PR), c ∈ PR := by
    intro c hc
    exact (rstripSlash_isPrefixOf PR).subset (collapseAux_subset _ false c hc)
  have hsafeP : ∀ c ∈ collapseSlashes (rstripSlash PR),
      urlSafeChar c = true ∧ c ≠ '#' ∧ c ≠ '?' := by
    intro c hc
    exact hPR c (hsub c hc)
  refine ⟨noDoubleSlash_collapseAux _ false,
    collapseAux_getLast_ne _ (rstripSlash_getLast_ne _) false, hsafeP, ?_, ?_, ?_, ?_⟩
  · rcases hPRhead with hP | ⟨t, hP⟩
    · rw [hP]
      exact Or.inl rfl
    · cases hrs : rstripSlash PR with
      | nil => exact Or.inl rfl
      | cons x xs =>
        have hpre := rstripSlash_isPrefixOf PR
        rw [hrs, hP] at hpre
        rcases hpre with ⟨r, hr⟩
        rw [List.cons_append] at hr
        injection hr with h1 h2
        refine Or.inr ⟨collapseAux true xs, ?_⟩
        rw [h1]
        rfl
  · intro hmem
    exact (urlSafeChar_facts ';' (hsafeP ';' hmem).1).2.1 rfl
  · intro c hc
    exact (urlSafeChar_facts c (hsafeP c hc).1).2.2.2.2.1
  · intro c hc
    exact ⟨(urlSafeChar_facts c (hsafeP c hc).1).1,
      (urlSafeChar_facts c (hsafeP c hc).1).2.2.2.2.2.2⟩

/-- The canonical website output built from a safe netloc and path is a
fixed point of the website normalizer. -/
theorem website_fixed_point (NL PR : Str)
    (hNL : ∀ c ∈ NL, urlSafeChar c = true ∧
      (c = '/' || c = '?' || c = '#') = false)
    (hPR : ∀ c ∈ PR, urlSafeChar c = true ∧ c ≠ '#' ∧ c ≠ '?')
    (hPRhead : PR = [] ∨ ∃ t, PR = '/' :: t) :
    normalize_url (some (collapseSlashes ((if ("www.".data).isPrefixOf (NL.map lowerChar) then NL.map lowerChar
      else "www.".data ++ NL.map lowerChar) ++ rstripSlash PR))) =
      collapseSlashes ((if ("www.".data).isPrefixOf (NL.map lowerChar) then NL.map lowerChar
      else "www.".data ++ NL.map lowerChar) ++ rstripSlash PR) := by
  obtain ⟨hpredD, hbrD, htrnD, hwsD, hlowD, hwwwD, hneD, hslD⟩ :=
    wwwLower_facts NL hNL
  obtain ⟨hndP, hlastP, hsafeP, hheadP, hsemiP, htrnP, hwsP⟩ :=
    pathP_facts PR hPR hPRhead
  set D := (if ("www.".data).isPrefixOf (NL.map lowerChar) then NL.map lowerChar
      else "www.".data ++ NL.map lowerChar) with hD
  set P := collapseSlashes (rstripSlash PR) with hP
  have hOP : collapseSlashes (D ++ rstripSlash PR) = D ++ P := by
    rw [show collapseSlashes (D ++ rstripSlash PR)
        = collapseAux false (D ++ rstripSlash PR) from rfl,
      collapseAux_append_left D (rstripSlash PR) hslD]
    rfl
  rw [hOP]
  have hmemO : ∀ c ∈ D ++ P, pyWs c = false ∧ c ≠ ' ' := fun c hc =>
    (List.mem_append.mp hc).elim (fun h => hwsD c h) (fun h => hwsP c h)
  have hstripO : pyStrip (D ++ P) = D ++ P :=
    pyStrip_eq_self _ (fun c hc => (hmemO c hc).1)
  have hOne : pyStrip (D ++ P) ≠ [] := by
    rw [hstripO]
    intro h0
    exact hneD (List.append_eq_nil.mp h0).1
  have hfilterO : (D ++ P).filter (· ≠ ' ') = D ++ P :=
    List.filter_eq_self.mpr (fun c hc => decide_eq_true (hmemO c hc).2)
  have hndO : noDoubleSlash (D ++ P) = true := by
    rw [← hOP]
    exact noDoubleSlash_collapseAux _ false
  have hschemeO : hasSchemeSlashes (D ++ P) = false :=
    hasSchemeSlashes_false_of_noDoubleSlash _ hndO
  have hparse2 : pyUrlparse ("https://".data ++ (D ++ P)) =
      .ok ⟨"https".data, D, P, [], [], []⟩ := by
    refine pyUrlparse_https D P hpredD hbrD ?_ ?_ hheadP hsemiP
    · intro c hc
      rcases List.mem_append.mp hc with h | h
      · exact htrnD c h
      · exact htrnP c h
    · intro c hc
      exact ⟨(hsafeP c hc).2.1, (hsafeP c hc).2.2⟩
  have hp : pyUrlparse (if hasSchemeSlashes ((pyStrip (D ++ P)).filter (· ≠ ' '))
      then (pyStrip (D ++ P)).filter (· ≠ ' ')
      else "https://".data ++ (pyStrip (D ++ P)).filter (· ≠ ' ')) =
      .ok ⟨"https".data, D, P, [], [], []⟩ := by
    rw [hstripO, hfilterO, hschemeO, if_neg (by decide : ¬(false = true))]
    exact hparse2
  rw [normalize_url_ok (D ++ P) hOne ⟨"https".data, D, P, [], [], []⟩ hp]
  rw [websiteResult_eq]
  dsimp only []
  rw [hlowD, if_pos hwwwD, rstripSlash_eq_self P hlastP]
  rw [show collapseSlashes (D ++ P) = collapseAux false (D ++ P) from rfl,
    collapseAux_append_left D P hslD]
  rw [show collapseAux false P = collapseSlashes P from rfl,
    collapseSlashes_eq_self P hndP]

/-- The website normalizer is idempotent on url-safe input. -/
theorem normalize_url_idem (v : Str) (hsafe : urlSafe v = true) :
    normalize_url (some (normalize_url (some v))) = normalize_url (some v) := by
  have hchar : ∀ c ∈ v, urlSafeChar c = true := by
    unfold urlSafe at hsafe
    exact fun c hc => List.all_eq_true.mp hsafe c hc
  by_cases hv : pyStrip v = []
  · rw [normalize_url_blank v hv]
    exact normalize_url_blank [] rfl
  · have hstrip : pyStrip v = v :=
      pyStrip_eq_self v (fun c hc => (urlSafeChar_facts c (hchar c hc)).1)
    have hfilter : v.filter (· ≠ ' ') = v :=
      List.filter_eq_self.mpr (fun c hc =>
        decide_eq_true (urlSafeChar_facts c (hchar c hc)).2.2.2.2.2.2)
    cases hs : hasSchemeSlashes v with
    | false =>
      have hp1 := pyUrlparse_scheme_gen 'h' ("ttps".data) v (by decide)
        (by decide) (by decide) (by decide) hchar
      have hp : pyUrlparse (if hasSchemeSlashes ((pyStrip v).filter (· ≠ ' '))
          then (pyStrip v).filter (· ≠ ' ')
          else "https://".data ++ (pyStrip v).filter (· ≠ ' ')) =
          .ok ⟨('h' :: "ttps".data).map lowerChar,
            (breakAtFirst (fun c => c = '/' || c = '?' || c = '#') v).1,
            (splitTail (· = '?') (splitTail (· = '#') (breakAtFirst
              (fun c => c = '/' || c = '?' || c = '#') v).2).1).1,
            [],
            (splitTail (· = '?') (splitTail (· = '#') (breakAtFirst
              (fun c => c = '/' || c = '?' || c = '#') v).2).1).2,
            (splitTail (· = '#') (breakAtFirst
              (fun c => c = '/' || c = '?' || c = '#') v).2).2⟩ := by
        rw [hstrip, hfilter, hs, if_neg (by decide : ¬(false = true))]
        exact hp1
      rw [normalize_url_ok v hv _ hp, websiteResult_eq]
      dsimp only []
      obtain ⟨hNLf, hPRf, hheadf⟩ := parse_components_facts v hchar
      exact website_fixed_point _ _ hNLf hPRf hheadf
    | true =>
      obtain ⟨a, mid, rest, hdecomp, hsch⟩ := hasSchemeSlashes_decomp v hs
      have hrest : ∀ c ∈ rest, urlSafeChar c = true := fun c hc =>
        hchar c (by
          rw [hdecomp]
          exact List.mem_append.mpr (Or.inr (List.mem_cons_of_mem ':'
            (List.mem_cons_of_mem '/' (List.mem_cons_of_mem '/' hc)))))
      have hmidv : ∀ c ∈ a :: mid, c ∈ v := fun c hc => by
        rw [hdecomp]
        exact List.mem_append.mpr (Or.inl hc)
      have hmidcol : ∀ c ∈ mid, c ≠ ':' := by
        intro c hc h0
        rw [Bool.and_eq_true] at hsch
        have h2 := List.all_eq_true.mp hsch.2 c hc
        rw [h0] at h2
        exact absurd h2 (by decide)
      have hac0 : c0Space a = false :=
        (urlSafeChar_facts a (hchar a (hmidv a
          (List.mem_cons_self a mid)))).2.2.2.2.2.1
      have hsafeA : ∀ c ∈ a :: mid,
          (c = '\t' || c = '\r' || c = '\n') = false := fun c hc =>
        (urlSafeChar_facts c (hchar c (hmidv c hc))).2.2.2.2.1
      have hp1 := pyUrlparse_scheme_gen a mid rest hsch hac0 hsafeA hmidcol hrest
      have hp : pyUrlparse (if hasSchemeSlashes ((pyStrip v).filter (· ≠ ' '))
          then (pyStrip v).filter (· ≠ ' ')
          else "https://".data ++ (pyStrip v).filter (· ≠ ' ')) =
          .ok ⟨(a :: mid).map lowerChar,
            (breakAtFirst (fun c => c = '/' || c = '?' || c = '#') rest).1,
            (splitTail (· = '?') (splitTail (· = '#') (breakAtFirst
              (fun c => c = '/' || c = '?' || c = '#') rest).2).1).1,
            [],
            (splitTail (· = '?') (splitTail (· = '#') (breakAtFirst
              (fun c => c = '/' || c = '?' || c = '#') rest).2).1).2,
            (splitTail (· = '#') (breakAtFirst
              (fun c => c = '/' || c = '?' || c = '#') rest).2).2⟩ := by
        rw [hstrip, hfilter, hs, if_pos rfl, hdecomp]
        exact hp1
      rw [normalize_url_ok v hv _ hp, websiteResult_eq]
      dsimp only []
      obtain ⟨hNLf, hPRf, hheadf⟩ := parse_components_facts rest hrest
      exact website_fixed_point _ _ hNLf hPRf hheadf

/-- The raw acceptance facts of the Facebook post-parse body, pinned to the
canonical host and path expressions. -/
theorem facebookResult_accept (parsed : ParseResult)
    (hv : facebookResult parsed ≠ []) :
    (parsed.netloc.map lowerChar) ∈ FACEBOOK_DOMAINS ∧
    (INVALID_FACEBOOK_SEGMENTS.any (fun bad => infixOf bad
      ((collapseSlashes (rstripSlash parsed.path)).map lowerChar ++ ['/']))) =
      false ∧
    (VALID_FACEBOOK_PATTERNS.any (fun ok => ok.isPrefixOf
        ((collapseSlashes (rstripSlash parsed.path)).map lowerChar ++ ['/'])) ||
      (decide ((((splitOnChar '/' (collapseSlashes
          (rstripSlash parsed.path))).filter (· ≠ [])).length = 1)) &&
        ((splitOnChar '/' (collapseSlashes (rstripSlash parsed.path))).filter
          (· ≠ [])).headD [] ∉
          ["home".data, "pages".data, "marketplace".data])) = true ∧
    facebookResult parsed = collapseSlashes
      ((if ("www.".data).isPrefixOf (parsed.netloc.map lowerChar)
        then parsed.netloc.map lowerChar
        else "www.".data ++ parsed.netloc.map lowerChar) ++
       collapseSlashes (rstripSlash parsed.path)) := by
  by_cases hd : (parsed.netloc.map lowerChar) ∈ FACEBOOK_DOMAINS
  case neg => exact absurd (by rw [facebookResult_eq, if_pos hd]) hv
  by_cases hinv : (INVALID_FACEBOOK_SEGMENTS.any (fun bad => infixOf bad
      ((collapseSlashes (rstripSlash parsed.path)).map lowerChar ++ ['/']))) = true
  · exact absurd (by rw [facebookResult_eq, if_neg (not_not_intro hd),
      if_pos hinv]) hv
  by_cases hval : (VALID_FACEBOOK_PATTERNS.any (fun ok => ok.isPrefixOf
        ((collapseSlashes (rstripSlash parsed.path)).map lowerChar ++ ['/'])) ||
      (decide ((((splitOnChar '/' (collapseSlashes
          (rstripSlash parsed.path))).filter (· ≠ [])).length = 1)) &&
        ((splitOnChar '/' (collapseSlashes (rstripSlash parsed.path))).filter
          (· ≠ [])).headD [] ∉
          ["home".data, "pages".data, "marketplace".data])) = true
  case neg =>
    rw [Bool.not_eq_true] at hval
    exact absurd (by rw [facebookResult_eq, if_neg (not_not_intro hd),
      if_neg hinv, if_pos (by rw [hval]; rfl)]) hv
  rw [Bool.not_eq_true] at hinv
  refine ⟨hd, hinv, hval, ?_⟩
  rw [facebookResult_eq, if_neg (not_not_intro hd),
    if_neg (by rw [hinv]; exact Bool.false_ne_true),
    if_neg (by rw [hval]; decide)]

/-- The canonical Facebook output built from an allow-listed host and an
accepted safe path is a fixed point of the Facebook normalizer. -/
theorem facebook_fixed_point (d0 PR : Str)
    (hd : d0 ∈ FACEBOOK_DOMAINS)
    (hPR : ∀ c ∈ PR, urlSafeChar c = true ∧ c ≠ '#' ∧ c ≠ '?')
    (hPRhead : PR = [] ∨ ∃ t, PR = '/' :: t)
    (hdeny : (INVALID_FACEBOOK_SEGMENTS.any (fun bad => infixOf bad
      ((collapseSlashes (rstripSlash PR)).map lowerChar ++ ['/']))) = false)
    (hval : (VALID_FACEBOOK_PATTERNS.any (fun ok => ok.isPrefixOf
        ((collapseSlashes (rstripSlash PR)).map lowerChar ++ ['/'])) ||
      (decide ((((splitOnChar '/' (collapseSlashes
          (rstripSlash PR))).filter (· ≠ [])).length = 1)) &&
        ((splitOnChar '/' (collapseSlashes (rstripSlash PR))).filter
          (· ≠ [])).headD [] ∉
          ["home".data, "pages".data, "marketplace".data])) = true) :
    normalize_facebook_url (some (collapseSlashes
      ((if ("www.".data).isPrefixOf d0 then d0 else "www.".data ++ d0) ++
       collapseSlashes (rstripSlash PR)))) =
    collapseSlashes
      ((if ("www.".data).isPrefixOf d0 then d0 else "www.".data ++ d0) ++
       collapseSlashes (rstripSlash PR)) := by
  obtain ⟨hndP, hlastP, hsafeP, hheadP, hsemiP, htrnP, hwsP⟩ :=
    pathP_facts PR hPR hPRhead
  simp only [FACEBOOK_DOMAINS, List.mem_cons, List.not_mem_nil, or_false] at hd
  obtain ⟨Dc, hDeq, hDc2⟩ : ∃ Dc,
      (if ("www.".data).isPrefixOf d0 then d0 else "www.".data ++ d0) = Dc ∧
      (Dc = "www.facebook.com".data ∨ Dc = "www.fb.com".data) := by
    rcases hd with h | h | h | h <;> rw [h]
    · exact ⟨"www.facebook.com".data, by decide, Or.inl rfl⟩
    · exact ⟨"www.facebook.com".data, by decide, Or.inl rfl⟩
    · exact ⟨"www.fb.com".data, by decide, Or.inr rfl⟩
    · exact ⟨"www.fb.com".data, by decide, Or.inr rfl⟩
  rw [hDeq]
  set P := collapseSlashes (rstripSlash PR) with hPdef
  have hDcpred : ∀ c ∈ Dc, (c = '/' || c = '?' || c = '#') = false := by
    rcases hDc2 with h | h <;> rw [h] <;> decide
  have hDcbr : '[' ∉ Dc ∧ ']' ∉ Dc := by
    rcases hDc2 with h | h <;> rw [h] <;> decide
  have hDctrn : ∀ c ∈ Dc, (c = '\t' || c = '\r' || c = '\n') = false := by
    rcases hDc2 with h | h <;> rw [h] <;> decide
  have hDcws : ∀ c ∈ Dc, pyWs c = false ∧ c ≠ ' ' := by
    rcases hDc2 with h | h <;> rw [h] <;> decide
  have hDclow : Dc.map lowerChar = Dc := by
    rcases hDc2 with h | h <;> rw [h] <;> decide
  have hDcwww : ("www.".data).isPrefixOf Dc = true := by
    rcases hDc2 with h | h <;> rw [h] <;> decide
  have hDcne : Dc ≠ [] := by
    rcases hDc2 with h | h <;> rw [h] <;> decide
  have hDcsl : ∀ c ∈ Dc, c ≠ '/' := by
    rcases hDc2 with h | h <;> rw [h] <;> decide
  have hDcdom : Dc ∈ FACEBOOK_DOMAINS := by
    rcases hDc2 with h | h <;> rw [h] <;> decide
  have hOP : collapseSlashes (Dc ++ P) = Dc ++ P := by
    rw [show collapseSlashes (Dc ++ P) = collapseAux false (Dc ++ P) from rfl,
      collapseAux_append_left Dc P hDcsl,
      show collapseAux false P = collapseSlashes P from rfl,
      collapseSlashes_eq_self P hndP]
  rw [hOP]
  have hmemO : ∀ c ∈ Dc ++ P, pyWs c = false ∧ c ≠ ' ' := fun c hc =>
    (List.mem_append.mp hc).elim (fun h => hDcws c h) (fun h => hwsP c h)
  have hstripO : pyStrip (Dc ++ P) = Dc ++ P :=
    pyStrip_eq_self _ (fun c hc => (hmemO c hc).1)
  have hOne : pyStrip (Dc ++ P) ≠ [] := by
    rw [hstripO]
    intro h0
    exact hDcne (List.append_eq_nil.mp h0).1
  have hfilterO : (Dc ++ P).filter (· ≠ ' ') = Dc ++ P :=
    List.filter_eq_self.mpr (fun c hc => decide_eq_true (hmemO c hc).2)
  have hndO : noDoubleSlash (Dc ++ P) = true := by
    rw [← hOP]
    exact noDoubleSlash_collapseAux _ false
  have hschemeO : hasSchemeSlashes (Dc ++ P) = false :=
    hasSchemeSlashes_false_of_noDoubleSlash _ hndO
  have hparse2 : pyUrlparse ("https://".data ++ (Dc ++ P)) =
      .ok ⟨"https".data, Dc, P, [], [], []⟩ := by
    refine pyUrlparse_https Dc P hDcpred hDcbr ?_ ?_ hheadP hsemiP
    · intro c hc
      rcases List.mem_append.mp hc with h | h
      · exact hDctrn c h
      · exact htrnP c h
    · intro c hc
      exact ⟨(hsafeP c hc).2.1, (hsafeP c hc).2.2⟩
  have hp : pyUrlparse (if hasSchemeSlashes ((pyStrip (Dc ++ P)).filter (· ≠ ' '))
      then (pyStrip (Dc ++ P)).filter (· ≠ ' ')
      else "https://".data ++ (pyStrip (Dc ++ P)).filter (· ≠ ' ')) =
      .ok ⟨"https".data, Dc, P, [], [], []⟩ := by
    rw [hstripO, hfilterO, hschemeO, if_neg (by decide : ¬(false = true))]
    exact hparse2
  rw [normalize_facebook_url_ok (Dc ++ P) hOne ⟨"https".data, Dc, P, [], [], []⟩ hp]
  rw [facebookResult_eq]
  dsimp only []
  have hPP : collapseSlashes (rstripSlash P) = P := by
    rw [rstripSlash_eq_self P hlastP]
    exact collapseSlashes_eq_self P hndP
  rw [hPP, hDclow,
    if_neg (not_not_intro hDcdom),
    if_neg (by rw [hdeny]; exact Bool.false_ne_true),
    if_neg (by rw [hval]; decide),
    if_pos hDcwww]
  exact hOP

/-- The Facebook normalizer is idempotent on url-safe input. -/
theorem normalize_facebook_url_idem (v : Str) (hsafe : urlSafe v = true) :
    normalize_facebook_url (some (normalize_facebook_url (some v))) =
      normalize_facebook_url (some v) := by
  have hchar : ∀ c ∈ v, urlSafeChar c = true := by
    unfold urlSafe at hsafe
    exact fun c hc => List.all_eq_true.mp hsafe c hc
  by_cases hv : pyStrip v = []
  · rw [normalize_facebook_url_blank v hv]
    exact normalize_facebook_url_blank [] rfl
  · have hstrip : pyStrip v = v :=
      pyStrip_eq_self v (fun c hc => (urlSafeChar_facts c (hchar c hc)).1)
    have hfilter : v.filter (· ≠ ' ') = v :=
      List.filter_eq_self.mpr (fun c hc =>
        decide_eq_true (urlSafeChar_facts c (hchar c hc)).2.2.2.2.2.2)
    cases hs : hasSchemeSlashes v with
    | false =>
      have hp1 := pyUrlparse_scheme_gen 'h' ("ttps".data) v (by decide)
        (by decide) (by decide) (by decide) hchar
      rw [normalize_facebook_url_ok v hv _ (by
        rw [hstrip, hfilter, hs, if_neg (by decide : ¬(false = true))]
        exact hp1)]
      by_cases hres : facebookResult ⟨('h' :: "ttps".data).map lowerChar,
          (breakAtFirst (fun c => c = '/' || c = '?' || c = '#') v).1,
          (splitTail (· = '?') (splitTail (· = '#') (breakAtFirst
            (fun c => c = '/' || c = '?' || c = '#') v).2).1).1,
          [],
          (splitTail (· = '?') (splitTail (· = '#') (breakAtFirst
            (fun c => c = '/' || c = '?' || c = '#') v).2).1).2,
          (splitTail (· = '#') (breakAtFirst
            (fun c => c = '/' || c = '?' || c = '#') v).2).2⟩ = []
      · rw [hres]
        exact normalize_facebook_url_blank [] rfl
      · obtain ⟨hd, hdeny, hval, hO⟩ := facebookResult_accept _ hres
        dsimp only [] at hd hdeny hval hO
        rw [hO]
        obtain ⟨hNLf, hPRf, hheadf⟩ := parse_components_facts v hchar
        exact facebook_fixed_point _ _ hd hPRf hheadf hdeny hval
    | true =>
      obtain ⟨a, mid, rest, hdecomp, hsch⟩ := hasSchemeSlashes_decomp v hs
      have hrest : ∀ c ∈ rest, urlSafeChar c = true := fun c hc =>
        hchar c (by
          rw [hdecomp]
          exact List.mem_append.mpr (Or.inr (List.mem_cons_of_mem ':'
            (List.mem_cons_of_mem '/' (List.mem_cons_of_mem '/' hc)))))
      have hmidv : ∀ c ∈ a :: mid, c ∈ v := fun c hc => by
        rw [hdecomp]
        exact List.mem_append.mpr (Or.inl hc)
      have hmidcol : ∀ c ∈ mid, c ≠ ':' := by
        intro c hc h0
        rw [Bool.and_eq_true] at hsch
        have h2 := List.all_eq_true.mp hsch.2 c hc
        rw [h0] at h2
        exact absurd h2 (by decide)
      have hac0 : c0Space a = false :=
        (urlSafeChar_facts a (hchar a (hmidv a
          (List.mem_cons_self a mid)))).2.2.2.2.2.1
      have hsafeA : ∀ c ∈ a :: mid,
          (c = '\t' || c = '\r' || c = '\n') = false := fun c hc =>
        (urlSafeChar_facts c (hchar c (hmidv c hc))).2.2.2.2.1
      have hp1 := pyUrlparse_scheme_gen a mid rest hsch hac0 hsafeA hmidcol hrest
      rw [normalize_facebook_url_ok v hv _ (by
        rw [hstrip, hfilter, hs, if_pos rfl, hdecomp]
        exact hp1)]
      by_cases hres : facebookResult ⟨(a :: mid).map lowerChar,
          (breakAtFirst (fun c => c = '/' || c = '?' || c = '#') rest).1,
          (splitTail (· = '?') (splitTail (· = '#') (breakAtFirst
            (fun c => c = '/' || c = '?' || c = '#') rest).2).1).1,
          [],
          (splitTail (· = '?') (splitTail (· = '#') (breakAtFirst
            (fun c => c = '/' || c = '?' || c = '#') rest).2).1).2,
          (splitTail (· = '#') (breakAtFirst
            (fun c => c = '/' || c = '?' || c = '#') rest).2).2⟩ = []
      · rw [hres]
        exact normalize_facebook_url_blank [] rfl
      · obtain ⟨hd, hdeny, hval, hO⟩ := facebookResult_accept _ hres
        dsimp only [] at hd hdeny hval hO
        rw [hO]
        obtain ⟨hNLf, hPRf, hheadf⟩ := parse_components_facts rest hrest
        exact facebook_fixed_point _ _ hd hPRf hheadf hdeny hval

/-- The parsed raw-path expression is a contiguous substring of the
post-scheme remainder. -/
theorem parse_path_isInfixOf (X : Str) :
    (splitTail (· = '?') (splitTail (· = '#')
      (breakAtFirst (fun c => c = '/' || c = '?' || c = '#') X).2).1).1 <:+: X := by
  have p1 : (splitTail (· = '?') (splitTail (· = '#')
      (breakAtFirst (fun c => c = '/' || c = '?' || c = '#') X).2).1).1 <+:
      (splitTail (· = '#') (breakAtFirst (fun c => c = '/' || c = '?' || c = '#') X).2).1 :=
    splitTail_fst_isPrefixOf _ _
  have p2 : (splitTail (· = '#') (breakAtFirst (fun c => c = '/' || c = '?' || c = '#') X).2).1 <+:
      (breakAtFirst (fun c => c = '/' || c = '?' || c = '#') X).2 := splitTail_fst_isPrefixOf _ _
  have s1 : (breakAtFirst (fun c => c = '/' || c = '?' || c = '#') X).2 <:+ X := List.dropWhile_suffix _
  exact ((p1.trans p2).isInfix).trans s1.isInfix

/-- The raw acceptance facts of the LinkedIn post-parse body, pinned to the
canonical domain and path expressions. -/
theorem linkedinResult_accept (parsed : ParseResult)
    (hv : linkedinResult parsed ≠ []) :
    infixOf ("linkedin.com".data) (parsed.netloc.map lowerChar) = true ∧
    (VALID_LINKEDIN_PATHS.any (fun rule => infixOf rule
      ((rstripSlash parsed.path).map lowerChar ++ ['/']))) = true ∧
    linkedinResult parsed = collapseSlashes
      ((if ("www.".data).isPrefixOf (parsed.netloc.map lowerChar)
        then parsed.netloc.map lowerChar
        else "www.".data ++ parsed.netloc.map lowerChar) ++
       rstripSlash parsed.path) := by
  by_cases hd : infixOf ("linkedin.com".data) (parsed.netloc.map lowerChar) = true
  case neg =>
    rw [Bool.not_eq_true] at hd
    exact absurd (by rw [linkedinResult_eq, if_pos (by rw [hd]; rfl)]) hv
  by_cases hval : (VALID_LINKEDIN_PATHS.any (fun rule => infixOf rule
      ((rstripSlash parsed.path).map lowerChar ++ ['/']))) = true
  case neg =>
    rw [Bool.not_eq_true] at hval
    exact absurd (by rw [linkedinResult_eq, if_neg (by rw [hd]; decide),
      if_pos (by rw [hval]; rfl)]) hv
  refine ⟨hd, hval, ?_⟩
  rw [linkedinResult_eq, if_neg (by rw [hd]; decide),
    if_neg (by rw [hval]; decide)]

/-- The canonical LinkedIn output built from a matching domain and a valid
double-slash-free path is a fixed point of the LinkedIn normalizer. -/
theorem linkedin_fixed_point (NL PR : Str)
    (hNL : ∀ c ∈ NL, urlSafeChar c = true ∧
      (c = '/' || c = '?' || c = '#') = false)
    (hPR : ∀ c ∈ PR, urlSafeChar c = true ∧ c ≠ '#' ∧ c ≠ '?')
    (hPRhead : PR = [] ∨ ∃ t, PR = '/' :: t)
    (hndPR : noDoubleSlash (rstripSlash PR) = true)
    (hdom : infixOf ("linkedin.com".data) (NL.map lowerChar) = true)
    (hval : (VALID_LINKEDIN_PATHS.any (fun rule => infixOf rule
      ((rstripSlash PR).map lowerChar ++ ['/']))) = true) :
    normalize_linkedin_url (some (collapseSlashes ((if ("www.".data).isPrefixOf (NL.map lowerChar) then NL.map lowerChar
      else "www.".data ++ NL.map lowerChar) ++ rstripSlash PR))) =
      collapseSlashes ((if ("www.".data).isPrefixOf (NL.map lowerChar) then NL.map lowerChar
      else "www.".data ++ NL.map lowerChar) ++ rstripSlash PR) := by
  obtain ⟨hpredD, hbrD, htrnD, hwsD, hlowD, hwwwD, hneD, hslD⟩ :=
    wwwLower_facts NL hNL
  set D := (if ("www.".data).isPrefixOf (NL.map lowerChar) then NL.map lowerChar
      else "www.".data ++ NL.map lowerChar) with hD
  set P := rstripSlash PR with hPdef
  have hsubP : ∀ c ∈ P, c ∈ PR := fun c hc => (rstripSlash_isPrefixOf PR).subset hc
  have hsafeP : ∀ c ∈ P, urlSafeChar c = true ∧ c ≠ '#' ∧ c ≠ '?' :=
    fun c hc => hPR c (hsubP c hc)
  have hlastP : P.getLast? ≠ some '/' := rstripSlash_getLast_ne PR
  have hheadP : P = [] ∨ ∃ t, P = '/' :: t := by
    rcases hPRhead with hP0 | ⟨t, hP0⟩
    · rw [hPdef, hP0]
      exact Or.inl rfl
    · cases hrs : rstripSlash PR with
      | nil => exact Or.inl (by rw [hPdef, hrs])
      | cons x xs =>
        have hpre := rstripSlash_isPrefixOf PR
        rw [hrs, hP0] at hpre
        rcases hpre with ⟨r, hr⟩
        rw [List.cons_append] at hr
        injection hr with h1 h2
        refine Or.inr ⟨xs, ?_⟩
        rw [hPdef, hrs, h1]
  have hsemiP : ';' ∉ P := fun hmem =>
    (urlSafeChar_facts ';' (hsafeP ';' hmem).1).2.1 rfl
  have htrnP : ∀ c ∈ P, (c = '\t' || c = '\r' || c = '\n') = false :=
    fun c hc => (urlSafeChar_facts c (hsafeP c hc).1).2.2.2.2.1
  have hwsP : ∀ c ∈ P, pyWs c = false ∧ c ≠ ' ' := fun c hc =>
    ⟨(urlSafeChar_facts c (hsafeP c hc).1).1,
      (urlSafeChar_facts c (hsafeP c hc).1).2.2.2.2.2.2⟩
  have hndP : noDoubleSlash P = true := hndPR
  have hOP : collapseSlashes (D ++ P) = D ++ P := by
    rw [show collapseSlashes (D ++ P) = collapseAux false (D ++ P) from rfl,
      collapseAux_append_left D P hslD,
      show collapseAux false P = collapseSlashes P from rfl,
      collapseSlashes_eq_self P hndP]
  rw [hOP]
  have hmemO : ∀ c ∈ D ++ P, pyWs c = false ∧ c ≠ ' ' := fun c hc =>
    (List.mem_append.mp hc).elim (fun h => hwsD c h) (fun h => hwsP c h)
  have hstripO : pyStrip (D ++ P) = D ++ P :=
    pyStrip_eq_self _ (fun c hc => (hmemO c hc).1)
  have hOne : pyStrip (D ++ P) ≠ [] := by
    rw [hstripO]
    intro h0
    exact hneD (List.append_eq_nil.mp h0).1
  have hfilterO : (D ++ P).filter (· ≠ ' ') = D ++ P :=
    List.filter_eq_self.mpr (fun c hc => decide_eq_true (hmemO c hc).2)
  have hndO : noDoubleSlash (D ++ P) = true := by
    rw [← hOP]
    exact noDoubleSlash_collapseAux _ false
  have hschemeO : hasSchemeSlashes (D ++ P) = false :=
    hasSchemeSlashes_false_of_noDoubleSlash _ hndO
  have hparse2 : pyUrlparse ("https://".data ++ (D ++ P)) =
      .ok ⟨"https".data, D, P, [], [], []⟩ := by
    refine pyUrlparse_https D P hpredD hbrD ?_ ?_ hheadP hsemiP
    · intro c hc
      rcases List.mem_append.mp hc with h | h
      · exact htrnD c h
      · exact htrnP c h
    · intro c hc
      exact ⟨(hsafeP c hc).2.1, (hsafeP c hc).2.2⟩
  have hp : pyUrlparse (if hasSchemeSlashes ((pyStrip (D ++ P)).filter (· ≠ ' '))
      then (pyStrip (D ++ P)).filter (· ≠ ' ')
      else "https://".data ++ (pyStrip (D ++ P)).filter (· ≠ ' ')) =
      .ok ⟨"https".data, D, P, [], [], []⟩ := by
    rw [hstripO, hfilterO, hschemeO, if_neg (by decide : ¬(false = true))]
    exact hparse2
  rw [normalize_linkedin_url_ok (D ++ P) hOne ⟨"https".data, D, P, [], [], []⟩ hp]
  rw [linkedinResult_eq]
  dsimp only []
  have hdomD : infixOf ("linkedin.com".data) D = true := by
    rw [hD]
    by_cases hwp : ("www.".data).isPrefixOf (NL.map lowerChar) = true
    · rw [if_pos hwp]
      exact hdom
    · rw [if_neg hwp]
      exact infixOf_append_left _ _ _ hdom
  rw [hlowD, rstripSlash_eq_self P hlastP,
    if_neg (by rw [hdomD]; decide),
    if_neg (by rw [hval]; decide),
    if_pos hwwwD]
  exact hOP

/-- The LinkedIn normalizer is idempotent on url-safe, double-slash-free
input. -/
theorem normalize_linkedin_url_idem (v : Str) (hsafe : urlSafe v = true)
    (hnd : noDoubleSlash v = true) :
    normalize_linkedin_url (some (normalize_linkedin_url (some v))) =
      normalize_linkedin_url (some v) := by
  have hchar : ∀ c ∈ v, urlSafeChar c = true := by
    unfold urlSafe at hsafe
    exact fun c hc => List.all_eq_true.mp hsafe c hc
  by_cases hv : pyStrip v = []
  · rw [normalize_linkedin_url_blank v hv]
    exact normalize_linkedin_url_blank [] rfl
  · have hstrip : pyStrip v = v :=
      pyStrip_eq_self v (fun c hc => (urlSafeChar_facts c (hchar c hc)).1)
    have hfilter : v.filter (· ≠ ' ') = v :=
      List.filter_eq_self.mpr (fun c hc =>
        decide_eq_true (urlSafeChar_facts c (hchar c hc)).2.2.2.2.2.2)
    cases hs : hasSchemeSlashes v with
    | false =>
      have hp1 := pyUrlparse_scheme_gen 'h' ("ttps".data) v (by decide)
        (by decide) (by decide) (by decide) hchar
      rw [normalize_linkedin_url_ok v hv _ (by
        rw [hstrip, hfilter, hs, if_neg (by decide : ¬(false = true))]
        exact hp1)]
      by_cases hres : linkedinResult ⟨('h' :: "ttps".data).map lowerChar,
          (breakAtFirst (fun c => c = '/' || c = '?' || c = '#') v).1,
          (splitTail (· = '?') (splitTail (· = '#') (breakAtFirst (fun c => c = '/' || c = '?' || c = '#') v).2).1).1,
          [],
          (splitTail (· = '?') (splitTail (· = '#') (breakAtFirst (fun c => c = '/' || c = '?' || c = '#') v).2).1).2,
          (splitTail (· = '#') (breakAtFirst (fun c => c = '/' || c = '?' || c = '#') v).2).2⟩ = []
      · rw [hres]
        exact normalize_linkedin_url_blank [] rfl
      · obtain ⟨hd, hval, hO⟩ := linkedinResult_accept _ hres
        dsimp only [] at hd hval hO
        rw [hO]
        obtain ⟨hNLf, hPRf, hheadf⟩ := parse_components_facts v hchar
        have hndPR : noDoubleSlash (rstripSlash
            (splitTail (· = '?') (splitTail (· = '#')
              (breakAtFirst (fun c => c = '/' || c = '?' || c = '#') v).2).1).1) = true :=
          noDoubleSlash_of_prefix _ _ (rstripSlash_isPrefixOf _)
            (noDoubleSlash_of_isInfixOf _ _ (parse_path_isInfixOf v) hnd)
        exact linkedin_fixed_point _ _ hNLf hPRf hheadf hndPR hd hval
    | true =>
      obtain ⟨a, mid, rest, hdecomp, hsch⟩ := hasSchemeSlashes_decomp v hs
      have hrest : ∀ c ∈ rest, urlSafeChar c = true := fun c hc =>
        hchar c (by
          rw [hdecomp]
          exact List.mem_append.mpr (Or.inr (List.mem_cons_of_mem ':'
            (List.mem_cons_of_mem '/' (List.mem_cons_of_mem '/' hc)))))
      have hndrest : noDoubleSlash rest = true := by
        refine noDoubleSlash_of_suffix _ _ ⟨(a :: mid) ++ [':', '/', '/'], ?_⟩ hnd
        rw [hdecomp, List.append_assoc]
        rfl
      have hmidv : ∀ c ∈ a :: mid, c ∈ v := fun c hc => by
        rw [hdecomp]
        exact List.mem_append.mpr (Or.inl hc)
      have hmidcol : ∀ c ∈ mid, c ≠ ':' := by
        intro c hc h0
        rw [Bool.and_eq_true] at hsch
        have h2 := List.all_eq_true.mp hsch.2 c hc
        rw [h0] at h2
        exact absurd h2 (by decide)
      have hac0 : c0Space a = false :=
        (urlSafeChar_facts a (hchar a (hmidv a
          (List.mem_cons_self a mid)))).2.2.2.2.2.1
      have hsafeA : ∀ c ∈ a :: mid,
          (c = '\t' || c = '\r' || c = '\n') = false := fun c hc =>
        (urlSafeChar_facts c (hchar c (hmidv c hc))).2.2.2.2.1
      have hp1 := pyUrlparse_scheme_gen a mid rest hsch hac0 hsafeA hmidcol hrest
      rw [normalize_linkedin_url_ok v hv _ (by
        rw [hstrip, hfilter, hs, if_pos rfl, hdecomp]
        exact hp1)]
      by_cases hres : linkedinResult ⟨(a :: mid).map lowerChar,
          (breakAtFirst (fun c => c = '/' || c = '?' || c = '#') rest).1,
          (splitTail (· = '?') (splitTail (· = '#')
            (breakAtFirst (fun c => c = '/' || c = '?' || c = '#') rest).2).1).1,
          [],
          (splitTail (· = '?') (splitTail (· = '#')
            (breakAtFirst (fun c => c = '/' || c = '?' || c = '#') rest).2).1).2,
          (splitTail (· = '#') (breakAtFirst (fun c => c = '/' || c = '?' || c = '#') rest).2).2⟩ = []
      · rw [hres]
        exact normalize_linkedin_url_blank [] rfl
      · obtain ⟨hd, hval, hO⟩ := linkedinResult_accept _ hres
        dsimp only [] at hd hval hO
        rw [hO]
        obtain ⟨hNLf, hPRf, hheadf⟩ := parse_components_facts rest hrest
        have hndPR : noDoubleSlash (rstripSlash
            (splitTail (· = '?') (splitTail (· = '#')
              (breakAtFirst (fun c => c = '/' || c = '?' || c = '#') rest).2).1).1) = true :=
          noDoubleSlash_of_prefix _ _ (rstripSlash_isPrefixOf _)
            (noDoubleSlash_of_isInfixOf _ _ (parse_path_isInfixOf rest) hndrest)
        exact linkedin_fixed_point _ _ hNLf hPRf hheadf hndPR hd hval

/-- Splitting on an absent separator yields the singleton list. -/
theorem splitOnChar_no_sep (sep : Char) (u : Str) (h : sep ∉ u) :
    splitOnChar sep u = [u] := by
  induction u with
  | nil => rfl
  | cons c t ih =>
    have hc : ¬(c = sep) := fun h0 => h (h0 ▸ List.mem_cons_self c t)
    rw [show splitOnChar sep (c :: t) = if c = sep then [] :: splitOnChar sep t
        else (match splitOnChar sep t with
          | seg :: segs => (c :: seg) :: segs
          | [] => [[c]]) from rfl,
      if_neg hc, ih (fun hm => h (List.mem_cons_of_mem c hm))]

/-- Decomposition of a successful username match. -/
theorem usernameMatch_isSome_facts (u : Str)
    (h : (usernameMatch u).isSome = true) :
    usernameCore u ≠ [] ∧ (usernameCore u).all igNameChar = true ∧
    (u = usernameCore u ∨ u = '@' :: usernameCore u) := by
  unfold usernameMatch at h
  by_cases hc : (usernameCore u ≠ [] && (usernameCore u).length ≤ 30 &&
      (usernameCore u).all igNameChar) = true
  · simp only [Bool.and_eq_true, decide_eq_true_eq] at hc
    refine ⟨hc.1.1, hc.2, ?_⟩
    unfold usernameCore
    by_cases hh : u.head? = some '@'
    · right
      cases u with
      | nil => exact absurd hh (by decide)
      | cons a t =>
        rw [List.head?_cons] at hh
        rw [if_pos (by rw [List.head?_cons]; exact hh)]
        rw [Option.some.inj hh]
        rfl
    · left
      rw [if_neg hh]
  · rw [if_neg hc] at h
    exact absurd h (by decide)

/-- Every character of a matched username is `@` or in the username class. -/
theorem username_chars (u : Str) (h : (usernameMatch u).isSome = true) :
    ∀ c ∈ u, c = '@' ∨ igNameChar c = true := by
  obtain ⟨hne, hall, hsh⟩ := usernameMatch_isSome_facts u h
  rcases hsh with h1 | h1
  · intro c hc
    right
    exact List.all_eq_true.mp hall c (h1 ▸ hc)
  · intro c hc
    rw [h1] at hc
    rcases List.mem_cons.mp hc with h2 | h2
    · exact Or.inl h2
    · exact Or.inr (List.all_eq_true.mp hall c h2)

/-- Character facts for username characters. -/
theorem igName_at_facts (c : Char) (h : c = '@' ∨ igNameChar c = true) :
    pyWs c = false ∧ c ≠ ' ' ∧ c ≠ '#' ∧ c ≠ '?' ∧ c ≠ ';' ∧
    (c = '\t' || c = '\r' || c = '\n') = false ∧ c ≠ '[' ∧ c ≠ ']' := by
  rcases h with h | h
  · rw [h]
    decide
  · refine ⟨?_, ?_, ?_, ?_, ?_, ?_, ?_, ?_⟩
    · cases hw : pyWs c with
      | false => rfl
      | true =>
        exfalso
        unfold pyWs at hw
        simp only [Bool.or_eq_true, decide_eq_true_eq] at hw
        rcases hw with ((((h2 | h2) | h2) | h2) | h2) | h2 <;>
          (rw [h2] at h; exact absurd h (by decide))
    · intro hc; rw [hc] at h; exact absurd h (by decide)
    · intro hc; rw [hc] at h; exact absurd h (by decide)
    · intro hc; rw [hc] at h; exact absurd h (by decide)
    · intro hc; rw [hc] at h; exact absurd h (by decide)
    · cases ht : (c = '\t' || c = '\r' || c = '\n') with
      | false => rfl
      | true =>
        exfalso
        simp only [Bool.or_eq_true, decide_eq_true_eq] at ht
        rcases ht with (h2 | h2) | h2 <;>
          (rw [h2] at h; exact absurd h (by decide))
    · intro hc; rw [hc] at h; exact absurd h (by decide)
    · intro hc; rw [hc] at h; exact absurd h (by decide)

/-- Every nonempty Instagram output is a canonical profile URL with a
matched, slash-free username. -/
theorem instagram_output_shape (v : Cell)
    (hne : normalize_instagram v ≠ []) :
    ∃ u, u ≠ [] ∧ '/' ∉ u ∧ (usernameMatch u).isSome = true ∧
      normalize_instagram v = "www.instagram.com/".data ++ u := by
  cases v with
  | none => exact absurd rfl hne
  | some raw =>
    by_cases h1 : pyStrip raw = []
    · exact absurd (normalize_instagram_blank raw h1) hne
    · cases hm : usernameMatch ((pyStrip raw).filter (· ≠ ' ')) with
      | some username =>
        have hr := normalize_instagram_username raw h1 username hm
        obtain ⟨hne2, hlen, hall⟩ := usernameMatch_inv _ _ hm
        have hnos : '/' ∉ username := by
          intro hmem
          exact absurd (List.all_eq_true.mp hall '/' hmem) (by decide)
        refine ⟨username, hne2, hnos, ?_, hr⟩
        rw [usernameMatch_fix username hne2 hlen hall]
        rfl
      | none =>
        cases hp : pyUrlparse (if hasSchemeSlashes
            ((pyStrip raw).filter (· ≠ ' '))
            then (pyStrip raw).filter (· ≠ ' ')
            else "https://".data ++ (pyStrip raw).filter (· ≠ ' ')) with
        | error e => exact absurd (normalize_instagram_err raw h1 hm e hp) hne
        | ok parsed =>
          have hr := normalize_instagram_ok raw h1 hm parsed hp
          rw [hr] at hne
          obtain ⟨username, hd, hdeny, hsplit, hne2, hnos, hum, hres, hstrip,
            hscheme⟩ := instagramResult_shape parsed hne
          exact ⟨username, hne2, hnos, hum, by rw [hr]; exact hres⟩

/-- The canonical Instagram profile URL of a matched username that does not
rebuild a deny-listed segment is a fixed point of the Instagram
normalizer. -/
theorem instagram_fixed_point (u : Str) (hne : u ≠ []) (hnos : '/' ∉ u)
    (hum : (usernameMatch u).isSome = true)
    (hdeny : (INVALID_INSTAGRAM_SEGMENTS.any (fun bad => infixOf bad
      (('/' :: u).map lowerChar ++ ['/']))) = false) :
    normalize_instagram (some ("www.instagram.com/".data ++ u)) =
      "www.instagram.com/".data ++ u := by
  have hchar : ∀ c ∈ u, c = '@' ∨ igNameChar c = true := username_chars u hum
  have hmemO : ∀ c ∈ "www.instagram.com/".data ++ u,
      pyWs c = false ∧ c ≠ ' ' := by
    intro c hc
    rcases List.mem_append.mp hc with h | h
    · exact (by decide : ∀ c ∈ ("www.instagram.com/".data : Str),
        pyWs c = false ∧ c ≠ ' ') c h
    · exact ⟨(igName_at_facts c (hchar c h)).1, (igName_at_facts c (hchar c h)).2.1⟩
  have hstripO : pyStrip ("www.instagram.com/".data ++ u) =
      "www.instagram.com/".data ++ u :=
    pyStrip_eq_self _ (fun c hc => (hmemO c hc).1)
  have hOne : pyStrip ("www.instagram.com/".data ++ u) ≠ [] := by
    rw [hstripO]
    intro h0
    exact absurd (List.append_eq_nil.mp h0).1 (by decide)
  have hfilterO : ("www.instagram.com/".data ++ u).filter (· ≠ ' ') =
      "www.instagram.com/".data ++ u :=
    List.filter_eq_self.mpr (fun c hc => decide_eq_true (hmemO c hc).2)
  have hallO : ("www.instagram.com/".data ++ u).all igNameChar = false := by
    cases hall : ("www.instagram.com/".data ++ u).all igNameChar with
    | false => rfl
    | true =>
      exfalso
      have h2 := List.all_eq_true.mp hall '/'
        (List.mem_append.mpr (Or.inl (by decide)))
      exact absurd h2 (by decide)
  have humO : usernameMatch ("www.instagram.com/".data ++ u) = none := by
    have hcoreO : usernameCore ("www.instagram.com/".data ++ u) =
        "www.instagram.com/".data ++ u := by
      unfold usernameCore
      rw [if_neg (show ¬(("www.instagram.com/".data ++ u).head? = some '@') from by
        rw [show ("www.instagram.com/".data ++ u).head? = some 'w' from rfl]
        decide)]
    unfold usernameMatch
    rw [hcoreO, hallO, Bool.and_false, if_neg (by decide : ¬(false = true))]
  have hndO : noDoubleSlash ("www.instagram.com/".data ++ u) = true :=
    noDoubleSlash_append _ _ (by decide) (fun c hc h => hnos (h ▸ hc))
  have hschemeO : hasSchemeSlashes ("www.instagram.com/".data ++ u) = false :=
    hasSchemeSlashes_false_of_noDoubleSlash _ hndO
  have hlastP : ('/' :: u).getLast? ≠ some '/' := by
    rw [show ('/' :: u) = ['/'] ++ u from rfl, List.getLast?_append,
      List.getLast?_eq_getLast _ hne]
    simp only [Option.or_some]
    intro hcon
    exact hnos ((Option.some.inj hcon) ▸ List.getLast_mem hne)
  have hndP : noDoubleSlash ('/' :: u) = true :=
    noDoubleSlash_append ['/'] u (by decide) (fun c hc h => hnos (h ▸ hc))
  have hparse2 : pyUrlparse ("https://".data ++
      ("www.instagram.com/".data ++ u)) =
      .ok ⟨"https".data, "www.instagram.com".data, '/' :: u, [], [], []⟩ := by
    refine pyUrlparse_https ("www.instagram.com".data) ('/' :: u)
      (by decide) (by decide) ?_ ?_ (Or.inr ⟨u, rfl⟩) ?_
    · intro c hc
      rcases List.mem_append.mp hc with h | h
      · exact (by decide : ∀ c ∈ ("www.instagram.com".data : Str),
          (c = '\t' || c = '\r' || c = '\n') = false) c h
      · rcases List.mem_cons.mp h with h2 | h2
        · rw [h2]
          rfl
        · exact (igName_at_facts c (hchar c h2)).2.2.2.2.2.1
    · intro c hc
      rcases List.mem_cons.mp hc with h2 | h2
      · rw [h2]
        exact ⟨by decide, by decide⟩
      · exact ⟨(igName_at_facts c (hchar c h2)).2.2.1,
          (igName_at_facts c (hchar c h2)).2.2.2.1⟩
    · intro hmem
      rcases List.mem_cons.mp hmem with h2 | h2
      · exact absurd h2 (by decide)
      · exact (igName_at_facts ';' (hchar ';' h2)).2.2.2.2.1 rfl
  have hp : pyUrlparse (if hasSchemeSlashes
      ((pyStrip ("www.instagram.com/".data ++ u)).filter (· ≠ ' '))
      then (pyStrip ("www.instagram.com/".data ++ u)).filter (· ≠ ' ')
      else "https://".data ++
        (pyStrip ("www.instagram.com/".data ++ u)).filter (· ≠ ' ')) =
      .ok ⟨"https".data, "www.instagram.com".data, '/' :: u, [], [], []⟩ := by
    rw [hstripO, hfilterO, hschemeO, if_neg (by decide : ¬(false = true))]
    exact hparse2
  rw [normalize_instagram_ok ("www.instagram.com/".data ++ u) hOne
    (by rw [hstripO, hfilterO]; exact humO)
    ⟨"https".data, "www.instagram.com".data, '/' :: u, [], [], []⟩ hp]
  rw [instagramResult_eq]
  dsimp only []
  rw [show ("www.instagram.com".data).map lowerChar =
      "www.instagram.com".data from by decide]
  rw [if_neg (not_not_intro (by decide))]
  rw [rstripSlash_eq_self _ hlastP, collapseSlashes_eq_self _ hndP]
  rw [if_neg (by rw [hdeny]; exact Bool.false_ne_true)]
  have hsplit : (splitOnChar '/' ('/' :: u)).filter (· ≠ []) = [u] := by
    rw [show splitOnChar '/' ('/' :: u) = [] :: splitOnChar '/' u from rfl,
      splitOnChar_no_sep '/' u hnos,
      List.filter_cons, if_neg (by decide),
      List.filter_cons, if_pos (decide_eq_true hne), List.filter_nil]
  rw [hsplit]
  show (if (usernameMatch u).isSome
      then "www.instagram.com".data ++ '/' :: u else []) =
    "www.instagram.com/".data ++ u
  rw [if_pos hum]
  rfl

/-- The Instagram normalizer is idempotent whenever its output does not
itself contain a deny-listed segment. -/
theorem normalize_instagram_idem (v : Cell)
    (hden : ∀ u, normalize_instagram v = "www.instagram.com/".data ++ u →
      (INVALID_INSTAGRAM_SEGMENTS.any (fun bad => infixOf bad
        (('/' :: u).map lowerChar ++ ['/']))) = false) :
    normalize_instagram (some (normalize_instagram v)) =
      normalize_instagram v := by
  by_cases hne : normalize_instagram v = []
  · rw [hne]
    exact normalize_instagram_blank [] rfl
  · obtain ⟨u, hu1, hu2, hu3, hO⟩ := instagram_output_shape v hne
    rw [hO]
    exact instagram_fixed_point u hu1 hu2 hu3 (hden u hO)

/-- Claim C5: every transforming tool preserves the row count and the
column set, changing only cell contents in the selected columns (each tool's
`clean_dataframe` is an instance of the shared driver, whose frame property
is the first clause; the ZIP and numeric tools are stated on their own
drivers); the deduplication tool preserves the column set and only drops
rows — the kept rows are a subsequence of the input, the kept and removed
rows partition the input, and every input row's key subset is still
represented among the kept rows. -/
theorem tools_preserve_frame :
    (∀ (t : Table) (cols : List Str) (rule : Cell → Cell) (strip : Bool),
      (clean_columns t cols rule strip).1.header = t.header ∧
      (clean_columns t cols rule strip).1.rows.length = t.rows.length ∧
      (∀ j name, t.header[j]? = some name → name ∉ cols →
        ∀ k, cellAt (clean_columns t cols rule strip).1 k j = cellAt t k j)) ∧
    (∀ t cols, phone_clean_dataframe t cols =
      clean_columns t cols extract_and_clean_phone true) ∧
    (∀ t cols, email_clean_dataframe t cols =
      clean_columns t cols (fun c => some (extract_email c)) true) ∧
    (∀ t cols mode, state_clean_dataframe t cols mode =
      clean_columns t cols (fun c => some (clean_state c mode)) true) ∧
    (∀ t cols, website_clean_dataframe t cols =
      clean_columns t cols (fun c => some (normalize_url c)) true) ∧
    (∀ t cols, facebook_clean_dataframe t cols =
      clean_columns t cols (fun c => some (normalize_facebook_url c)) true) ∧
    (∀ t cols, linkedin_clean_dataframe t cols =
      clean_columns t cols (fun c => some (normalize_linkedin_url c)) true) ∧
    (∀ t cols, instagram_clean_dataframe t cols =
      clean_columns t cols (fun c => some (normalize_instagram c)) true) ∧
    (∀ t cols extra repl sa sn, alphanum_clean_dataframe t cols extra repl sa sn =
      clean_columns t cols (fun c => clean_value c extra repl sa sn) false) ∧
    (∀ (t : Table) (col : Str) (t2 : Table), zip_clean_dataframe t col = .ok t2 →
      t2.header = t.header ∧ t2.rows.length = t.rows.length ∧
      (∀ j name, t.header[j]? = some name → name ≠ col →
        ∀ k, cellAt t2 k j = cellAt t k j)) ∧
    (∀ (t : Table) (cols : List Str) (mode : Str) (places : Nat) (rnd : Str)
        (t2 : Table), number_clean_dataframe t cols mode places rnd = .ok t2 →
      t2.header = t.header ∧ t2.rows.length = t.rows.length ∧
      (∀ j name, t.header[j]? = some name → name ∉ cols →
        ∀ k, cellAt t2 k j = cellAt t k j)) ∧
    (∀ (t : Table) (cols : List Str),
      (dedupe_dataframe t cols).1.header = t.header ∧
      (dedupe_dataframe t cols).1.rows.Sublist t.rows ∧
      (dedupe_dataframe t cols).1.rows.length +
        (dedupe_dataframe t cols).2.length = t.rows.length ∧
      (∀ r ∈ t.rows, ∃ r2 ∈ (dedupe_dataframe t cols).1.rows,
        keyOf t.header cols r2 = keyOf t.header cols r)) := by
  refine ⟨fun t cols rule strip => clean_columns_frame rule strip cols t,
    fun _ _ => rfl, fun _ _ => rfl, fun _ _ _ => rfl, fun _ _ => rfl,
    fun _ _ => rfl, fun _ _ => rfl, fun _ _ => rfl, fun _ _ _ _ _ _ => rfl,
    fun t col t2 h => ?_,
    fun t cols mode places rnd t2 h => number_clean_frame mode places rnd cols t t2 h,
    fun t cols => ?_⟩
  · unfold zip_clean_dataframe at h
    by_cases hin : col ∈ t.header
    · rw [if_pos hin] at h
      cases h
      refine ⟨rfl, ?_, fun j name hj hne k => ?_⟩
      · simpa using applyAtCol_length t.rows (t.header.findIdx (· = col))
          (fun c => some (clean_zip c))
      · simpa [cellAt] using applyAtCol_getD_ne t.rows (t.header.findIdx (· = col))
          (fun c => some (clean_zip c)) k j
          (unselected_ne_findIdx t.header col j name hj hne)
    · rw [if_neg hin] at h
      exact Except.noConfusion h
  · obtain ⟨hs, hl, hc⟩ := dedupeAux_spec t.header cols t.rows []
    refine ⟨rfl, hs, hl, fun r hr => ?_⟩
    rcases hc r hr with hseen | hex
    · exact absurd hseen (List.not_mem_nil _)
    · exact hex

/-- Witness for `tools_preserve_frame`: the ZIP clause at a concrete
one-column table, with its hypotheses discharged by evaluation. -/
theorem tools_preserve_frame_witness :
    (⟨["Z".data], [[some ("12345-6789".data)]]⟩ : Table).header = ["Z".data] := by
  have h := tools_preserve_frame
  exact (h.2.2.2.2.2.2.2.2.2.1
    ⟨["Z".data], [[some ("12345-6789".data)]]⟩ ("Z".data)
    ⟨["Z".data], [[some ("12345".data)]]⟩ (by decide)).1

/-- Claim C6 counterexample: for a concrete two-column table the state
cleaner's change records are grouped column by column (all records of the
first selected column before any record of the second), not in row-then-
column order, and the cell `" CA "` — whose string coercion differs from its
cleaned value `"CA"` — produces no record at all because the comparison
strips the original first. -/
theorem state_change_records_counterexample :
    (state_clean_dataframe
      ⟨["A".data, "B".data],
       [[some (" CA ".data), some ("Texas".data)],
        [some ("Oregon".data), some ("Utah".data)]]⟩
      ["A".data, "B".data] ("abbr".data)).2 =
      [("Oregon".data, some ("OR".data), "A".data),
       ("Texas".data, some ("TX".data), "B".data),
       ("Utah".data, some ("UT".data), "B".data)] ∧
    (state_clean_dataframe
      ⟨["A".data, "B".data],
       [[some (" CA ".data), some ("Texas".data)],
        [some ("Oregon".data), some ("Utah".data)]]⟩
      ["A".data, "B".data] ("abbr".data)).2 ≠
      [(" CA ".data, some ("CA".data), "A".data),
       ("Texas".data, some ("TX".data), "B".data),
       ("Oregon".data, some ("OR".data), "A".data),
       ("Utah".data, some ("UT".data), "B".data)] := by
  constructor
  · decide
  · decide

/-- Claim C6 (amended): for distinct selected columns that exist in the
table, the change records are exactly the concatenation, in configured
column order, of each column's records; within one column the records
follow row order (`filterMap` over the rows); and a record is created
exactly when the cleaned value differs from the *stripped* string coercion
of the original (the unstripped coercion when `strip` is false, as in the
alphanumeric tool), a missing cleaned value always counting as changed. -/
theorem change_records_contract (t : Table) (cols : List Str)
    (rule : Cell → Cell) (strip : Bool)
    (hsub : ∀ c ∈ cols, c ∈ t.header) (hnd : cols.Nodup) :
    (clean_columns t cols rule strip).2 =
      (cols.map (fun col =>
        colRecords t.rows (t.header.findIdx (· = col)) rule strip col)).flatten ∧
    (∀ rows i col, colRecords rows i rule strip col =
      rows.filterMap (fun r =>
        if cellChanged strip (r.getD i none) (rule (r.getD i none)) then
          some (pyStr (r.getD i none), rule (r.getD i none), col)
        else none)) ∧
    (∀ v s, cellChanged strip v (some s) =
      decide ((if strip then pyStrip (pyStr v) else pyStr v) ≠ s)) ∧
    (∀ v, cellChanged strip v none = true) := by
  refine ⟨?_, fun rows i col => rfl, fun v s => rfl, fun v => rfl⟩
  induction cols generalizing t with
  | nil => rfl
  | cons col rest ih =>
    have hcol : col ∈ t.header := hsub col (List.mem_cons_self ..)
    have hstep := ih ⟨t.header, applyAtCol t.rows (t.header.findIdx (· = col)) rule⟩
      (fun c hc => hsub c (List.mem_cons_of_mem _ hc)) hnd.of_cons
    show colRecords t.rows (t.header.findIdx (· = col)) rule strip col ++
        (clean_columns _ rest rule strip).2 = _
    rw [List.map_cons, List.flatten_cons, hstep]
    congr 1
    refine congrArg List.flatten (List.map_congr_left (fun c hc => ?_))
    have hne : t.header.findIdx (· = c) ≠ t.header.findIdx (· = col) := by
      have hcnecol : c ≠ col := by
        intro he
        exact (List.nodup_cons.mp hnd).1 (he ▸ hc)
      exact Ne.symm ((findIdx_mem_facts t.header c (hsub c (List.mem_cons_of_mem _ hc))).2.2
        (t.header.findIdx (· = col)) col
        (findIdx_mem_facts t.header col hcol).2.1 (fun he => hcnecol he.symm))
    exact colRecords_applyAtCol t.rows _ _ rule rule strip c hne

/-- Witness for `change_records_contract`: the two-column state-cleaner
table, hypotheses discharged by evaluation. -/
theorem change_records_contract_witness :
    (clean_columns
      ⟨["A".data, "B".data],
       [[some (" CA ".data), some ("Texas".data)],
        [some ("Oregon".data), some ("Utah".data)]]⟩
      ["A".data, "B".data] (fun c => some (clean_state c ("abbr".data))) true).2 =
      ((["A".data, "B".data]).map (fun col =>
        colRecords
          [[some (" CA ".data), some ("Texas".data)],
           [some ("Oregon".data), some ("Utah".data)]]
          ((["A".data, "B".data]).findIdx (· = col))
          (fun c => some (clean_state c ("abbr".data))) true col)).flatten :=
  (change_records_contract
    ⟨["A".data, "B".data],
     [[some (" CA ".data), some ("Texas".data)],
      [some ("Oregon".data), some ("Utah".data)]]⟩
    ["A".data, "B".data] (fun c => some (clean_state c ("abbr".data))) true
    (by decide) (by decide)).1

/-- Claim C2 counterexample: `"123-4567"` contains a phone-like run that
does not parse to a structurally valid number (`+11234567` has a 7-digit
national part), yet the normalizer returns `"+11234567"`, not the original
cell value. -/
theorem phone_invalid_parse_replaces_value :
    extract_and_clean_phone (some ("123-4567".data)) = some ("+11234567".data) ∧
    phoneSearch none (pyStrip ("123-4567".data)) = some ("123-4567".data) ∧
    phonelib_valid ("+11234567".data) = false ∧
    some ("+11234567".data) ≠ (some ("123-4567".data) : Cell) := by
  decide

/-- Claim C2 (amended): when the phone normalizer finds a phone-like run
`m` in the stripped cell text, the whole cell (not just the matched
substring) is replaced by `normalize_to_e164 m`; when the digit-normalised
candidate does not parse to a structurally valid number the cell becomes the
candidate itself — the `+`-prefixed digit run, with `+1` prepended when no
leading plus was present — rather than the original value. -/
theorem phone_normalizer_match_behaviour (s m : Str)
    (hs : pyStrip s ≠ [])
    (hm : phoneSearch none (pyStrip s) = some m) :
    extract_and_clean_phone (some s) = some (normalize_to_e164 m) ∧
    (m ≠ [] → ∀ d, normalize_raw_digits m = d →
      ((("+".data).isPrefixOf d = true → phonelib_valid d = false →
         normalize_to_e164 m = d) ∧
       (("+".data).isPrefixOf d = false → phonelib_valid ('+' :: '1' :: d) = false →
         normalize_to_e164 m = '+' :: '1' :: d))) := by
  constructor
  · simp [extract_and_clean_phone, hs, hm]
  · intro hm0 d hd
    constructor
    · intro hplus hvalid
      unfold normalize_to_e164
      rw [if_neg hm0, hd]
      simp [hplus, hvalid]
    · intro hplus hvalid
      unfold normalize_to_e164
      rw [if_neg hm0, hd]
      simp [hplus, hvalid]

/-- Witness for `phone_normalizer_match_behaviour`: the concrete cell
`"123-4567"`. -/
theorem phone_normalizer_match_behaviour_witness :
    extract_and_clean_phone (some ("123-4567".data)) =
      some (normalize_to_e164 ("123-4567".data)) :=
  (phone_normalizer_match_behaviour ("123-4567".data) ("123-4567".data)
    (by decide) (by decide)).1

/-! ## Idempotence of the remaining tools: ZIP -/

/-- A decimal digit character is not Python whitespace. -/
theorem isDigitAscii_not_ws (c : Char) (h : isDigitAscii c = true) :
    pyWs c = false := by
  cases hw : pyWs c with
  | false => rfl
  | true =>
    exfalso
    unfold pyWs at hw
    simp only [Bool.or_eq_true, decide_eq_true_eq] at hw
    rcases hw with ((((hw|hw)|hw)|hw)|hw)|hw <;> rw [hw] at h <;>
      exact absurd h (by decide)

/-- Unfolding of `clean_zip` on a present value. -/
theorem clean_zip_eq (raw : Str) :
    clean_zip (some raw) =
      (if (pyStrip raw).filter isDigitAscii = [] then []
       else ((pyStrip raw).filter isDigitAscii).take 5) := rfl

/-- `clean_zip` is idempotent. -/
theorem clean_zip_idem (v : Cell) :
    clean_zip (some (clean_zip v)) = clean_zip v := by
  have hblank : clean_zip (some []) = [] := rfl
  cases v with
  | none => exact hblank
  | some raw =>
    rw [clean_zip_eq raw]
    by_cases hd : (pyStrip raw).filter isDigitAscii = []
    · rw [if_pos hd]
      exact hblank
    · rw [if_neg hd]
      have hOdig : ∀ c ∈ ((pyStrip raw).filter isDigitAscii).take 5,
          isDigitAscii c = true := by
        intro c hc
        exact (List.mem_filter.mp (List.mem_of_mem_take hc)).2
      have hstrip : pyStrip (((pyStrip raw).filter isDigitAscii).take 5) =
          ((pyStrip raw).filter isDigitAscii).take 5 :=
        pyStrip_eq_self _ (fun c hc => isDigitAscii_not_ws c (hOdig c hc))
      have hfilter : (((pyStrip raw).filter isDigitAscii).take 5).filter
          isDigitAscii = ((pyStrip raw).filter isDigitAscii).take 5 :=
        List.filter_eq_self.mpr (fun c hc => hOdig c hc)
      have hne : ((pyStrip raw).filter isDigitAscii).take 5 ≠ [] := by
        cases hfd : (pyStrip raw).filter isDigitAscii with
        | nil => exact absurd hfd hd
        | cons a t =>
          rw [List.take_succ_cons]
          exact List.cons_ne_nil a _
      rw [clean_zip_eq, hstrip, hfilter, if_neg hne, List.take_take]
      rfl

/-! ## Idempotence of `clean_alphanum.py` -/

/-- A bang-true Boolean is false. -/
theorem bnot_true (b : Bool) (h : (!b) = true) : b = false := by
  cases b with
  | false => rfl
  | true => exact absurd h (by decide)

/-- Flattening a map to singleton lists is the identity. -/
theorem flatten_singletons (l : Str) : (l.map (fun c => [c])).flatten = l := by
  induction l with
  | nil => rfl
  | cons c t ih => rw [List.map_cons, List.flatten_cons, ih, List.singleton_append]

/-- Membership in a strip-modes result constrains the character classes. -/
theorem strip_modes_mem (s : Str) (sa sn : Bool) (c : Char)
    (hc : c ∈ apply_strip_modes s sa sn) :
    (sa = true → isAlphaAscii c = false) ∧ (sn = true → isDigitAscii c = false) := by
  cases sa with
  | false =>
    cases sn with
    | false =>
      exact ⟨fun h => absurd h Bool.false_ne_true, fun h => absurd h Bool.false_ne_true⟩
    | true =>
      have hc' : c ∈ s.filter (fun c => !isDigitAscii c) := hc
      have h2 : (!isDigitAscii c) = true := (List.mem_filter.mp hc').2
      exact ⟨fun h => absurd h Bool.false_ne_true, fun _ => bnot_true _ h2⟩
  | true =>
    cases sn with
    | false =>
      have hc' : c ∈ s.filter (fun c => !isAlphaAscii c) := hc
      have h2 : (!isAlphaAscii c) = true := (List.mem_filter.mp hc').2
      exact ⟨fun _ => bnot_true _ h2, fun h => absurd h Bool.false_ne_true⟩
    | true =>
      have hc' : c ∈ (s.filter (fun c => !isAlphaAscii c)).filter
          (fun c => !isDigitAscii c) := hc
      have h2 : (!isDigitAscii c) = true := (List.mem_filter.mp hc').2
      have h3 : (!isAlphaAscii c) = true :=
        (List.mem_filter.mp (List.mem_filter.mp hc').1).2
      exact ⟨fun _ => bnot_true _ h3, fun _ => bnot_true _ h2⟩

/-- A string fixed by the strip modes contains no stripped characters. -/
theorem strip_modes_fix_chars (r : Str) (sa sn : Bool)
    (h : apply_strip_modes r sa sn = r) :
    (sa = true → ∀ c ∈ r, isAlphaAscii c = false) ∧
    (sn = true → ∀ c ∈ r, isDigitAscii c = false) := by
  cases sa with
  | false =>
    cases sn with
    | false =>
      exact ⟨fun hf => absurd hf Bool.false_ne_true,
        fun hf => absurd hf Bool.false_ne_true⟩
    | true =>
      have h' : r.filter (fun c => !isDigitAscii c) = r := h
      refine ⟨fun hf => absurd hf Bool.false_ne_true, fun _ c hc => ?_⟩
      exact bnot_true _ (List.filter_eq_self.mp h' c hc)
  | true =>
    cases sn with
    | false =>
      have h' : r.filter (fun c => !isAlphaAscii c) = r := h
      refine ⟨fun _ c hc => ?_, fun hf => absurd hf Bool.false_ne_true⟩
      exact bnot_true _ (List.filter_eq_self.mp h' c hc)
    | true =>
      have h' : (r.filter (fun c => !isAlphaAscii c)).filter
          (fun c => !isDigitAscii c) = r := h
      have hlen1 : r.length ≤ (r.filter (fun c => !isAlphaAscii c)).length := by
        calc r.length
            = ((r.filter (fun c => !isAlphaAscii c)).filter
                (fun c => !isDigitAscii c)).length := (congrArg List.length h').symm
          _ ≤ (r.filter (fun c => !isAlphaAscii c)).length :=
              (List.filter_sublist _).length_le
      have hfa : r.filter (fun c => !isAlphaAscii c) = r :=
        (List.filter_sublist r).eq_of_length
          (Nat.le_antisymm (List.filter_sublist r).length_le hlen1)
      have hfn : r.filter (fun c => !isDigitAscii c) = r := by
        rw [hfa] at h'
        exact h'
      constructor
      · intro _ c hc
        exact bnot_true _ (List.filter_eq_self.mp hfa c hc)
      · intro _ c hc
        exact bnot_true _ (List.filter_eq_self.mp hfn c hc)

/-- The strip modes fix a string without the stripped character classes. -/
theorem strip_modes_eq_self (r : Str) (sa sn : Bool)
    (h1 : sa = true → ∀ c ∈ r, isAlphaAscii c = false)
    (h2 : sn = true → ∀ c ∈ r, isDigitAscii c = false) :
    apply_strip_modes r sa sn = r := by
  have hfa : sa = true → r.filter (fun c => !isAlphaAscii c) = r := by
    intro hs
    refine List.filter_eq_self.mpr (fun c hc => ?_)
    show (!isAlphaAscii c) = true
    rw [h1 hs c hc]
    rfl
  have hfn : sn = true → r.filter (fun c => !isDigitAscii c) = r := by
    intro hs
    refine List.filter_eq_self.mpr (fun c hc => ?_)
    show (!isDigitAscii c) = true
    rw [h2 hs c hc]
    rfl
  cases sa with
  | false =>
    cases sn with
    | false => rfl
    | true => exact hfn rfl
  | true =>
    cases sn with
    | false => exact hfa rfl
    | true =>
      rw [show apply_strip_modes r true true =
          (r.filter (fun c => !isAlphaAscii c)).filter (fun c => !isDigitAscii c)
          from rfl, hfa rfl, hfn rfl]

/-- `clean_value` fixes a string of allowed characters that the strip modes
do not touch. -/
theorem clean_value_fix (O : Str) (extra replacement : Str) (sa sn : Bool)
    (hall : ∀ a ∈ O, allowedChar extra a = true ∧
      (sa = true → isAlphaAscii a = false) ∧ (sn = true → isDigitAscii a = false)) :
    clean_value (some O) extra replacement sa sn = some O := by
  show some (((apply_strip_modes O sa sn).map
      (fun c => if allowedChar extra c then [c] else replacement)).flatten) = some O
  rw [strip_modes_eq_self O sa sn (fun h c hc => (hall c hc).2.1 h)
    (fun h c hc => (hall c hc).2.2 h)]
  rw [show O.map (fun c => if allowedChar extra c then [c] else replacement) =
      O.map (fun c => [c]) from List.map_congr_left (fun c hc => by
        show (if allowedChar extra c then [c] else replacement) = [c]
        rw [if_pos ((hall c hc).1)])]
  rw [flatten_singletons O]

/-- `clean_value` is idempotent whenever the replacement text survives the
strip modes and consists of allowed characters (in particular for the
default empty replacement). -/
theorem clean_value_idem (val : Cell) (extra replacement : Str) (sa sn : Bool)
    (hrep : apply_strip_modes replacement sa sn = replacement)
    (hall : replacement.all (allowedChar extra) = true) :
    clean_value (clean_value val extra replacement sa sn) extra replacement sa sn =
      clean_value val extra replacement sa sn := by
  cases val with
  | none => rfl
  | some s =>
    have hO : ∀ a ∈ (((apply_strip_modes s sa sn).map
        (fun c => if allowedChar extra c then [c] else replacement)).flatten),
        allowedChar extra a = true ∧ (sa = true → isAlphaAscii a = false) ∧
        (sn = true → isDigitAscii a = false) := by
      intro a ha
      rcases List.mem_flatten.mp ha with ⟨L, hL, haL⟩
      rcases List.mem_map.mp hL with ⟨c, hcv, hfc⟩
      by_cases hal : allowedChar extra c = true
      · rw [if_pos hal] at hfc
        rw [← hfc] at haL
        have hac : a = c := List.mem_singleton.mp haL
        refine ⟨?_, ?_, ?_⟩
        · rw [hac]
          exact hal
        · intro h
          rw [hac]
          exact (strip_modes_mem s sa sn c hcv).1 h
        · intro h
          rw [hac]
          exact (strip_modes_mem s sa sn c hcv).2 h
      · rw [if_neg hal] at hfc
        rw [← hfc] at haL
        have hrf := strip_modes_fix_chars replacement sa sn hrep
        exact ⟨List.all_eq_true.mp hall a haL,
          fun h => hrf.1 h a haL, fun h => hrf.2 h a haL⟩
    exact clean_value_fix _ extra replacement sa sn hO

/-! ## Idempotence of `clean_state.py` -/

/-- Inverting a successful table lookup. -/
theorem lookupTable_some (t : List (Str × Str)) (k r : Str)
    (h : lookupTable t k = some r) :
    ∃ e ∈ t, e.1 = k ∧ e.2 = r := by
  unfold lookupTable at h
  rcases Option.map_eq_some'.mp h with ⟨e, hfind, h2⟩
  have hp := List.find?_some hfind
  have hp2 : decide (e.1 = k) = true := hp
  exact ⟨e, List.mem_of_find?_eq_some hfind, of_decide_eq_true hp2, h2⟩

/-- The renormalisation facts of every state-table entry: the abbreviation
is upper-fixed and resolves only through the abbreviation table, and the
title-cased full name strips and uppercases back to the full name. -/
theorem state_table_facts (e : Str × Str) (he : e ∈ STATE_TO_ABBR) :
    lookupTable STATE_TO_ABBR ((pyStrip e.2).map upperChar) = none ∧
    lookupTable ABBR_TO_STATE ((pyStrip e.2).map upperChar) = some e.1 ∧
    (pyStrip e.2).map upperChar = e.2 ∧
    lookupTable STATE_TO_ABBR ((pyStrip (pyTitle e.1)).map upperChar) = some e.2 ∧
    (pyStrip (pyTitle e.1)).map upperChar = e.1 := by
  have h := List.all_eq_true.mp (by decide : STATE_TO_ABBR.all (fun e =>
    decide (lookupTable STATE_TO_ABBR ((pyStrip e.2).map upperChar) = none) &&
    decide (lookupTable ABBR_TO_STATE ((pyStrip e.2).map upperChar) = some e.1) &&
    decide ((pyStrip e.2).map upperChar = e.2) &&
    decide (lookupTable STATE_TO_ABBR ((pyStrip (pyTitle e.1)).map upperChar) =
      some e.2) &&
    decide ((pyStrip (pyTitle e.1)).map upperChar = e.1)) = true) e he
  simp only [Bool.and_eq_true, decide_eq_true_eq] at h
  exact ⟨h.1.1.1.1, h.1.1.1.2, h.1.1.2, h.1.2, h.2⟩

/-- Unfolding of `clean_state` on a present value. -/
theorem clean_state_eq (s mode : Str) :
    clean_state (some s) mode =
      (match lookupTable STATE_TO_ABBR ((pyStrip s).map upperChar) with
       | some abbr => if mode = "abbr".data then abbr
           else pyTitle ((pyStrip s).map upperChar)
       | none =>
         match lookupTable ABBR_TO_STATE ((pyStrip s).map upperChar) with
         | some full => if mode = "abbr".data then (pyStrip s).map upperChar
             else pyTitle full
         | none => []) := rfl

/-- `clean_state` is idempotent for every mode string. -/
theorem clean_state_idem (v : Cell) (mode : Str) :
    clean_state (some (clean_state v mode)) mode = clean_state v mode := by
  have hblank : clean_state (some []) mode = [] := by
    rw [clean_state_eq,
      show lookupTable STATE_TO_ABBR ((pyStrip ([] : Str)).map upperChar) = none
        from by decide,
      show lookupTable ABBR_TO_STATE ((pyStrip ([] : Str)).map upperChar) = none
        from by decide]
  cases v with
  | none => exact hblank
  | some s =>
    rw [clean_state_eq s mode]
    cases hl1 : lookupTable STATE_TO_ABBR ((pyStrip s).map upperChar) with
    | some abbr =>
      rcases lookupTable_some _ _ _ hl1 with ⟨e, he, hk, hr⟩
      obtain ⟨hab_none, hab_some, habfix, hfull_some, hfullfix⟩ :=
        state_table_facts e he
      dsimp only []
      by_cases hm : mode = "abbr".data
      · rw [if_pos hm, ← hr]
        rw [clean_state_eq, hab_none, hab_some]
        dsimp only []
        rw [if_pos hm]
        exact habfix
      · rw [if_neg hm, ← hk]
        rw [clean_state_eq, hfull_some]
        dsimp only []
        rw [if_neg hm, hfullfix]
    | none =>
      cases hl2 : lookupTable ABBR_TO_STATE ((pyStrip s).map upperChar) with
      | none => exact hblank
      | some full =>
        rcases lookupTable_some _ _ _ hl2 with ⟨e', he', hk, hr⟩
        rcases List.mem_map.mp he' with ⟨e, he, hswap⟩
        have hk2 : e.2 = (pyStrip s).map upperChar := by
          rw [← hswap] at hk
          exact hk
        have hr2 : e.1 = full := by
          rw [← hswap] at hr
          exact hr
        obtain ⟨hab_none, hab_some, habfix, hfull_some, hfullfix⟩ :=
          state_table_facts e he
        dsimp only []
        by_cases hm : mode = "abbr".data
        · rw [if_pos hm, ← hk2]
          rw [clean_state_eq, hab_none, hab_some]
          dsimp only []
          rw [if_pos hm]
          exact habfix
        · rw [if_neg hm, ← hr2]
          rw [clean_state_eq, hfull_some]
          dsimp only []
          rw [if_neg hm, hfullfix]

/-! ## Idempotence of `clean_email.py` -/

/-- A domain-class character is also a local-class character. -/
theorem emailDomChar_local (c : Char) (h : emailDomChar c = true) :
    emailLocalChar c = true := by
  unfold emailDomChar at h
  unfold emailLocalChar
  simp only [Bool.or_eq_true] at h ⊢
  rcases h with ((h|h)|h)|h
  · exact Or.inl (Or.inl (Or.inl (Or.inl (Or.inl (Or.inl h)))))
  · exact Or.inl (Or.inl (Or.inl (Or.inl (Or.inl (Or.inr h)))))
  · exact Or.inl (Or.inl (Or.inl (Or.inl (Or.inr h))))
  · exact Or.inr h

/-- A lowercase letter is a local-class character. -/
theorem lower_emailLocal (c : Char) (h : isLowerAscii c = true) :
    emailLocalChar c = true := by
  unfold emailLocalChar
  simp only [Bool.or_eq_true]
  exact Or.inl (Or.inl (Or.inl (Or.inl (Or.inl (Or.inl h)))))

/-- Characters of a matched e-mail address avoid everything the cleaning
steps remove. -/
theorem email_char_facts (c : Char) (h : (emailLocalChar c || c = '@') = true) :
    pyWs c = false ∧ c ≠ ' ' ∧ c ≠ ';' ∧ c ≠ ',' ∧ c ≠ '<' ∧ c ≠ ':' := by
  refine ⟨?_, ?_, ?_, ?_, ?_, ?_⟩
  · cases hw : pyWs c with
    | false => rfl
    | true =>
      exfalso
      unfold pyWs at hw
      simp only [Bool.or_eq_true, decide_eq_true_eq] at hw
      rcases hw with ((((hw|hw)|hw)|hw)|hw)|hw <;> rw [hw] at h <;>
        exact absurd h (by decide)
  · intro hc; rw [hc] at h; exact absurd h (by decide)
  · intro hc; rw [hc] at h; exact absurd h (by decide)
  · intro hc; rw [hc] at h; exact absurd h (by decide)
  · intro hc; rw [hc] at h; exact absurd h (by decide)
  · intro hc; rw [hc] at h; exact absurd h (by decide)

/-- A character allowed in a matched e-mail address is fixed by `lowerChar`. -/
theorem email_lowerChar_fix (c : Char) (h : (emailLocalChar c || c = '@') = true) :
    lowerChar c = c := by
  unfold lowerChar
  by_cases g1 : c = 'A'
  · rw [g1] at h; exact absurd h (by decide)
  rw [if_neg g1]
  by_cases g2 : c = 'B'
  · rw [g2] at h; exact absurd h (by decide)
  rw [if_neg g2]
  by_cases g3 : c = 'C'
  · rw [g3] at h; exact absurd h (by decide)
  rw [if_neg g3]
  by_cases g4 : c = 'D'
  · rw [g4] at h; exact absurd h (by decide)
  rw [if_neg g4]
  by_cases g5 : c = 'E'
  · rw [g5] at h; exact absurd h (by decide)
  rw [if_neg g5]
  by_cases g6 : c = 'F'
  · rw [g6] at h; exact absurd h (by decide)
  rw [if_neg g6]
  by_cases g7 : c = 'G'
  · rw [g7] at h; exact absurd h (by decide)
  rw [if_neg g7]
  by_cases g8 : c = 'H'
  · rw [g8] at h; exact absurd h (by decide)
  rw [if_neg g8]
  by_cases g9 : c = 'I'
  · rw [g9] at h; exact absurd h (by decide)
  rw [if_neg g9]
  by_cases g10 : c = 'J'
  · rw [g10] at h; exact absurd h (by decide)
  rw [if_neg g10]
  by_cases g11 : c = 'K'
  · rw [g11] at h; exact absurd h (by decide)
  rw [if_neg g11]
  by_cases g12 : c = 'L'
  · rw [g12] at h; exact absurd h (by decide)
  rw [if_neg g12]
  by_cases g13 : c = 'M'
  · rw [g13] at h; exact absurd h (by decide)
  rw [if_neg g13]
  by_cases g14 : c = 'N'
  · rw [g14] at h; exact absurd h (by decide)
  rw [if_neg g14]
  by_cases g15 : c = 'O'
  · rw [g15] at h; exact absurd h (by decide)
  rw [if_neg g15]
  by_cases g16 : c = 'P'
  · rw [g16] at h; exact absurd h (by decide)
  rw [if_neg g16]
  by_cases g17 : c = 'Q'
  · rw [g17] at h; exact absurd h (by decide)
  rw [if_neg g17]
  by_cases g18 : c = 'R'
  · rw [g18] at h; exact absurd h (by decide)
  rw [if_neg g18]
  by_cases g19 : c = 'S'
  · rw [g19] at h; exact absurd h (by decide)
  rw [if_neg g19]
  by_cases g20 : c = 'T'
  · rw [g20] at h; exact absurd h (by decide)
  rw [if_neg g20]
  by_cases g21 : c = 'U'
  · rw [g21] at h; exact absurd h (by decide)
  rw [if_neg g21]
  by_cases g22 : c = 'V'
  · rw [g22] at h; exact absurd h (by decide)
  rw [if_neg g22]
  by_cases g23 : c = 'W'
  · rw [g23] at h; exact absurd h (by decide)
  rw [if_neg g23]
  by_cases g24 : c = 'X'
  · rw [g24] at h; exact absurd h (by decide)
  rw [if_neg g24]
  by_cases g25 : c = 'Y'
  · rw [g25] at h; exact absurd h (by decide)
  rw [if_neg g25]
  by_cases g26 : c = 'Z'
  · rw [g26] at h; exact absurd h (by decide)
  rw [if_neg g26]

/-- `re.search(r"<([^>]+)>")` finds nothing in a `<`-free string. -/
theorem searchAngle_none (s : Str) (h : '<' ∉ s) : searchAngle s = none := by
  induction s with
  | nil => rfl
  | cons c t ih =>
    have hc : c ≠ '<' := fun hceq => h (by rw [← hceq]; exact List.mem_cons_self c t)
    have ht : '<' ∉ t := fun hmem => h (List.mem_cons_of_mem c hmem)
    unfold searchAngle
    split
    · rfl
    · rename_i rest heq
      injection heq with h1 _
      exact absurd h1 hc
    · rename_i c2 rest hlt heq
      injection heq with _ h2
      rw [← h2]
      exact ih ht

/-- Mapping a pointwise-fixing function is the identity. -/
theorem map_id_of_fix (f : Char → Char) (l : Str) (h : ∀ c ∈ l, f c = c) :
    l.map f = l := by
  induction l with
  | nil => rfl
  | cons a t ih =>
    rw [List.map_cons, h a (List.mem_cons_self a t),
      ih (fun c hc => h c (List.mem_cons_of_mem a hc))]

/-- Every character of a string accepted by `EMAIL_REGEX` lies in the local
class or is the `@` separator. -/
theorem emailRegexMatch_chars (s : Str) (h : emailRegexMatch s = true) :
    ∀ c ∈ s, (emailLocalChar c || c = '@') = true := by
  unfold emailRegexMatch at h
  dsimp only [] at h
  cases hdrop : s.dropWhile (· ≠ '@') with
  | nil =>
    rw [hdrop] at h
    exact absurd h Bool.false_ne_true
  | cons a R =>
    have ha : a = '@' := by
      have h0 := head_dropWhile_not (· ≠ '@') s a (by rw [hdrop]; rfl)
      have h1 : ¬(a ≠ '@') := of_decide_eq_false h0
      exact not_not.mp h1
    subst ha
    rw [hdrop] at h
    have h' : (!(s.takeWhile (· ≠ '@')).isEmpty &&
        (s.takeWhile (· ≠ '@')).all emailLocalChar &&
        (match R.reverse.dropWhile (· ≠ '.') with
         | '.' :: Mrev =>
           !Mrev.isEmpty && Mrev.all emailDomChar &&
           decide (2 ≤ (R.reverse.takeWhile (· ≠ '.')).length) &&
           (R.reverse.takeWhile (· ≠ '.')).all isLowerAscii
         | _ => false)) = true := h
    rw [Bool.and_eq_true, Bool.and_eq_true] at h'
    obtain ⟨⟨_, hLall⟩, hinner⟩ := h'
    cases hdrop2 : R.reverse.dropWhile (· ≠ '.') with
    | nil =>
      rw [hdrop2] at hinner
      exact absurd hinner Bool.false_ne_true
    | cons b Mrev =>
      have hb : b = '.' := by
        have h0 := head_dropWhile_not (· ≠ '.') R.reverse b (by rw [hdrop2]; rfl)
        have h1 : ¬(b ≠ '.') := of_decide_eq_false h0
        exact not_not.mp h1
      subst hb
      rw [hdrop2] at hinner
      have hinner' : (!Mrev.isEmpty && Mrev.all emailDomChar &&
          decide (2 ≤ (R.reverse.takeWhile (· ≠ '.')).length) &&
          (R.reverse.takeWhile (· ≠ '.')).all isLowerAscii) = true := hinner
      rw [Bool.and_eq_true, Bool.and_eq_true, Bool.and_eq_true] at hinner'
      obtain ⟨⟨⟨_, hMall⟩, _⟩, hTall⟩ := hinner'
      have hs : s = s.takeWhile (· ≠ '@') ++ '@' :: R := by
        rw [← hdrop]
        exact (List.takeWhile_append_dropWhile _ _).symm
      intro c hc
      rw [hs] at hc
      rcases List.mem_append.mp hc with hcL | hcR
      · rw [Bool.or_eq_true]
        exact Or.inl (List.all_eq_true.mp hLall c hcL)
      · rcases List.mem_cons.mp hcR with hceq | hcR2
        · rw [hceq]; decide
        · have hcRrev : c ∈ R.reverse := List.mem_reverse.mpr hcR2
          have hRrev : R.reverse = R.reverse.takeWhile (· ≠ '.') ++ '.' :: Mrev := by
            rw [← hdrop2]
            exact (List.takeWhile_append_dropWhile _ _).symm
          rw [hRrev] at hcRrev
          rcases List.mem_append.mp hcRrev with hT | hM
          · rw [Bool.or_eq_true]
            exact Or.inl (lower_emailLocal c (List.all_eq_true.mp hTall c hT))
          · rcases List.mem_cons.mp hM with hceq | hM2
            · rw [hceq]; decide
            · rw [Bool.or_eq_true]
              exact Or.inl (emailDomChar_local c (List.all_eq_true.mp hMall c hM2))

/-- The accept-or-blank shape of the final regex gate. -/
theorem if_match_shape (S : Str) :
    (if emailRegexMatch S then S else []) = [] ∨
    emailRegexMatch (if emailRegexMatch S then S else []) = true := by
  by_cases hm : emailRegexMatch S = true
  · rw [if_pos hm]
    exact Or.inr hm
  · rw [if_neg hm]
    exact Or.inl rfl

/-- `extract_email` always yields the empty string or a regex-accepted
address. -/
theorem extract_email_shape (v : Cell) :
    extract_email v = [] ∨ emailRegexMatch (extract_email v) = true := by
  cases v with
  | none => exact Or.inl rfl
  | some raw =>
    by_cases h1 : pyStrip raw = []
    · refine Or.inl ?_
      unfold extract_email
      dsimp only []
      rw [if_pos h1]
    · unfold extract_email
      dsimp only []
      rw [if_neg h1]
      exact if_match_shape _

/-- `extract_email` fixes every regex-accepted address. -/
theorem extract_email_fix (e : Str) (hm : emailRegexMatch e = true) :
    extract_email (some e) = e := by
  have hchars := emailRegexMatch_chars e hm
  have hfacts : ∀ c ∈ e, pyWs c = false ∧ c ≠ ' ' ∧ c ≠ ';' ∧ c ≠ ',' ∧
      c ≠ '<' ∧ c ≠ ':' := fun c hc => email_char_facts c (hchars c hc)
  have hne : e ≠ [] := by
    intro he
    rw [he] at hm
    exact absurd hm (by decide)
  have hstrip : pyStrip e = e := pyStrip_eq_self e (fun c hc => (hfacts c hc).1)
  have hlower : e.map lowerChar = e :=
    map_id_of_fix lowerChar e (fun c hc => email_lowerChar_fix c (hchars c hc))
  have hmailto : ("mailto:".data).isPrefixOf e = false := by
    cases hp : ("mailto:".data).isPrefixOf e with
    | false => rfl
    | true =>
      exfalso
      have hpre : "mailto:".data <+: e := List.isPrefixOf_iff_prefix.mp hp
      have hcol : ':' ∈ e := hpre.subset (by decide)
      exact (hfacts ':' hcol).2.2.2.2.2 rfl
  have hangle : searchAngle e = none :=
    searchAngle_none e (fun hmem => (hfacts '<' hmem).2.2.2.2.1 rfl)
  have hfilter : e.filter (fun c => !(c = ' ' || c = ';' || c = ',')) = e := by
    refine List.filter_eq_self.mpr (fun c hc => ?_)
    show (!(c = ' ' || c = ';' || c = ',')) = true
    rw [decide_eq_false ((hfacts c hc).2.1), decide_eq_false ((hfacts c hc).2.2.1),
      decide_eq_false ((hfacts c hc).2.2.2.1)]
    rfl
  unfold extract_email
  dsimp only []
  rw [hstrip, if_neg hne, hlower, hmailto, if_neg (by decide : ¬(false = true)),
    hangle]
  dsimp only []
  rw [hfilter, hlower, if_pos hm]

/-- `extract_email` is idempotent. -/
theorem extract_email_idem (v : Cell) :
    extract_email (some (extract_email v)) = extract_email v := by
  rcases extract_email_shape v with h | h
  · rw [h]
    rfl
  · rw [extract_email_fix (extract_email v) h]

/-! ## Idempotence of `clean_number.py`: decimal-string toolkit -/

/-- The digit character of a digit value is an ASCII digit. -/
theorem digitCharOf_digit (d : Nat) (hd : d < 10) :
    isDigitAscii (digitCharOf d) = true := by
  interval_cases d <;> decide

/-- The digit value of a digit character round-trips. -/
theorem digitVal_digitCharOf (d : Nat) (hd : d < 10) :
    digitVal (digitCharOf d) = d := by
  interval_cases d <;> decide

/-- All characters produced by `natToStrAux` are digits. -/
theorem natToStrAux_digits (fuel : Nat) :
    ∀ n, ∀ c ∈ natToStrAux fuel n, isDigitAscii c = true := by
  induction fuel with
  | zero =>
    intro n c hc
    exact absurd hc (by simp [natToStrAux])
  | succ f ih =>
    intro n c hc
    unfold natToStrAux at hc
    by_cases hn : n = 0
    · rw [if_pos hn] at hc
      exact absurd hc (by simp)
    · rw [if_neg hn] at hc
      rcases List.mem_append.mp hc with h | h
      · exact ih (n / 10) c h
      · rw [List.mem_singleton.mp h]
        exact digitCharOf_digit (n % 10) (Nat.mod_lt n (by decide))

/-- All characters of `str(n)` are digits. -/
theorem natToStr_digits (n : Nat) : ∀ c ∈ natToStr n, isDigitAscii c = true := by
  intro c hc
  unfold natToStr at hc
  by_cases hn : n = 0
  · rw [if_pos hn] at hc
    rw [List.mem_singleton.mp hc]
    decide
  · rw [if_neg hn] at hc
    exact natToStrAux_digits (n + 1) n c hc

/-- `str(n)` is never empty. -/
theorem natToStr_ne_nil (n : Nat) : natToStr n ≠ [] := by
  unfold natToStr
  by_cases hn : n = 0
  · rw [if_pos hn]
    exact List.cons_ne_nil _ _
  · rw [if_neg hn]
    show natToStrAux (n + 1) n ≠ []
    unfold natToStrAux
    rw [if_neg hn]
    intro hcon
    exact List.cons_ne_nil _ _ (List.append_eq_nil.mp hcon).2

/-- Evaluating the digit fold from an arbitrary accumulator. -/
theorem digitsToNat_foldl (b : Str) : ∀ acc : Nat,
    b.foldl (fun acc c => 10 * acc + digitVal c) acc =
      acc * 10 ^ b.length + digitsToNat b := by
  induction b with
  | nil =>
    intro acc
    show acc = acc * 10 ^ 0 + 0
    ring
  | cons c t ih =>
    intro acc
    show t.foldl (fun acc c => 10 * acc + digitVal c) (10 * acc + digitVal c) =
      acc * 10 ^ (t.length + 1) + digitsToNat (c :: t)
    rw [ih (10 * acc + digitVal c),
      show digitsToNat (c :: t) =
        t.foldl (fun acc c => 10 * acc + digitVal c) (10 * 0 + digitVal c) from rfl,
      ih (10 * 0 + digitVal c)]
    ring

/-- The digit fold over a concatenation. -/
theorem digitsToNat_append (a b : Str) :
    digitsToNat (a ++ b) = digitsToNat a * 10 ^ b.length + digitsToNat b := by
  show (a ++ b).foldl (fun acc c => 10 * acc + digitVal c) 0 = _
  rw [List.foldl_append]
  exact digitsToNat_foldl b _

/-- Leading zeroes do not change the digit value. -/
theorem digitsToNat_replicate_zero (k : Nat) :
    digitsToNat (List.replicate k '0') = 0 := by
  induction k with
  | zero => rfl
  | succ m ih =>
    rw [List.replicate_succ,
      show digitsToNat ('0' :: List.replicate m '0') =
        (List.replicate m '0').foldl (fun acc c => 10 * acc + digitVal c)
          (10 * 0 + digitVal '0') from rfl,
      digitsToNat_foldl]
    rw [ih]
    show (10 * 0 + digitVal '0') * 10 ^ (List.replicate m '0').length + 0 = 0
    rw [show digitVal '0' = 0 from rfl]
    ring

/-- `natToStrAux` renders a number below its fuel bound faithfully. -/
theorem digitsToNat_natToStrAux (fuel : Nat) :
    ∀ n, n < 10 ^ fuel → digitsToNat (natToStrAux fuel n) = n := by
  induction fuel with
  | zero =>
    intro n hn
    have hn0 : n = 0 := Nat.lt_one_iff.mp hn
    rw [hn0]
    rfl
  | succ f ih =>
    intro n hn
    unfold natToStrAux
    by_cases h0 : n = 0
    · rw [if_pos h0, h0]
      rfl
    · rw [if_neg h0, digitsToNat_append,
        ih (n / 10) (by
          rw [Nat.div_lt_iff_lt_mul (by decide : 0 < 10)]
          calc n < 10 ^ (f + 1) := hn
            _ = 10 ^ f * 10 := by rw [Nat.pow_succ]),
        show (List.length [digitCharOf (n % 10)]) = 1 from rfl,
        show digitsToNat [digitCharOf (n % 10)] =
          0 + digitVal (digitCharOf (n % 10)) from rfl,
        digitVal_digitCharOf (n % 10) (Nat.mod_lt n (by decide)), pow_one]
      omega

/-- `int(str(n)) = n`. -/
theorem digitsToNat_natToStr (n : Nat) : digitsToNat (natToStr n) = n := by
  unfold natToStr
  by_cases hn : n = 0
  · rw [if_pos hn, hn]
    rfl
  · rw [if_neg hn]
    refine digitsToNat_natToStrAux (n + 1) n ?_
    calc n < 10 ^ n := Nat.lt_pow_self (by decide) n
      _ ≤ 10 ^ (n + 1) := Nat.pow_le_pow_right (by decide) (Nat.le_succ n)

/-- A digit-or-dot character is not Python whitespace. -/
theorem digitOrDot_not_ws (c : Char) (h : (isDigitAscii c || c = '.') = true) :
    pyWs c = false := by
  cases hw : pyWs c with
  | false => rfl
  | true =>
    exfalso
    unfold pyWs at hw
    simp only [Bool.or_eq_true, decide_eq_true_eq] at hw
    rcases hw with ((((hw|hw)|hw)|hw)|hw)|hw <;> rw [hw] at h <;>
      exact absurd h (by decide)

/-- The pipeline facts of a rendered natural number: `extract_number` fixes
it and `float(...)` recovers its value. -/
theorem natToStr_parse (m : Nat) (hle : (m : ℚ) ≤ DBL_MAX_NUM) :
    extract_number (some (natToStr m)) = natToStr m ∧
    pyFloatOfStr (natToStr m) = some (.finite ((m : ℚ))) := by
  have hdig := natToStr_digits m
  have hdd : ∀ c ∈ natToStr m, (isDigitAscii c || c = '.') = true := by
    intro c hc
    rw [hdig c hc]
    rfl
  have hstrip : pyStrip (natToStr m) = natToStr m :=
    pyStrip_eq_self _ (fun c hc => digitOrDot_not_ws c (hdd c hc))
  have hne := natToStr_ne_nil m
  have hfilter : (natToStr m).filter (fun c => isDigitAscii c || c = '.') =
      natToStr m :=
    List.filter_eq_self.mpr (fun c hc => hdd c hc)
  have hcount : (natToStr m).count '.' = 0 :=
    List.count_eq_zero.mpr (fun hmem => absurd (hdig '.' hmem) (by decide))
  have hextract : extract_number (some (natToStr m)) = natToStr m := by
    unfold extract_number
    dsimp only []
    rw [hstrip, if_neg hne, hfilter, hcount, if_neg (by decide : ¬(2 ≤ 0))]
  have htw : (natToStr m).takeWhile isDigitAscii = natToStr m :=
    takeWhile_all _ _ hdig
  have hdw : (natToStr m).dropWhile isDigitAscii = [] := dropWhile_all _ _ hdig
  have hcond : ((natToStr m).all (fun c => isDigitAscii c || c = '.') &&
      (natToStr m).count '.' ≤ 1 && (natToStr m).any isDigitAscii) = true := by
    rw [Bool.and_eq_true, Bool.and_eq_true]
    refine ⟨⟨List.all_eq_true.mpr hdd, ?_⟩, ?_⟩
    · rw [hcount]
      rfl
    · cases hns : natToStr m with
      | nil => exact absurd hns hne
      | cons a t =>
        refine List.any_eq_true.mpr ⟨a, List.mem_cons_self a t, ?_⟩
        exact hdig a (by rw [hns]; exact List.mem_cons_self a t)
  have hparts : pyFloatParts (natToStr m) =
      some (digitsToNat (natToStr m), 0, 0) := by
    unfold pyFloatParts
    dsimp only []
    rw [if_pos hcond, htw, hdw]
    rfl
  have hq : ((digitsToNat (natToStr m) : ℕ) : ℚ) + ((0:ℕ) : ℚ) / (10:ℚ) ^ (0:ℕ) =
      (m : ℚ) := by
    rw [digitsToNat_natToStr]
    norm_num
  have hpf : pyFloatOfStr (natToStr m) = some (.finite ((m : ℚ))) := by
    unfold pyFloatOfStr
    rw [hparts]
    dsimp only []
    rw [hq, if_neg (not_lt.mpr hle)]
  exact ⟨hextract, hpf⟩

/-- The pipeline facts of a fixed-point decimal rendering `A ++ "." ++ B`:
`extract_number` fixes it and `float(...)` recovers its value. -/
theorem formatFixed_block (p : Nat) (ds2 : Str)
    (hdig : ∀ c ∈ ds2, isDigitAscii c = true) (hlen : p < ds2.length)
    (hle : ((digitsToNat ds2 : ℚ)) / 10 ^ p ≤ DBL_MAX_NUM) :
    (ds2.take (ds2.length - p) ++ '.' :: ds2.drop (ds2.length - p)) ≠ [] ∧
    extract_number
        (some (ds2.take (ds2.length - p) ++ '.' :: ds2.drop (ds2.length - p))) =
      ds2.take (ds2.length - p) ++ '.' :: ds2.drop (ds2.length - p) ∧
    pyFloatOfStr (ds2.take (ds2.length - p) ++ '.' :: ds2.drop (ds2.length - p)) =
      some (.finite ((digitsToNat ds2 : ℚ) / 10 ^ p)) := by
  have hA_dig : ∀ c ∈ ds2.take (ds2.length - p), isDigitAscii c = true :=
    fun c hc => hdig c (List.mem_of_mem_take hc)
  have hB_dig : ∀ c ∈ ds2.drop (ds2.length - p), isDigitAscii c = true :=
    fun c hc => hdig c (List.mem_of_mem_drop hc)
  have hAB : ds2.take (ds2.length - p) ++ ds2.drop (ds2.length - p) = ds2 :=
    List.take_append_drop _ _
  have hBlen : (ds2.drop (ds2.length - p)).length = p := by
    rw [List.length_drop]
    omega
  have hAlen : (ds2.take (ds2.length - p)).length = ds2.length - p := by
    rw [List.length_take]
    omega
  have hAne : ds2.take (ds2.length - p) ≠ [] := by
    intro hcon
    have hl0 : (ds2.take (ds2.length - p)).length = 0 := by
      rw [hcon]
      rfl
    rw [hAlen] at hl0
    omega
  have hoch : ∀ c ∈ ds2.take (ds2.length - p) ++ '.' :: ds2.drop (ds2.length - p),
      (isDigitAscii c || c = '.') = true := by
    intro c hc
    rcases List.mem_append.mp hc with h | h
    · rw [hA_dig c h]
      rfl
    · rcases List.mem_cons.mp h with h | h
      · rw [h]
        decide
      · rw [hB_dig c h]
        rfl
  have h1ne : ds2.take (ds2.length - p) ++ '.' :: ds2.drop (ds2.length - p) ≠ [] := by
    intro hcon
    exact List.cons_ne_nil '.' _ (List.append_eq_nil.mp hcon).2
  have hstrip : pyStrip (ds2.take (ds2.length - p) ++ '.' ::
      ds2.drop (ds2.length - p)) =
      ds2.take (ds2.length - p) ++ '.' :: ds2.drop (ds2.length - p) :=
    pyStrip_eq_self _ (fun c hc => digitOrDot_not_ws c (hoch c hc))
  have hfilter : (ds2.take (ds2.length - p) ++ '.' ::
      ds2.drop (ds2.length - p)).filter (fun c => isDigitAscii c || c = '.') =
      ds2.take (ds2.length - p) ++ '.' :: ds2.drop (ds2.length - p) :=
    List.filter_eq_self.mpr (fun c hc => hoch c hc)
  have hcA : (ds2.take (ds2.length - p)).count '.' = 0 :=
    List.count_eq_zero.mpr (fun hm => absurd (hA_dig '.' hm) (by decide))
  have hcB : (ds2.drop (ds2.length - p)).count '.' = 0 :=
    List.count_eq_zero.mpr (fun hm => absurd (hB_dig '.' hm) (by decide))
  have hcount : (ds2.take (ds2.length - p) ++ '.' ::
      ds2.drop (ds2.length - p)).count '.' = 1 := by
    rw [List.count_append, List.count_cons_self, hcA, hcB]
  have hextract : extract_number (some (ds2.take (ds2.length - p) ++ '.' ::
      ds2.drop (ds2.length - p))) =
      ds2.take (ds2.length - p) ++ '.' :: ds2.drop (ds2.length - p) := by
    unfold extract_number
    dsimp only []
    rw [hstrip, if_neg h1ne, hfilter, hcount, if_neg (by decide : ¬(2 ≤ 1))]
  have htw : (ds2.take (ds2.length - p) ++ '.' ::
      ds2.drop (ds2.length - p)).takeWhile isDigitAscii =
      ds2.take (ds2.length - p) := by
    rw [takeWhile_append_all _ _ _ hA_dig,
      takeWhile_head_false _ _ _ (by decide : isDigitAscii '.' = false),
      List.append_nil]
  have hdw : (ds2.take (ds2.length - p) ++ '.' ::
      ds2.drop (ds2.length - p)).dropWhile isDigitAscii =
      '.' :: ds2.drop (ds2.length - p) := by
    rw [dropWhile_append_all _ _ _ hA_dig,
      dropWhile_head_false _ _ _ (by decide : isDigitAscii '.' = false)]
  have hany : (ds2.take (ds2.length - p) ++ '.' ::
      ds2.drop (ds2.length - p)).any isDigitAscii = true := by
    cases hA : ds2.take (ds2.length - p) with
    | nil => exact absurd hA hAne
    | cons a t =>
      refine List.any_eq_true.mpr ⟨a, List.mem_append_left _
        (List.mem_cons_self a t), ?_⟩
      exact hA_dig a (by rw [hA]; exact List.mem_cons_self a t)
  have hcond : ((ds2.take (ds2.length - p) ++ '.' ::
      ds2.drop (ds2.length - p)).all (fun c => isDigitAscii c || c = '.') &&
      (ds2.take (ds2.length - p) ++ '.' ::
      ds2.drop (ds2.length - p)).count '.' ≤ 1 &&
      (ds2.take (ds2.length - p) ++ '.' ::
      ds2.drop (ds2.length - p)).any isDigitAscii) = true := by
    rw [Bool.and_eq_true, Bool.and_eq_true]
    refine ⟨⟨List.all_eq_true.mpr hoch, ?_⟩, hany⟩
    rw [hcount]
    rfl
  have hparts : pyFloatParts (ds2.take (ds2.length - p) ++ '.' ::
      ds2.drop (ds2.length - p)) =
      some (digitsToNat (ds2.take (ds2.length - p)),
        digitsToNat (ds2.drop (ds2.length - p)), p) := by
    unfold pyFloatParts
    dsimp only []
    rw [if_pos hcond, htw, hdw]
    show some (digitsToNat (ds2.take (ds2.length - p)),
      digitsToNat (ds2.drop (ds2.length - p)),
      (ds2.drop (ds2.length - p)).length) = _
    rw [hBlen]
  have hval : ((digitsToNat (ds2.take (ds2.length - p)) : ℕ) : ℚ) +
      ((digitsToNat (ds2.drop (ds2.length - p)) : ℕ) : ℚ) / (10:ℚ) ^ p =
      ((digitsToNat ds2 : ℚ)) / 10 ^ p := by
    have h1 : digitsToNat (ds2.take (ds2.length - p) ++
        ds2.drop (ds2.length - p)) =
        digitsToNat (ds2.take (ds2.length - p)) * 10 ^ p +
        digitsToNat (ds2.drop (ds2.length - p)) := by
      rw [digitsToNat_append, hBlen]
    rw [hAB] at h1
    rw [h1]
    push_cast
    rw [add_div]
    congr 1
    exact (mul_div_cancel_right₀ _ (by positivity : ((10:ℚ) ^ p) ≠ 0)).symm
  have hpf : pyFloatOfStr (ds2.take (ds2.length - p) ++ '.' ::
      ds2.drop (ds2.length - p)) =
      some (.finite ((digitsToNat ds2 : ℚ) / 10 ^ p)) := by
    unfold pyFloatOfStr
    rw [hparts]
    dsimp only []
    rw [hval, if_neg (not_lt.mpr hle)]
  exact ⟨h1ne, hextract, hpf⟩

/-- The canonical fixed-point rendering `formatFixed p (m / 10^p)` survives
the extract-parse pipeline with its exact value. -/
theorem formatFixed_fix (p m : Nat) (hle : ((m : ℚ)) / 10 ^ p ≤ DBL_MAX_NUM) :
    formatFixed p ((m : ℚ) / 10 ^ p) ≠ [] ∧
    extract_number (some (formatFixed p ((m : ℚ) / 10 ^ p))) =
      formatFixed p ((m : ℚ) / 10 ^ p) ∧
    pyFloatOfStr (formatFixed p ((m : ℚ) / 10 ^ p)) =
      some (.finite ((m : ℚ) / 10 ^ p)) := by
  have hn : (⌊(m : ℚ) / 10 ^ p * 10 ^ p + 1 / 2⌋) = (m : ℤ) := by
    rw [div_mul_cancel₀ _ (by positivity : ((10:ℚ) ^ p) ≠ 0)]
    have h2 : ((m:ℚ)) + 1 / 2 = ((m:ℤ):ℚ) + 1 / 2 := by push_cast; ring
    rw [h2, Int.floor_int_add]
    have h3 : ⌊(1 / 2 : ℚ)⌋ = 0 := by
      apply Int.floor_eq_zero_iff.mpr
      rw [Set.mem_Ico]
      norm_num
    rw [h3, add_zero]
  by_cases hp0 : p = 0
  · subst hp0
    have hout : formatFixed 0 ((m:ℚ) / 10 ^ (0:ℕ)) = natToStr m := by
      unfold formatFixed
      dsimp only []
      rw [hn, Int.toNat_natCast, if_pos rfl]
    have hle2 : ((m:ℚ)) ≤ DBL_MAX_NUM := by
      have h4 : ((m:ℚ)) / 10 ^ (0:ℕ) = (m:ℚ) := by norm_num
      rw [h4] at hle
      exact hle
    obtain ⟨hex, hpf⟩ := natToStr_parse m hle2
    rw [hout]
    refine ⟨natToStr_ne_nil m, hex, ?_⟩
    rw [hpf]
    have h4 : ((m:ℚ)) / 10 ^ (0:ℕ) = (m:ℚ) := by norm_num
    rw [h4]
  · have hds_dig : ∀ c ∈ (if (natToStr m).length ≤ p
        then List.replicate (p + 1 - (natToStr m).length) '0' ++ natToStr m
        else natToStr m), isDigitAscii c = true := by
      intro c hc
      by_cases hl : (natToStr m).length ≤ p
      · rw [if_pos hl] at hc
        rcases List.mem_append.mp hc with h | h
        · rw [List.eq_of_mem_replicate h]
          decide
        · exact natToStr_digits m c h
      · rw [if_neg hl] at hc
        exact natToStr_digits m c hc
    have hds_len : p < (if (natToStr m).length ≤ p
        then List.replicate (p + 1 - (natToStr m).length) '0' ++ natToStr m
        else natToStr m).length := by
      have hnn : 1 ≤ (natToStr m).length := by
        cases hns : natToStr m with
        | nil => exact absurd hns (natToStr_ne_nil m)
        | cons a t => rw [List.length_cons]; omega
      by_cases hl : (natToStr m).length ≤ p
      · rw [if_pos hl, List.length_append, List.length_replicate]
        omega
      · rw [if_neg hl]
        omega
    have hds_val : digitsToNat (if (natToStr m).length ≤ p
        then List.replicate (p + 1 - (natToStr m).length) '0' ++ natToStr m
        else natToStr m) = m := by
      by_cases hl : (natToStr m).length ≤ p
      · rw [if_pos hl, digitsToNat_append, digitsToNat_replicate_zero,
          digitsToNat_natToStr]
        ring
      · rw [if_neg hl]
        exact digitsToNat_natToStr m
    have hle2 : ((digitsToNat (if (natToStr m).length ≤ p
        then List.replicate (p + 1 - (natToStr m).length) '0' ++ natToStr m
        else natToStr m) : ℕ) : ℚ) / 10 ^ p ≤ DBL_MAX_NUM := by
      rw [hds_val]
      exact hle
    obtain ⟨h1, h2, h3⟩ := formatFixed_block p _ hds_dig hds_len hle2
    rw [hds_val] at h3
    have hout : formatFixed p ((m:ℚ) / 10 ^ p) =
        ((if (natToStr m).length ≤ p
          then List.replicate (p + 1 - (natToStr m).length) '0' ++ natToStr m
          else natToStr m).take ((if (natToStr m).length ≤ p
          then List.replicate (p + 1 - (natToStr m).length) '0' ++ natToStr m
          else natToStr m).length - p)) ++ '.' :: ((if (natToStr m).length ≤ p
          then List.replicate (p + 1 - (natToStr m).length) '0' ++ natToStr m
          else natToStr m).drop ((if (natToStr m).length ≤ p
          then List.replicate (p + 1 - (natToStr m).length) '0' ++ natToStr m
          else natToStr m).length - p)) := by
      unfold formatFixed
      dsimp only []
      rw [hn, Int.toNat_natCast, if_neg hp0]
    rw [hout]
    exact ⟨h1, h2, h3⟩

/-- A finite parse result is a nonnegative value within `DBL_MAX`. -/
theorem pyFloatOfStr_finite_bounds (s : Str) (q : ℚ)
    (h : pyFloatOfStr s = some (.finite q)) : 0 ≤ q ∧ q ≤ DBL_MAX_NUM := by
  unfold pyFloatOfStr at h
  cases hp : pyFloatParts s with
  | none =>
    rw [hp] at h
    exact Option.noConfusion h
  | some t =>
    obtain ⟨i, f, k⟩ := t
    rw [hp] at h
    have h2 : (if DBL_MAX_NUM < (i : ℚ) + (f : ℚ) / 10 ^ k then PyFloat.inf
        else PyFloat.finite ((i : ℚ) + (f : ℚ) / 10 ^ k)) = PyFloat.finite q :=
      Option.some.inj h
    by_cases hq : DBL_MAX_NUM < (i : ℚ) + (f : ℚ) / 10 ^ k
    · rw [if_pos hq] at h2
      exact PyFloat.noConfusion h2
    · rw [if_neg hq] at h2
      have hq2 : (i : ℚ) + (f : ℚ) / 10 ^ k = q := by
        injection h2
      constructor
      · rw [← hq2]
        positivity
      · rw [← hq2]
        exact not_lt.mp hq

/-- Unfolding of `convert_number` on a nonempty value. -/
theorem convert_number_eq (value mode : Str) (places : Nat) (round_mode : Str)
    (hne : value ≠ []) :
    convert_number value mode places round_mode =
      (match pyFloatOfStr value with
       | none => .ok []
       | some num =>
         if mode = "integer".data then
           match num with
           | .finite q => .ok (natToStr (⌊q⌋).toNat)
           | .inf => .error ("OverflowError".data)
         else
           if round_mode = "up".data then
             match num with
             | .inf => .error ("OverflowError".data)
             | .finite q =>
               .ok (formatFixed places ((⌈q * 10 ^ places⌉ : ℚ) / 10 ^ places))
           else if round_mode = "down".data then
             match num with
             | .inf => .error ("OverflowError".data)
             | .finite q =>
               .ok (formatFixed places ((⌊q * 10 ^ places⌋ : ℚ) / 10 ^ places))
           else
             match num with
             | .inf => .ok ("inf".data)
             | .finite q => .ok (formatFixed places q)) := by
  unfold convert_number
  rw [if_neg hne]

/-- Unfolding of `convert_number` on a nonempty value with a finite parse. -/
theorem convert_number_finite (value mode : Str) (places : Nat)
    (round_mode : Str) (q : ℚ) (hne : value ≠ [])
    (hpf : pyFloatOfStr value = some (.finite q)) :
    convert_number value mode places round_mode =
      (if mode = "integer".data then .ok (natToStr (⌊q⌋).toNat)
       else if round_mode = "up".data then
         .ok (formatFixed places ((⌈q * 10 ^ places⌉ : ℚ) / 10 ^ places))
       else if round_mode = "down".data then
         .ok (formatFixed places ((⌊q * 10 ^ places⌋ : ℚ) / 10 ^ places))
       else .ok (formatFixed places q)) := by
  rw [convert_number_eq _ _ _ _ hne, hpf]

/-- The numeric pipeline (`extract_number` then `convert_number`) is
idempotent in integer mode and in decimal mode with explicit up/down
rounding, whenever the first pass succeeds. -/
theorem number_pipeline_idem (v : Cell) (mode : Str) (places : Nat)
    (round_mode : Str) (out : Str)
    (hr : mode = "integer".data ∨ round_mode = "up".data ∨
      round_mode = "down".data)
    (h : convert_number (extract_number v) mode places round_mode = .ok out) :
    convert_number (extract_number (some out)) mode places round_mode =
      .ok out := by
  by_cases hval : extract_number v = []
  · rw [hval] at h
    have h2 : (Except.ok ([] : Str) : Except Str Str) = .ok out := h
    have hout : out = [] := (Except.ok.inj h2).symm
    rw [hout]
    rfl
  · rw [convert_number_eq _ _ _ _ hval] at h
    cases hpf : pyFloatOfStr (extract_number v) with
    | none =>
      rw [hpf] at h
      have h2 : (Except.ok ([] : Str) : Except Str Str) = .ok out := h
      have hout : out = [] := (Except.ok.inj h2).symm
      rw [hout]
      rfl
    | some num =>
      rw [hpf] at h
      cases num with
      | inf =>
        have h' : (if mode = "integer".data then
            (Except.error ("OverflowError".data) : Except Str Str)
            else if round_mode = "up".data then .error ("OverflowError".data)
            else if round_mode = "down".data then .error ("OverflowError".data)
            else .ok ("inf".data)) = .ok out := h
        by_cases hmode : mode = "integer".data
        · rw [if_pos hmode] at h'
          exact Except.noConfusion h'
        · rw [if_neg hmode] at h'
          by_cases hup : round_mode = "up".data
          · rw [if_pos hup] at h'
            exact Except.noConfusion h'
          · rw [if_neg hup] at h'
            by_cases hdown : round_mode = "down".data
            · rw [if_pos hdown] at h'
              exact Except.noConfusion h'
            · rcases hr with hA | hA | hA
              · exact absurd hA hmode
              · exact absurd hA hup
              · exact absurd hA hdown
      | finite q =>
        have h' : (if mode = "integer".data then
            (Except.ok (natToStr (⌊q⌋).toNat) : Except Str Str)
            else if round_mode = "up".data then
              .ok (formatFixed places ((⌈q * 10 ^ places⌉ : ℚ) / 10 ^ places))
            else if round_mode = "down".data then
              .ok (formatFixed places ((⌊q * 10 ^ places⌋ : ℚ) / 10 ^ places))
            else .ok (formatFixed places q)) = .ok out := h
        obtain ⟨hq0, hqle⟩ := pyFloatOfStr_finite_bounds _ _ hpf
        by_cases hmode : mode = "integer".data
        · -- integer mode
          rw [if_pos hmode] at h'
          have hout : out = natToStr (⌊q⌋).toNat := (Except.ok.inj h').symm
          have hm_le : (((⌊q⌋).toNat : ℕ) : ℚ) ≤ DBL_MAX_NUM := by
            have hfl : ((⌊q⌋ : ℤ) : ℚ) ≤ q := Int.floor_le q
            have hnn : 0 ≤ ⌊q⌋ := Int.floor_nonneg.mpr hq0
            have hc1 : ((((⌊q⌋).toNat : ℕ) : ℤ) : ℚ) = ((⌊q⌋ : ℤ) : ℚ) :=
              congrArg (fun z : ℤ => (z : ℚ)) (Int.toNat_of_nonneg hnn)
            have hcast : (((⌊q⌋).toNat : ℕ) : ℚ) = ((⌊q⌋ : ℤ) : ℚ) := by
              rw [← hc1, Int.cast_natCast]
            rw [hcast]
            exact le_trans hfl hqle
          obtain ⟨hex, hpf2⟩ := natToStr_parse ((⌊q⌋).toNat) hm_le
          rw [hout, hex,
            convert_number_finite _ _ _ _ _ (natToStr_ne_nil _) hpf2,
            if_pos hmode, Int.floor_natCast, Int.toNat_natCast]
        · rw [if_neg hmode] at h'
          by_cases hup : round_mode = "up".data
          · -- round up
            rw [if_pos hup] at h'
            have hnn : 0 ≤ ⌈q * 10 ^ places⌉ :=
              Int.ceil_nonneg (by positivity)
            have hc1 : ((((⌈q * 10 ^ places⌉).toNat : ℕ) : ℤ) : ℚ) =
                ((⌈q * 10 ^ places⌉ : ℤ) : ℚ) :=
              congrArg (fun z : ℤ => (z : ℚ)) (Int.toNat_of_nonneg hnn)
            have hcast : ((⌈q * 10 ^ places⌉ : ℤ) : ℚ) =
                (((⌈q * 10 ^ places⌉).toNat : ℕ) : ℚ) := by
              rw [← hc1, Int.cast_natCast]
            have hout : out = formatFixed places
                ((((⌈q * 10 ^ places⌉).toNat : ℕ) : ℚ) / 10 ^ places) := by
              rw [← hcast]
              exact (Except.ok.inj h').symm
            have hle2 : ((((⌈q * 10 ^ places⌉).toNat : ℕ) : ℚ)) / 10 ^ places ≤
                DBL_MAX_NUM := by
              have hz : DBL_MAX_NUM * 10 ^ places =
                  ((17976931348623157 * 10 ^ 292 * 10 ^ places : ℤ) : ℚ) := by
                unfold DBL_MAX_NUM
                push_cast
                ring
              have h1 : q * 10 ^ places ≤ DBL_MAX_NUM * 10 ^ places :=
                mul_le_mul_of_nonneg_right hqle (by positivity)
              have h3 : ((⌈q * 10 ^ places⌉ : ℤ) : ℚ) ≤
                  DBL_MAX_NUM * 10 ^ places := by
                rw [hz] at h1 ⊢
                exact_mod_cast Int.ceil_le.mpr h1
              rw [← hcast]
              calc ((⌈q * 10 ^ places⌉ : ℤ) : ℚ) / 10 ^ places
                  ≤ (DBL_MAX_NUM * 10 ^ places) / 10 ^ places := by gcongr
                _ = DBL_MAX_NUM :=
                    mul_div_cancel_right₀ _
                      (by positivity : ((10:ℚ) ^ places) ≠ 0)
            obtain ⟨hne2, hex2, hpf2⟩ := formatFixed_fix places _ hle2
            rw [hout, hex2, convert_number_finite _ _ _ _ _ hne2 hpf2,
              if_neg hmode, if_pos hup,
              div_mul_cancel₀ _ (by positivity : ((10:ℚ) ^ places) ≠ 0),
              Int.ceil_natCast, Int.cast_natCast]
          · rw [if_neg hup] at h'
            by_cases hdown : round_mode = "down".data
            · -- round down
              rw [if_pos hdown] at h'
              have hnn : 0 ≤ ⌊q * 10 ^ places⌋ :=
                Int.floor_nonneg.mpr (by positivity)
              have hc1 : ((((⌊q * 10 ^ places⌋).toNat : ℕ) : ℤ) : ℚ) =
                  ((⌊q * 10 ^ places⌋ : ℤ) : ℚ) :=
                congrArg (fun z : ℤ => (z : ℚ)) (Int.toNat_of_nonneg hnn)
              have hcast : ((⌊q * 10 ^ places⌋ : ℤ) : ℚ) =
                  (((⌊q * 10 ^ places⌋).toNat : ℕ) : ℚ) := by
                rw [← hc1, Int.cast_natCast]
              have hout : out = formatFixed places
                  ((((⌊q * 10 ^ places⌋).toNat : ℕ) : ℚ) / 10 ^ places) := by
                rw [← hcast]
                exact (Except.ok.inj h').symm
              have hle2 : ((((⌊q * 10 ^ places⌋).toNat : ℕ) : ℚ)) /
                  10 ^ places ≤ DBL_MAX_NUM := by
                have h1 : ((⌊q * 10 ^ places⌋ : ℤ) : ℚ) ≤
                    DBL_MAX_NUM * 10 ^ places :=
                  le_trans (Int.floor_le _)
                    (mul_le_mul_of_nonneg_right hqle (by positivity))
                rw [← hcast]
                calc ((⌊q * 10 ^ places⌋ : ℤ) : ℚ) / 10 ^ places
                    ≤ (DBL_MAX_NUM * 10 ^ places) / 10 ^ places := by gcongr
                  _ = DBL_MAX_NUM :=
                      mul_div_cancel_right₀ _
                        (by positivity : ((10:ℚ) ^ places) ≠ 0)
              obtain ⟨hne2, hex2, hpf2⟩ := formatFixed_fix places _ hle2
              rw [hout, hex2, convert_number_finite _ _ _ _ _ hne2 hpf2,
                if_neg hmode, if_neg hup, if_pos hdown,
                div_mul_cancel₀ _ (by positivity : ((10:ℚ) ^ places) ≠ 0),
                Int.floor_natCast, Int.cast_natCast]
            · rcases hr with hA | hA | hA
              · exact absurd hA hmode
              · exact absurd hA hup
              · exact absurd hA hdown

/-! ## Idempotence of `clean_phone.py` -/

/-- A digit is in the phone inner character class. -/
theorem digit_innerChar (c : Char) (h : isDigitAscii c = true) :
    phoneInnerChar c = true := by
  unfold phoneInnerChar
  simp only [Bool.or_eq_true]
  exact Or.inl (Or.inl (Or.inl (Or.inl (Or.inl (Or.inl (Or.inl (Or.inl
    (Or.inl (Or.inl h)))))))))

/-- `strip()` fixes a string whose two ends are not whitespace. -/
theorem pyStrip_ends (c0 : Char) (X : Str) (z : Char)
    (h0 : pyWs c0 = false) (hz : pyWs z = false) :
    pyStrip (c0 :: (X ++ [z])) = c0 :: (X ++ [z]) := by
  unfold pyStrip
  rw [dropWhile_head_false _ _ _ h0]
  have hrev : (c0 :: (X ++ [z])).reverse = z :: (X.reverse ++ [c0]) := by
    rw [List.reverse_cons, List.reverse_append, List.reverse_singleton,
      List.singleton_append, List.cons_append]
  rw [hrev, dropWhile_head_false _ _ _ hz, ← hrev, List.reverse_reverse]

/-- Inversion of a successful repetition attempt. -/
theorem phoneTryK_shape (rest : Str) (k : Nat) (m : Str)
    (h : phoneTryK rest k = some m) :
    ∃ mid d2, m = mid ++ [d2] ∧ isDigitAscii d2 = true := by
  unfold phoneTryK at h
  dsimp only [] at h
  by_cases hc : ((rest.take k).length = k && (rest.take k).all phoneInnerChar) =
      true
  · rw [if_pos hc] at h
    cases hd : rest.drop k with
    | nil =>
      rw [hd] at h
      exact Option.noConfusion h
    | cons d2 after =>
      rw [hd] at h
      have h2 : (if (isDigitAscii d2 && !digitHead after) = true
          then some (rest.take k ++ [d2]) else none) = some m := h
      by_cases hdig : (isDigitAscii d2 && !digitHead after) = true
      · rw [if_pos hdig] at h2
        rw [Bool.and_eq_true] at hdig
        exact ⟨rest.take k, d2, (Option.some.inj h2).symm, hdig.1⟩
      · rw [if_neg hdig] at h2
        exact Option.noConfusion h2
  · rw [if_neg hc] at h
    exact Option.noConfusion h

/-- Inversion of the greedy repetition loop. -/
theorem phoneTryKs_shape (rest : Str) (ks : List Nat) (m : Str)
    (h : phoneTryKs rest ks = some m) :
    ∃ mid d2, m = mid ++ [d2] ∧ isDigitAscii d2 = true := by
  induction ks with
  | nil => exact Option.noConfusion h
  | cons k ks ih =>
    have h2 : (match phoneTryK rest k with
      | some m2 => some m2
      | none => phoneTryKs rest ks) = some m := h
    cases hk : phoneTryK rest k with
    | some m2 =>
      rw [hk] at h2
      rw [← Option.some.inj h2]
      exact phoneTryK_shape rest k m2 hk
    | none =>
      rw [hk] at h2
      exact ih h2

/-- Inversion of a successful anchored core match. -/
theorem phoneMatchCore_shape (s m : Str) (h : phoneMatchCore s = some m) :
    ∃ d mid d2, m = d :: (mid ++ [d2]) ∧ isDigitAscii d = true ∧
      isDigitAscii d2 = true := by
  cases s with
  | nil => exact Option.noConfusion h
  | cons d rest =>
    have h2 : (if isDigitAscii d = true
        then (phoneTryKs rest phoneKs).map (fun m2 => d :: m2) else none) =
        some m := h
    by_cases hd : isDigitAscii d = true
    · rw [if_pos hd] at h2
      rcases Option.map_eq_some'.mp h2 with ⟨m2, hks, hm⟩
      rcases phoneTryKs_shape rest phoneKs m2 hks with ⟨mid, d2, hm2, hd2⟩
      exact ⟨d, mid, d2, by rw [← hm, hm2], hd, hd2⟩
    · rw [if_neg hd] at h2
      exact Option.noConfusion h2

/-- Inversion of the position-match body (after the lookbehind test). -/
theorem phoneMatchAt_body_shape (s m : Str)
    (h : (match s with
      | '+' :: rest =>
        (match phoneMatchCore rest with
         | some m2 => some ('+' :: m2)
         | none => phoneMatchCore s)
      | _ => phoneMatchCore s) = some m) :
    (∃ core, m = '+' :: core ∧ ∃ d mid d2, core = d :: (mid ++ [d2]) ∧
      isDigitAscii d = true ∧ isDigitAscii d2 = true) ∨
    (∃ d mid d2, m = d :: (mid ++ [d2]) ∧ isDigitAscii d = true ∧
      isDigitAscii d2 = true) := by
  split at h
  · rename_i rest2
    cases hcr : phoneMatchCore rest2 with
    | some m2 =>
      rw [hcr] at h
      rcases phoneMatchCore_shape rest2 m2 hcr with ⟨d, mid, d2, hsh, hd, hd2⟩
      exact Or.inl ⟨m2, (Option.some.inj h).symm, d, mid, d2, hsh, hd, hd2⟩
    | none =>
      rw [hcr] at h
      exact Or.inr (phoneMatchCore_shape _ _ h)
  · exact Or.inr (phoneMatchCore_shape _ _ h)

/-- Inversion of a successful positioned match. -/
theorem phoneMatchAt_shape (prev : Option Char) (s m : Str)
    (h : phoneMatchAt prev s = some m) :
    (∃ core, m = '+' :: core ∧ ∃ d mid d2, core = d :: (mid ++ [d2]) ∧
      isDigitAscii d = true ∧ isDigitAscii d2 = true) ∨
    (∃ d mid d2, m = d :: (mid ++ [d2]) ∧ isDigitAscii d = true ∧
      isDigitAscii d2 = true) := by
  unfold phoneMatchAt at h
  cases prev with
  | none => exact phoneMatchAt_body_shape s m h
  | some pc =>
    by_cases hb : isDigitAscii pc = true
    · have h2 : (if isDigitAscii pc = true then none
          else (match s with
            | '+' :: rest =>
              (match phoneMatchCore rest with
               | some m2 => some ('+' :: m2)
               | none => phoneMatchCore s)
            | _ => phoneMatchCore s)) = some m := h
      rw [if_pos hb] at h2
      exact Option.noConfusion h2
    · have h2 : (if isDigitAscii pc = true then none
          else (match s with
            | '+' :: rest =>
              (match phoneMatchCore rest with
               | some m2 => some ('+' :: m2)
               | none => phoneMatchCore s)
            | _ => phoneMatchCore s)) = some m := h
      rw [if_neg hb] at h2
      exact phoneMatchAt_body_shape s m h2

/-- Inversion of a successful search. -/
theorem phoneSearch_shape (s : Str) : ∀ (prev : Option Char) (m : Str),
    phoneSearch prev s = some m →
    (∃ core, m = '+' :: core ∧ ∃ d mid d2, core = d :: (mid ++ [d2]) ∧
      isDigitAscii d = true ∧ isDigitAscii d2 = true) ∨
    (∃ d mid d2, m = d :: (mid ++ [d2]) ∧ isDigitAscii d = true ∧
      isDigitAscii d2 = true) := by
  induction s with
  | nil =>
    intro prev m h
    exact Option.noConfusion h
  | cons c rest ih =>
    intro prev m h
    have h2 : (match phoneMatchAt prev (c :: rest) with
      | some m2 => some m2
      | none => phoneSearch (some c) rest) = some m := h
    cases hat : phoneMatchAt prev (c :: rest) with
    | some m2 =>
      rw [hat] at h2
      rw [← Option.some.inj h2]
      exact phoneMatchAt_shape prev (c :: rest) m2 hat
    | none =>
      rw [hat] at h2
      exact ih (some c) m h2

/-- `"+"` is not a prefix of a string starting with another character. -/
theorem plus_not_prefix (d : Char) (X : Str) (hdp : d ≠ '+') :
    ("+".data).isPrefixOf (d :: X) = false := by
  show (('+' == d) && (([] : Str).isPrefixOf X)) = false
  rw [beq_eq_false_iff_ne.mpr (fun h => hdp h.symm), Bool.false_and]

/-- The normalization of any searched match is a nonempty `+`-prefixed
digit string. -/
theorem normalize_matched_shape (m : Str)
    (hshape : (∃ core, m = '+' :: core ∧ ∃ d mid d2,
        core = d :: (mid ++ [d2]) ∧ isDigitAscii d = true ∧
        isDigitAscii d2 = true) ∨
      (∃ d mid d2, m = d :: (mid ++ [d2]) ∧ isDigitAscii d = true ∧
        isDigitAscii d2 = true)) :
    ∃ E, normalize_to_e164 m = '+' :: E ∧ E ≠ [] ∧
      ∀ c ∈ E, isDigitAscii c = true := by
  rcases hshape with ⟨core, hm, d, mid, d2, hcore, hd, hd2⟩ |
    ⟨d, mid, d2, hm, hd, hd2⟩
  · -- m = '+' :: d :: (mid ++ [d2])
    subst hcore
    subst hm
    have hstripm : pyStrip ('+' :: (d :: (mid ++ [d2]))) =
        '+' :: (d :: (mid ++ [d2])) :=
      pyStrip_ends '+' (d :: mid) d2 (by decide) (isDigitAscii_not_ws d2 hd2)
    have hraw : normalize_raw_digits ('+' :: (d :: (mid ++ [d2]))) =
        '+' :: (d :: (mid ++ [d2])).filter isDigitAscii := by
      unfold normalize_raw_digits
      dsimp only []
      rw [hstripm]
      rfl
    refine ⟨(d :: (mid ++ [d2])).filter isDigitAscii, ?_, ?_, ?_⟩
    · unfold normalize_to_e164
      rw [if_neg (List.cons_ne_nil _ _)]
      dsimp only []
      rw [hraw, if_pos (by simp [List.isPrefixOf] : (("+".data).isPrefixOf
          ('+' :: (d :: (mid ++ [d2])).filter isDigitAscii)) = true)]
      unfold phonelib_format_e164
      exact ite_self _
    · rw [List.filter_cons_of_pos hd]
      exact List.cons_ne_nil _ _
    · intro c hc
      exact (List.mem_filter.mp hc).2
  · -- m = d :: (mid ++ [d2])
    subst hm
    have hdp : d ≠ '+' := fun h => by
      rw [h] at hd
      exact absurd hd (by decide)
    have hstripm : pyStrip (d :: (mid ++ [d2])) = d :: (mid ++ [d2]) :=
      pyStrip_ends d mid d2 (isDigitAscii_not_ws d hd)
        (isDigitAscii_not_ws d2 hd2)
    have hraw : normalize_raw_digits (d :: (mid ++ [d2])) =
        (d :: (mid ++ [d2])).filter isDigitAscii := by
      unfold normalize_raw_digits
      dsimp only []
      rw [hstripm]
      split
      · rename_i rest2 heq
        injection heq with h1 _
        exact absurd h1 hdp
      · rfl
    have hfc : (d :: (mid ++ [d2])).filter isDigitAscii =
        d :: (mid ++ [d2]).filter isDigitAscii :=
      List.filter_cons_of_pos hd
    refine ⟨'1' :: (d :: (mid ++ [d2]).filter isDigitAscii), ?_, ?_, ?_⟩
    · unfold normalize_to_e164
      rw [if_neg (List.cons_ne_nil _ _)]
      dsimp only []
      rw [hraw, hfc,
        plus_not_prefix d ((mid ++ [d2]).filter isDigitAscii) hdp,
        if_neg (by decide : ¬(false = true))]
      unfold phonelib_format_e164
      exact ite_self _
    · exact List.cons_ne_nil _ _
    · intro c hc
      rcases List.mem_cons.mp hc with h | h
      · rw [h]
        decide
      · rcases List.mem_cons.mp h with h2 | h2
        · rw [h2]
          exact hd
        · exact (List.mem_filter.mp h2).2

/-- On an all-digit tail the repetition succeeds exactly at the length that
consumes everything (the trailing lookahead rejects shorter attempts). -/
theorem phoneTryK_digits (E2 : Str) (hdig : ∀ c ∈ E2, isDigitAscii c = true)
    (k : Nat) :
    phoneTryK E2 k = if k + 1 = E2.length then some E2 else none := by
  rcases Nat.lt_trichotomy (k + 1) E2.length with hlt | heq | hgt
  · rw [if_neg (by omega : ¬(k + 1 = E2.length))]
    have h1 : (E2.take k).length = k := by
      rw [List.length_take]
      omega
    have h2 : (E2.take k).all phoneInnerChar = true :=
      List.all_eq_true.mpr (fun c hc =>
        digit_innerChar c (hdig c (List.mem_of_mem_take hc)))
    unfold phoneTryK
    dsimp only []
    rw [if_pos (by rw [Bool.and_eq_true]; exact ⟨decide_eq_true h1, h2⟩)]
    cases hd : E2.drop k with
    | nil => rfl
    | cons d2 after =>
      cases hafter : after with
      | nil =>
        have hL := congrArg List.length hd
        rw [List.length_drop, hafter] at hL
        simp at hL
        omega
      | cons a rest =>
        have hadig : isDigitAscii a = true :=
          hdig a (List.mem_of_mem_drop (show a ∈ E2.drop k from by
            rw [hd, hafter]
            exact List.mem_cons_of_mem d2 (List.mem_cons_self a rest)))
        show (if (isDigitAscii d2 && !digitHead (a :: rest)) = true
            then some (E2.take k ++ [d2]) else none) = none
        rw [show digitHead (a :: rest) = isDigitAscii a from rfl, hadig,
          Bool.not_true, Bool.and_false, if_neg (by decide : ¬(false = true))]
  · rw [if_pos heq]
    have h1 : (E2.take k).length = k := by
      rw [List.length_take]
      omega
    have h2 : (E2.take k).all phoneInnerChar = true :=
      List.all_eq_true.mpr (fun c hc =>
        digit_innerChar c (hdig c (List.mem_of_mem_take hc)))
    unfold phoneTryK
    dsimp only []
    rw [if_pos (by rw [Bool.and_eq_true]; exact ⟨decide_eq_true h1, h2⟩)]
    obtain ⟨z, hz⟩ := List.length_eq_one.mp
      (show (E2.drop k).length = 1 by rw [List.length_drop]; omega)
    rw [hz]
    have hzdig : isDigitAscii z = true :=
      hdig z (List.mem_of_mem_drop (show z ∈ E2.drop k from by
        rw [hz]
        exact List.mem_cons_self z []))
    show (if (isDigitAscii z && !digitHead []) = true
        then some (E2.take k ++ [z]) else none) = some E2
    rw [if_pos (by rw [hzdig]; rfl), ← hz, List.take_append_drop]
  · rw [if_neg (by omega : ¬(k + 1 = E2.length))]
    unfold phoneTryK
    dsimp only []
    by_cases hc : ((E2.take k).length = k && (E2.take k).all phoneInnerChar) =
        true
    · rw [if_pos hc, List.drop_eq_nil_of_le (by omega : E2.length ≤ k)]
    · rw [if_neg hc]

/-- The greedy loop finds the full-length repetition when its length is
offered. -/
theorem phoneTryKs_digits_some (E2 : Str)
    (hdig : ∀ c ∈ E2, isDigitAscii c = true) (ks : List Nat)
    (hmem : ∃ k ∈ ks, k + 1 = E2.length) :
    phoneTryKs E2 ks = some E2 := by
  induction ks with
  | nil =>
    rcases hmem with ⟨k, hk, _⟩
    exact absurd hk (List.not_mem_nil k)
  | cons k2 ks ih =>
    show (match phoneTryK E2 k2 with
      | some m => some m
      | none => phoneTryKs E2 ks) = some E2
    rw [phoneTryK_digits E2 hdig k2]
    by_cases hk2 : k2 + 1 = E2.length
    · rw [if_pos hk2]
    · rw [if_neg hk2]
      refine ih ?_
      rcases hmem with ⟨k, hkmem, hkeq⟩
      rcases List.mem_cons.mp hkmem with h | h
      · exact absurd (h ▸ hkeq) hk2
      · exact ⟨k, h, hkeq⟩

/-- The greedy loop fails when no offered length fits. -/
theorem phoneTryKs_digits_none (E2 : Str)
    (hdig : ∀ c ∈ E2, isDigitAscii c = true) (ks : List Nat)
    (hno : ∀ k ∈ ks, ¬(k + 1 = E2.length)) :
    phoneTryKs E2 ks = none := by
  induction ks with
  | nil => rfl
  | cons k2 ks ih =>
    show (match phoneTryK E2 k2 with
      | some m => some m
      | none => phoneTryKs E2 ks) = none
    rw [phoneTryK_digits E2 hdig k2,
      if_neg (hno k2 (List.mem_cons_self k2 ks))]
    exact ih (fun k hk => hno k (List.mem_cons_of_mem k2 hk))

/-- The digit lookbehind blocks every position of an all-digit string. -/
theorem phoneSearch_blocked (s : Str) (hdig : ∀ c ∈ s, isDigitAscii c = true) :
    ∀ prev : Char, isDigitAscii prev = true →
    phoneSearch (some prev) s = none := by
  induction s with
  | nil =>
    intro prev _
    rfl
  | cons c t ih =>
    intro prev hprev
    have hat : phoneMatchAt (some prev) (c :: t) = none := by
      have h2 : phoneMatchAt (some prev) (c :: t) =
          (if isDigitAscii prev = true then none
           else (match c :: t with
             | '+' :: rest =>
               (match phoneMatchCore rest with
                | some m2 => some ('+' :: m2)
                | none => phoneMatchCore (c :: t))
             | _ => phoneMatchCore (c :: t))) := rfl
      rw [h2, if_pos hprev]
    show (match phoneMatchAt (some prev) (c :: t) with
      | some m => some m
      | none => phoneSearch (some c) t) = none
    rw [hat]
    exact ih (fun c2 hc2 => hdig c2 (List.mem_cons_of_mem c hc2)) c
      (hdig c (List.mem_cons_self c t))

/-- The phone cleaner fixes every nonempty `+`-prefixed digit string. -/
theorem phone_plus_digits_fix (E : Str) (hne : E ≠ [])
    (hdig : ∀ c ∈ E, isDigitAscii c = true) :
    extract_and_clean_phone (some ('+' :: E)) = some ('+' :: E) := by
  rcases List.eq_nil_or_concat E with hnil | ⟨A, z, hAz⟩
  · exact absurd hnil hne
  rw [List.concat_eq_append] at hAz
  have hzdig : isDigitAscii z = true := hdig z (by
    rw [hAz]
    exact List.mem_append_right A (List.mem_cons_self z []))
  have hstrip : pyStrip ('+' :: E) = '+' :: E := by
    rw [hAz]
    exact pyStrip_ends '+' A z (by decide) (isDigitAscii_not_ws z hzdig)
  cases E with
  | nil => exact absurd rfl hne
  | cons e E2 =>
    have he : isDigitAscii e = true := hdig e (List.mem_cons_self e E2)
    have hdig2 : ∀ c ∈ E2, isDigitAscii c = true :=
      fun c hc => hdig c (List.mem_cons_of_mem e hc)
    have hcoreAt : phoneMatchCore ('+' :: e :: E2) = none := rfl
    have hcoreE : phoneMatchCore (e :: E2) =
        (phoneTryKs E2 phoneKs).map (fun m => e :: m) := by
      show (if isDigitAscii e = true
          then (phoneTryKs E2 phoneKs).map (fun m => e :: m) else none) = _
      rw [if_pos he]
    have hat : phoneMatchAt none ('+' :: e :: E2) =
        (match phoneMatchCore (e :: E2) with
         | some m => some ('+' :: m)
         | none => phoneMatchCore ('+' :: e :: E2)) := rfl
    have hnorm : normalize_to_e164 ('+' :: e :: E2) = '+' :: e :: E2 := by
      have hraw : normalize_raw_digits ('+' :: e :: E2) = '+' :: e :: E2 := by
        unfold normalize_raw_digits
        dsimp only []
        rw [hstrip]
        show '+' :: (e :: E2).filter isDigitAscii = '+' :: e :: E2
        rw [List.filter_eq_self.mpr hdig]
      unfold normalize_to_e164
      rw [if_neg (List.cons_ne_nil _ _)]
      dsimp only []
      rw [hraw, if_pos (by simp [List.isPrefixOf] :
        (("+".data).isPrefixOf ('+' :: e :: E2)) = true)]
      unfold phonelib_format_e164
      exact ite_self _
    by_cases hex : ∃ k ∈ phoneKs, k + 1 = E2.length
    · have htry : phoneTryKs E2 phoneKs = some E2 :=
        phoneTryKs_digits_some E2 hdig2 phoneKs hex
      have hsearch2 : phoneSearch none ('+' :: e :: E2) =
          some ('+' :: e :: E2) := by
        show (match phoneMatchAt none ('+' :: e :: E2) with
          | some m => some m
          | none => phoneSearch (some '+') (e :: E2)) = some ('+' :: e :: E2)
        rw [hat, hcoreE, htry]
        rfl
      unfold extract_and_clean_phone
      dsimp only []
      rw [hstrip, if_neg (List.cons_ne_nil _ _), hsearch2]
      show some (normalize_to_e164 ('+' :: e :: E2)) = some ('+' :: e :: E2)
      rw [hnorm]
    · push_neg at hex
      have htry : phoneTryKs E2 phoneKs = none :=
        phoneTryKs_digits_none E2 hdig2 phoneKs hex
      have hcoreE2 : phoneMatchCore (e :: E2) = none := by
        rw [hcoreE, htry]
        rfl
      have hat2 : phoneMatchAt none ('+' :: e :: E2) = none := by
        rw [hat, hcoreE2]
        exact hcoreAt
      have hep : e ≠ '+' := fun h => by
        rw [h] at he
        exact absurd he (by decide)
      have hMA1 : phoneMatchAt (some '+') (e :: E2) =
          phoneMatchCore (e :: E2) := by
        have h2 : phoneMatchAt (some '+') (e :: E2) =
            (if isDigitAscii '+' = true then none
             else (match e :: E2 with
               | '+' :: rest =>
                 (match phoneMatchCore rest with
                  | some m2 => some ('+' :: m2)
                  | none => phoneMatchCore (e :: E2))
               | _ => phoneMatchCore (e :: E2))) := rfl
        rw [h2, if_neg (by decide : ¬(isDigitAscii '+' = true))]
        split
        · rename_i rest2 heq
          injection heq with h1 _
          exact absurd h1 hep
        · rfl
      have hsearchE : phoneSearch (some '+') (e :: E2) = none := by
        show (match phoneMatchAt (some '+') (e :: E2) with
          | some m => some m
          | none => phoneSearch (some e) E2) = none
        rw [hMA1, hcoreE2]
        exact phoneSearch_blocked E2 hdig2 e he
      have hsearch2 : phoneSearch none ('+' :: e :: E2) = none := by
        show (match phoneMatchAt none ('+' :: e :: E2) with
          | some m => some m
          | none => phoneSearch (some '+') (e :: E2)) = none
        rw [hat2]
        exact hsearchE
      unfold extract_and_clean_phone
      dsimp only []
      rw [hstrip, if_neg (List.cons_ne_nil _ _), hsearch2]

/-- The phone cleaner is idempotent. -/
theorem extract_and_clean_phone_idem (v : Cell) :
    extract_and_clean_phone (extract_and_clean_phone v) =
      extract_and_clean_phone v := by
  cases v with
  | none => rfl
  | some s =>
    by_cases hstrip : pyStrip s = []
    · have h1 : extract_and_clean_phone (some s) = some [] := by
        unfold extract_and_clean_phone
        dsimp only []
        rw [if_pos hstrip, hstrip]
      rw [h1]
      rfl
    · cases hsearch : phoneSearch none (pyStrip s) with
      | none =>
        have h1 : extract_and_clean_phone (some s) = some s := by
          unfold extract_and_clean_phone
          dsimp only []
          rw [if_neg hstrip, hsearch]
        rw [h1]
        exact h1
      | some m =>
        have h1 : extract_and_clean_phone (some s) =
            some (normalize_to_e164 m) := by
          unfold extract_and_clean_phone
          dsimp only []
          rw [if_neg hstrip, hsearch]
        rcases normalize_matched_shape m
            (phoneSearch_shape (pyStrip s) none m hsearch)
          with ⟨E, hEdef, hEne, hEdig⟩
        rw [h1, hEdef]
        exact phone_plus_digits_fix E hEne hEdig

/-- Claim C1: idempotence of the single-column normalizers.  The phone,
e-mail, ZIP and state cleaners are idempotent on every cell; the website and
Facebook URL normalizers are idempotent on cells of printable non-`;[]`
characters (`urlSafe`); the LinkedIn normalizer additionally needs the input
free of double slashes; the Instagram normalizer is idempotent whenever its
output's username does not itself contain a deny-listed segment stem; the
alphanumeric cleaner is idempotent whenever the replacement text survives
the strip modes and is made of allowed characters (so in particular for the
default empty replacement); the numeric pipeline is idempotent in integer
mode whenever the first pass succeeds (in decimal mode the program is not
idempotent: real double rounding maps `0.065` to `0.07` and then `0.08`
under round-up, which the exact-rational float model cannot express, so no
decimal claim is made); and the spec's example holds: cleaning
`WWW.FACEBOOK.COM/acmecorp/` twice yields `www.facebook.com/acmecorp` both
times. -/
theorem single_column_normalizer_idem :
    (∀ v : Cell, extract_and_clean_phone (extract_and_clean_phone v) =
      extract_and_clean_phone v) ∧
    (∀ v : Cell, extract_email (some (extract_email v)) = extract_email v) ∧
    (∀ v : Cell, clean_zip (some (clean_zip v)) = clean_zip v) ∧
    (∀ (v : Cell) (mode : Str),
      clean_state (some (clean_state v mode)) mode = clean_state v mode) ∧
    (∀ v : Str, urlSafe v = true →
      normalize_url (some (normalize_url (some v))) = normalize_url (some v)) ∧
    (∀ v : Str, urlSafe v = true →
      normalize_facebook_url (some (normalize_facebook_url (some v))) =
        normalize_facebook_url (some v)) ∧
    (∀ v : Str, urlSafe v = true → noDoubleSlash v = true →
      normalize_linkedin_url (some (normalize_linkedin_url (some v))) =
        normalize_linkedin_url (some v)) ∧
    (∀ v : Cell, (∀ u, normalize_instagram v = "www.instagram.com/".data ++ u →
        (INVALID_INSTAGRAM_SEGMENTS.any
          (fun bad => infixOf bad (('/' :: u).map lowerChar ++ ['/']))) = false) →
      normalize_instagram (some (normalize_instagram v)) =
        normalize_instagram v) ∧
    (∀ (val : Cell) (extra replacement : Str) (sa sn : Bool),
      apply_strip_modes replacement sa sn = replacement →
      replacement.all (allowedChar extra) = true →
      clean_value (clean_value val extra replacement sa sn)
        extra replacement sa sn = clean_value val extra replacement sa sn) ∧
    (∀ (v : Cell) (places : Nat) (round_mode out : Str),
      convert_number (extract_number v) ("integer".data) places round_mode =
        .ok out →
      convert_number (extract_number (some out)) ("integer".data) places
        round_mode = .ok out) ∧
    (normalize_facebook_url (some ("WWW.FACEBOOK.COM/acmecorp/".data)) =
        "www.facebook.com/acmecorp".data ∧
      normalize_facebook_url (some ("www.facebook.com/acmecorp".data)) =
        "www.facebook.com/acmecorp".data) :=
  ⟨extract_and_clean_phone_idem,
   extract_email_idem,
   clean_zip_idem,
   clean_state_idem,
   normalize_url_idem,
   normalize_facebook_url_idem,
   normalize_linkedin_url_idem,
   normalize_instagram_idem,
   clean_value_idem,
   fun v places round_mode out h =>
     number_pipeline_idem v ("integer".data) places round_mode out
       (Or.inl rfl) h,
   by decide, by decide⟩

/-- The unamended claim C1 is false for the Instagram normalizer: the cell
`p` is turned into `www.instagram.com/p`, which a second pass rejects (its
path contains the deny-listed segment `/p/`), yielding the empty string. -/
theorem instagram_idem_counterexample :
    normalize_instagram (some ("p".data)) = "www.instagram.com/p".data ∧
    normalize_instagram (some (normalize_instagram (some ("p".data)))) = [] ∧
    normalize_instagram (some (normalize_instagram (some ("p".data)))) ≠
      normalize_instagram (some ("p".data)) := by
  refine ⟨by decide, by decide, ?_⟩
  intro h
  rw [show normalize_instagram (some (normalize_instagram (some ("p".data)))) =
      [] from by decide,
    show normalize_instagram (some ("p".data)) =
      "www.instagram.com/p".data from by decide] at h
  exact absurd h (by decide)

/-- Witness for `single_column_normalizer_idem`: each conditional clause is
instantiated at a concrete cell with its hypotheses discharged. -/
theorem single_column_normalizer_idem_witness :
    (extract_and_clean_phone (extract_and_clean_phone
        (some ("(555) 867-5309".data))) =
      extract_and_clean_phone (some ("(555) 867-5309".data))) ∧
    (extract_email (some (extract_email (some ("Bob <bob@example.com>".data)))) =
      extract_email (some ("Bob <bob@example.com>".data))) ∧
    (clean_zip (some (clean_zip (some ("02134-0000".data)))) =
      clean_zip (some ("02134-0000".data))) ∧
    (clean_state (some (clean_state (some ("  texas ".data)) ("abbr".data)))
        ("abbr".data) =
      clean_state (some ("  texas ".data)) ("abbr".data)) ∧
    (urlSafe ("HTTP://Example.com/About/".data) = true ∧
      normalize_url (some (normalize_url
          (some ("HTTP://Example.com/About/".data)))) =
        normalize_url (some ("HTTP://Example.com/About/".data))) ∧
    (urlSafe ("WWW.FACEBOOK.COM/acmecorp/".data) = true ∧
      normalize_facebook_url (some (normalize_facebook_url
          (some ("WWW.FACEBOOK.COM/acmecorp/".data)))) =
        normalize_facebook_url (some ("WWW.FACEBOOK.COM/acmecorp/".data))) ∧
    (urlSafe ("linkedin.com/in/bob".data) = true ∧
      noDoubleSlash ("linkedin.com/in/bob".data) = true ∧
      normalize_linkedin_url (some (normalize_linkedin_url
          (some ("linkedin.com/in/bob".data)))) =
        normalize_linkedin_url (some ("linkedin.com/in/bob".data))) ∧
    (normalize_instagram (some (normalize_instagram (some ("@acmecorp".data)))) =
      normalize_instagram (some ("@acmecorp".data))) ∧
    (apply_strip_modes [] false false = [] ∧
      ([] : Str).all (allowedChar []) = true ∧
      clean_value (clean_value (some ("a&b c".data)) [] [] false false)
          [] [] false false =
        clean_value (some ("a&b c".data)) [] [] false false) ∧
    (convert_number (extract_number (some ("3.14".data)))
        ("integer".data) 2 ("round".data) = .ok ("3".data) ∧
      convert_number (extract_number (some ("3".data)))
        ("integer".data) 2 ("round".data) = .ok ("3".data)) :=
  by
  have hnum1 : convert_number (extract_number (some ("3.14".data)))
      ("integer".data) 2 ("round".data) = .ok ("3".data) := by
    rw [show extract_number (some ("3.14".data)) = "3.14".data from by decide]
    rw [convert_number_finite ("3.14".data) ("integer".data) 2 ("round".data)
      (157 / 50) (by decide)
      (pyFloatOfStr_eq_finite _ 3 14 2 _ (by decide) (by norm_num)
        (by norm_num [DBL_MAX_NUM]))]
    rw [if_pos rfl, show (⌊(157 / 50 : ℚ)⌋) = 3 from by norm_num]
    decide
  exact
  ⟨single_column_normalizer_idem.1 (some ("(555) 867-5309".data)),
   single_column_normalizer_idem.2.1 (some ("Bob <bob@example.com>".data)),
   single_column_normalizer_idem.2.2.1 (some ("02134-0000".data)),
   single_column_normalizer_idem.2.2.2.1 (some ("  texas ".data)) ("abbr".data),
   ⟨by decide, single_column_normalizer_idem.2.2.2.2.1
     ("HTTP://Example.com/About/".data) (by decide)⟩,
   ⟨by decide, single_column_normalizer_idem.2.2.2.2.2.1
     ("WWW.FACEBOOK.COM/acmecorp/".data) (by decide)⟩,
   ⟨by decide, by decide, single_column_normalizer_idem.2.2.2.2.2.2.1
     ("linkedin.com/in/bob".data) (by decide) (by decide)⟩,
   single_column_normalizer_idem.2.2.2.2.2.2.2.1 (some ("@acmecorp".data)) (by
     intro u hu
     have h1 : "www.instagram.com/".data ++ "acmecorp".data =
         "www.instagram.com/".data ++ u := by
       rw [← hu]
       decide
     have h2 : u = "acmecorp".data := (List.append_cancel_left h1).symm
     rw [h2]
     decide),
   ⟨by decide, by decide, single_column_normalizer_idem.2.2.2.2.2.2.2.2.1
     (some ("a&b c".data)) [] [] false false (by decide) (by decide)⟩,
   ⟨hnum1, single_column_normalizer_idem.2.2.2.2.2.2.2.2.2.1
     (some ("3.14".data)) 2 ("round".data) ("3".data) hnum1⟩⟩

end Toolbox
